import Mathlib

/-!
Verification of the ternary-search-tree library (`ternary-tree`, file `src/lib.rs`).

The Rust code is shallowly embedded: `Link<T> = Option<Box<Node<T>>>` becomes the
inductive `Link`, whose `node` constructor carries the five fields of `Node<T>`
(`label`, `value`, `left`, `middle`, `right`); keys (`&str` walked by `Chars`)
become `List Char`; the in-place mutating functions return the new link together
with the values the Rust functions return.
-/

namespace TernaryTree

/-- `Link<T> = Option<Box<Node<T>>>`: either empty or a node with a `label`,
an optional `value` and three children `left`, `middle`, `right`. -/
inductive Link (T : Type) where
  | none : Link T
  | node (label : Char) (value : Option T) (left middle right : Link T) : Link T
deriving DecidableEq

/-- `struct Tst<T> { root: Link<T>, count: usize }` -/
structure Tst (T : Type) where
  root : Link T
  count : Nat
deriving DecidableEq

/-- `Tst::new()` -/
def Tst.new {T : Type} : Tst T := ⟨Link.none, 0⟩

/-- `Option::is_none` on a `Link` (`node.left.is_none()` in the Rust code). -/
def Link.isNone {T : Type} : Link T → Bool
  | Link.none => true
  | Link.node _ _ _ _ _ => false

/-- The chain of fresh nodes the Rust `None` arm of `insert_r` allocates: a
node per remaining key character, linked through `middle`, the value at the
end.  (In lib.rs:176-185 the fresh node's label equals the searched label, so
`choose_branch_and_do_insert` always takes the `Equal` branch there, and the
returned old value is always `None`.) -/
def newNode {T : Type} (label : Char) : List Char → T → Link T
  | [], value => Link.node label (some value) Link.none Link.none Link.none
  | l :: tail, value => Link.node label Option.none Link.none (newNode l tail value) Link.none

/-- `fn insert_r(link, label, key_tail, value) -> Option<T>` (lib.rs:153-189).
The Rust function mutates `link` and returns the old value; here it returns the
new link paired with the old value. -/
def insert_r {T : Type} : Link T → Char → List Char → T → Link T × Option T
  | Link.none, label, key_tail, value => (newNode label key_tail value, Option.none)
  | Link.node nl nv lf md rt, label, key_tail, value =>
    if label < nl then
      let r := insert_r lf label key_tail value
      (Link.node nl nv r.1 md rt, r.2)
    else if nl < label then
      let r := insert_r rt label key_tail value
      (Link.node nl nv lf md r.1, r.2)
    else
      match key_tail with
      | [] => (Link.node nl (some value) lf md rt, nv)
      | l :: tail =>
        let r := insert_r md l tail value
        (Link.node nl nv lf r.1 rt, r.2)

/-- `fn get_r(link, label, key_tail) -> Option<&T>` (lib.rs:192-222). -/
def get_r {T : Type} : Link T → Char → List Char → Option T
  | Link.none, _, _ => Option.none
  | Link.node nl nv lf md rt, label, key_tail =>
    if label < nl then get_r lf label key_tail
    else if nl < label then get_r rt label key_tail
    else
      match key_tail with
      | [] => nv
      | l :: tail => get_r md l tail

/-- `fn remove_r(link, label, key_tail) -> (bool, Option<T>)` (lib.rs:258-322).
Returns the rewritten link (before the parent applies the returned prune flag),
the prune flag, and the removed value. -/
def remove_r {T : Type} : Link T → Char → List Char → Link T × Bool × Option T
  | Link.none, _, _ => (Link.none, false, Option.none)
  | Link.node nl nv lf md rt, label, key_tail =>
    if label < nl then
      let r := remove_r lf label key_tail
      let lf2 := if r.2.1 then Link.none else r.1
      let more_pruning := nv.isNone && lf2.isNone && md.isNone && rt.isNone
      (Link.node nl nv lf2 md rt, more_pruning, r.2.2)
    else if nl < label then
      let r := remove_r rt label key_tail
      let rt2 := if r.2.1 then Link.none else r.1
      let more_pruning := nv.isNone && lf.isNone && md.isNone && rt2.isNone
      (Link.node nl nv lf md rt2, more_pruning, r.2.2)
    else
      match key_tail with
      | [] =>
        let old_value := nv
        let prune := old_value.isSome && lf.isNone && md.isNone && rt.isNone
        (Link.node nl Option.none lf md rt, prune, old_value)
      | l :: tail =>
        let r := remove_r md l tail
        let md2 := if r.2.1 then Link.none else r.1
        let more_pruning := nv.isNone && lf.isNone && md2.isNone && rt.isNone
        (Link.node nl nv lf md2 rt, more_pruning, r.2.2)

/-- `Tst::insert` (lib.rs:786-806): empty key returns `Some(value)` without
touching the tree; otherwise `insert_r` runs and `count` is incremented iff no
old value was replaced. -/
def Tst.insert {T : Type} (t : Tst T) (key : List Char) (value : T) : Tst T × Option T :=
  match key with
  | [] => (t, some value)
  | label :: key_tail =>
    let r := insert_r t.root label key_tail value
    ({ root := r.1, count := if r.2.isNone then t.count + 1 else t.count }, r.2)

/-- `Tst::get` (lib.rs:809-819). -/
def Tst.get {T : Type} (t : Tst T) (key : List Char) : Option T :=
  match key with
  | [] => Option.none
  | label :: key_tail => get_r t.root label key_tail

/-- `Tst::remove` (lib.rs:835-857): on `prune` the root link is dropped;
`count` is decremented iff a value was removed. -/
def Tst.remove {T : Type} (t : Tst T) (key : List Char) : Tst T × Option T :=
  let r :=
    match key with
    | [] => (t.root, false, Option.none)
    | label :: key_tail => remove_r t.root label key_tail
  let root := if r.2.1 then Link.none else r.1
  ({ root := root, count := if r.2.2.isSome then t.count - 1 else t.count }, r.2.2)

/-- `Tst::len` (lib.rs:860-863). -/
def Tst.len {T : Type} (t : Tst T) : Nat := t.count

/-- `fn visit_values_r(link, callback)` (lib.rs:452-472), with the callback
effect made explicit: the list of values passed to the callback, in call order. -/
def visit_values_r {T : Type} : Link T → List T
  | Link.none => []
  | Link.node _ nv lf md rt =>
    visit_values_r lf ++ nv.toList ++ visit_values_r md ++ visit_values_r rt

/-- `Tst::visit_values` (lib.rs:886-890). -/
def Tst.visit_values {T : Type} (t : Tst T) : List T := visit_values_r t.root

/-- The (key, value) pairs stored below a link, in the order the in-order walk
meets them.  Keys are relative to the link's position: a key is the list of
labels consumed on `middle` transitions, ending with the label of the node
holding the value. -/
def entries {T : Type} : Link T → List (List Char × T)
  | Link.none => []
  | Link.node lab nv lf md rt =>
    entries lf
      ++ (match nv with | some x => [([lab], x)] | Option.none => [])
      ++ (entries md).map (fun e => (lab :: e.1, e.2))
      ++ entries rt

/-- The stored keys below a link, in in-order. -/
def keyList {T : Type} (link : Link T) : List (List Char) := (entries link).map Prod.fst

/-- Model sequence of insertions starting from `Tst::new()`. -/
def applyInserts {T : Type} (ops : List (List Char × T)) : Tst T :=
  ops.foldl (fun t p => (t.insert p.1 p.2).1) Tst.new

/-- The reference map semantics of a sequence of insertions: the most recently
inserted value for a key, if any. -/
def modelGet {T : Type} (ops : List (List Char × T)) (k : List Char) : Option T :=
  ops.foldl (fun acc p => if p.1 = k then some p.2 else acc) Option.none

theorem get_r_node {T : Type} (nl : Char) (nv : Option T) (lf md rt : Link T)
    (label : Char) (kt : List Char) :
    get_r (Link.node nl nv lf md rt) label kt =
      if label < nl then get_r lf label kt
      else if nl < label then get_r rt label kt
      else match kt with | [] => nv | l :: tail => get_r md l tail := by
  cases kt <;> simp [get_r]

theorem newNode_isNone {T : Type} (label : Char) (kt : List Char) (v : T) :
    (newNode label kt v).isNone = false := by
  cases kt <;> simp [newNode, Link.isNone]

theorem get_newNode_same {T : Type} (label : Char) (kt : List Char) (v : T) :
    get_r (newNode label kt v) label kt = some v := by
  induction kt generalizing label with
  | nil => simp [newNode, get_r]
  | cons l tail ih => simp [newNode, get_r, ih]

theorem get_newNode_other {T : Type} (label : Char) (kt : List Char) (v : T) :
    ∀ (c' : Char) (tail' : List Char), ¬ (label = c' ∧ kt = tail') →
      get_r (newNode label kt v) c' tail' = Option.none := by
  induction kt generalizing label with
  | nil =>
    intro c' tail' hne
    rcases lt_trichotomy c' label with h | h | h
    · simp [newNode, get_r_node, h, not_lt_of_gt h, get_r]
    · subst h
      cases tail' with
      | nil => exact absurd ⟨rfl, rfl⟩ hne
      | cons l' t' => simp [newNode, get_r_node, get_r]
    · simp [newNode, get_r_node, h, not_lt_of_gt h, get_r]
  | cons l tail ih =>
    intro c' tail' hne
    rcases lt_trichotomy c' label with h | h | h
    · simp [newNode, get_r_node, h, not_lt_of_gt h, get_r]
    · subst h
      cases tail' with
      | nil => simp [newNode, get_r_node, get_r]
      | cons l' t' =>
        have hne' : ¬ (l = l' ∧ tail = t') := by
          rintro ⟨rfl, rfl⟩; exact hne ⟨rfl, rfl⟩
        simp [newNode, get_r_node, get_r, ih l l' t' hne']
    · simp [newNode, get_r_node, h, not_lt_of_gt h, get_r]

theorem insert_r_node {T : Type} (nl : Char) (nv : Option T) (lf md rt : Link T)
    (label : Char) (kt : List Char) (v : T) :
    insert_r (Link.node nl nv lf md rt) label kt v =
      if label < nl then
        ((Link.node nl nv (insert_r lf label kt v).1 md rt), (insert_r lf label kt v).2)
      else if nl < label then
        ((Link.node nl nv lf md (insert_r rt label kt v).1), (insert_r rt label kt v).2)
      else match kt with
        | [] => (Link.node nl (some v) lf md rt, nv)
        | l :: tail => ((Link.node nl nv lf (insert_r md l tail v).1 rt), (insert_r md l tail v).2) := by
  cases kt <;> simp [insert_r]

theorem insert_r_snd {T : Type} (link : Link T) (c : Char) (tail : List Char) (v : T) :
    (insert_r link c tail v).2 = get_r link c tail := by
  induction link, c, tail, v using insert_r.induct with
  | case1 label key_tail value => simp [insert_r, get_r]
  | case2 nl nv lf md rt label key_tail value h ih =>
    simp [insert_r_node, get_r_node, h, ih]
  | case3 nl nv lf md rt label key_tail value h1 h2 ih =>
    simp [insert_r_node, get_r_node, h1, h2, ih]
  | case4 nl nv lf md rt label value h1 h2 =>
    simp [insert_r_node, get_r_node, h1, h2]
  | case5 nl nv lf md rt label value h1 h2 l tail ih =>
    simp [insert_r_node, get_r_node, h1, h2, ih]

theorem get_insert_r_same {T : Type} (link : Link T) (c : Char) (tail : List Char) (v : T) :
    get_r (insert_r link c tail v).1 c tail = some v := by
  induction link, c, tail, v using insert_r.induct with
  | case1 label key_tail value => simp [insert_r, get_newNode_same]
  | case2 nl nv lf md rt label key_tail value h ih =>
    simp [insert_r_node, get_r_node, h, ih]
  | case3 nl nv lf md rt label key_tail value h1 h2 ih =>
    simp [insert_r_node, get_r_node, h1, h2, ih]
  | case4 nl nv lf md rt label value h1 h2 =>
    simp [insert_r_node, get_r_node, h1, h2]
  | case5 nl nv lf md rt label value h1 h2 l tail ih =>
    simp [insert_r_node, get_r_node, h1, h2, ih]

theorem get_insert_r_other {T : Type} (link : Link T) (c : Char) (tail : List Char) (v : T) :
    ∀ (c' : Char) (tail' : List Char), ¬ (c = c' ∧ tail = tail') →
      get_r (insert_r link c tail v).1 c' tail' = get_r link c' tail' := by
  induction link, c, tail, v using insert_r.induct with
  | case1 label key_tail value =>
    intro c' tail' hne
    simp [insert_r, get_newNode_other label key_tail value c' tail' hne, get_r]
  | case2 nl nv lf md rt label key_tail value h ih =>
    intro c' tail' hne
    rcases lt_trichotomy c' nl with h' | h' | h'
    · simp [insert_r_node, get_r_node, h, h', ih c' tail' hne]
    · subst h'
      simp [insert_r_node, get_r_node, h]
    · simp [insert_r_node, get_r_node, h, h', not_lt_of_gt h']
  | case3 nl nv lf md rt label key_tail value h1 h2 ih =>
    intro c' tail' hne
    rcases lt_trichotomy c' nl with h' | h' | h'
    · simp [insert_r_node, get_r_node, h1, h2, h']
    · subst h'
      simp [insert_r_node, get_r_node, h1, h2]
    · simp [insert_r_node, get_r_node, h1, h2, h', not_lt_of_gt h', ih c' tail' hne]
  | case4 nl nv lf md rt label value h1 h2 =>
    intro c' tail' hne
    have heq : label = nl := le_antisymm (not_lt.1 h2) (not_lt.1 h1)
    subst heq
    rcases lt_trichotomy c' label with h' | h' | h'
    · simp [insert_r_node, get_r_node, h1, h2, h', not_lt_of_gt h']
    · subst h'
      cases tail' with
      | nil => exact absurd ⟨rfl, rfl⟩ hne
      | cons l' t' => simp [insert_r_node, get_r_node]
    · simp [insert_r_node, get_r_node, h', not_lt_of_gt h']
  | case5 nl nv lf md rt label value h1 h2 l tail ih =>
    intro c' tail' hne
    have heq : label = nl := le_antisymm (not_lt.1 h2) (not_lt.1 h1)
    subst heq
    rcases lt_trichotomy c' label with h' | h' | h'
    · simp [insert_r_node, get_r_node, h', not_lt_of_gt h']
    · subst h'
      cases tail' with
      | nil => simp [insert_r_node, get_r_node]
      | cons l' t' =>
        have hne' : ¬ (l = l' ∧ tail = t') := by
          rintro ⟨rfl, rfl⟩; exact hne ⟨rfl, rfl⟩
        simp [insert_r_node, get_r_node, ih l' t' hne']
    · simp [insert_r_node, get_r_node, h', not_lt_of_gt h']

theorem Tst.insert_snd {T : Type} (t : Tst T) (k : List Char) (v : T) (hk : k ≠ []) :
    (t.insert k v).2 = t.get k := by
  cases k with
  | nil => exact absurd rfl hk
  | cons c tail => simp [Tst.insert, Tst.get, insert_r_snd]

theorem Tst.insert_count {T : Type} (t : Tst T) (k : List Char) (v : T) (hk : k ≠ []) :
    ((t.insert k v).1).count = if (t.get k).isNone then t.count + 1 else t.count := by
  cases k with
  | nil => exact absurd rfl hk
  | cons c tail =>
    simp only [Tst.insert, Tst.get, insert_r_snd]

theorem Tst.get_insert {T : Type} (t : Tst T) (k : List Char) (v : T) (k' : List Char)
    (hk : k ≠ []) :
    (t.insert k v).1.get k' = if k' = k then some v else t.get k' := by
  cases k with
  | nil => exact absurd rfl hk
  | cons c tail =>
    cases k' with
    | nil => simp [Tst.insert, Tst.get]
    | cons c' tail' =>
      by_cases h : c' = c ∧ tail' = tail
      · obtain ⟨rfl, rfl⟩ := h
        simp [Tst.insert, Tst.get, get_insert_r_same]
      · have h2 : ¬ (c = c' ∧ tail = tail') := by
          rintro ⟨rfl, rfl⟩; exact h ⟨rfl, rfl⟩
        have h3 : ¬ (c' :: tail' = c :: tail) := by
          intro he; injection he with he1 he2; exact h ⟨he1, he2⟩
        simp [Tst.insert, Tst.get, get_insert_r_other t.root c tail v c' tail' h2, h3]

theorem applyInserts_snoc {T : Type} (ops : List (List Char × T)) (p : List Char × T) :
    applyInserts (ops ++ [p]) = ((applyInserts ops).insert p.1 p.2).1 := by
  simp [applyInserts, List.foldl_append]

theorem modelGet_snoc {T : Type} (ops : List (List Char × T)) (p : List Char × T)
    (k : List Char) :
    modelGet (ops ++ [p]) k = if p.1 = k then some p.2 else modelGet ops k := by
  simp [modelGet, List.foldl_append]

theorem modelGet_eq_none_iff {T : Type} (ops : List (List Char × T)) (k : List Char) :
    modelGet ops k = Option.none ↔ ∀ q ∈ ops, q.1 ≠ k := by
  induction ops using List.reverseRecOn with
  | nil => simp [modelGet]
  | append_singleton ops p ih =>
    rw [modelGet_snoc]
    by_cases h : p.1 = k
    · rw [if_pos h]
      constructor
      · intro hc; cases hc
      · intro hall
        exact absurd h (hall p (List.mem_append_right _ (List.mem_singleton.2 rfl)))
    · rw [if_neg h, ih]
      constructor
      · intro hall q hq
        rcases List.mem_append.1 hq with hq1 | hq2
        · exact hall q hq1
        · rw [List.mem_singleton.1 hq2]; exact h
      · intro hall q hq
        exact hall q (List.mem_append_left _ hq)

theorem applyInserts_spec {T : Type} (ops : List (List Char × T))
    (hne : ∀ p ∈ ops, p.1 ≠ []) :
    (∀ k, k ≠ [] → (applyInserts ops).get k = modelGet ops k) ∧
    (applyInserts ops).count = (ops.map Prod.fst).toFinset.card := by
  induction ops using List.reverseRecOn with
  | nil =>
    constructor
    · intro k hk
      cases k with
      | nil => exact absurd rfl hk
      | cons c tail => simp [applyInserts, Tst.new, Tst.get, get_r, modelGet]
    · simp [applyInserts, Tst.new]
  | append_singleton ops p ih =>
    have hp : p.1 ≠ [] := hne p (by simp)
    have hops : ∀ q ∈ ops, q.1 ≠ [] := fun q hq => hne q (by simp [hq])
    obtain ⟨ihg, ihc⟩ := ih hops
    constructor
    · intro k hk
      rw [applyInserts_snoc, Tst.get_insert _ _ _ _ hp, modelGet_snoc]
      by_cases h : k = p.1
      · simp [h]
      · simp [h, Ne.symm h, ihg k hk]
    · rw [applyInserts_snoc, Tst.insert_count _ _ _ hp, ihc]
      have hm : (applyInserts ops).get p.1 = modelGet ops p.1 := ihg p.1 hp
      have hcard : ((ops ++ [p]).map Prod.fst).toFinset
          = insert p.1 (ops.map Prod.fst).toFinset := by
        rw [List.map_append, List.toFinset_append, List.map_singleton, List.toFinset_cons,
          List.toFinset_nil, Finset.union_comm, Finset.insert_union, Finset.empty_union]
      rw [hcard]
      by_cases hmem : p.1 ∈ ops.map Prod.fst
      · obtain ⟨q, hq, hq1⟩ := List.mem_map.1 hmem
        have hgn : modelGet ops p.1 ≠ Option.none := by
          rw [Ne, modelGet_eq_none_iff]
          intro hall
          exact hall q hq hq1
        have hg2 : ¬ ((applyInserts ops).get p.1).isNone := by
          rw [hm]; simpa [Option.isNone_iff_eq_none] using hgn
        rw [if_neg hg2, Finset.insert_eq_self.2 (List.mem_toFinset.2 hmem)]
      · have hgn : modelGet ops p.1 = Option.none := by
          rw [modelGet_eq_none_iff]
          intro q hq hq1
          exact hmem (List.mem_map.2 ⟨q, hq, hq1⟩)
        have hg2 : ((applyInserts ops).get p.1).isNone := by
          rw [hm, hgn]; rfl
        rw [if_pos hg2,
          Finset.card_insert_of_not_mem (fun hc => hmem (List.mem_toFinset.1 hc))]

/-- C1: after any sequence of insertions of non-empty keys into an initially
empty tree, `insert` returns the previously stored value (absent if none) and
bumps the count exactly when there was none; `get` returns the most recently
inserted value for each key (and absent for all others, since `modelGet` is
absent there); and `len()` is the number of distinct inserted keys. -/
theorem C1_insert_get_len {T : Type} (ops : List (List Char × T))
    (hne : ∀ p ∈ ops, p.1 ≠ []) :
    (∀ k v, k ≠ [] → ((applyInserts ops).insert k v).2 = (applyInserts ops).get k) ∧
    (∀ k v, k ≠ [] → ((applyInserts ops).insert k v).1.len =
      if ((applyInserts ops).get k).isNone
        then (applyInserts ops).len + 1 else (applyInserts ops).len) ∧
    (∀ k, k ≠ [] → (applyInserts ops).get k = modelGet ops k) ∧
    (applyInserts ops).len = (ops.map Prod.fst).toFinset.card := by
  obtain ⟨hg, hc⟩ := applyInserts_spec ops hne
  exact ⟨fun k v hk => Tst.insert_snd _ k v hk,
    fun k v hk => Tst.insert_count _ k v hk, hg, hc⟩

theorem C1_insert_get_len_witness :
    ((applyInserts [(['a'], 0), (['a', 'b'], 1), (['a'], 2)] : Tst Nat).get ['a'] =
      modelGet [(['a'], 0), (['a', 'b'], 1), (['a'], 2)] ['a']) ∧
    (applyInserts [(['a'], 0), (['a', 'b'], 1), (['a'], 2)] : Tst Nat).len =
      (([(['a'], 0), (['a', 'b'], 1), (['a'], 2)] : List (List Char × Nat)).map
        Prod.fst).toFinset.card :=
  ⟨(C1_insert_get_len [(['a'], 0), (['a', 'b'], 1), (['a'], 2)]
      (by decide)).2.2.1 ['a'] (by decide),
    (C1_insert_get_len [(['a'], 0), (['a', 'b'], 1), (['a'], 2)] (by decide)).2.2.2⟩

/-- C8 claims the empty-key insert returns an absent result; the code instead
hands the value back: `Tst::insert` returns `Some(value)` when the key is
empty (lib.rs:792). -/
theorem C8_counterexample :
    ((Tst.new : Tst Nat).insert [] 7).2 = some 7 ∧
      ((Tst.new : Tst Nat).insert [] 7).2 ≠ Option.none := by
  exact ⟨rfl, by simp [Tst.insert, Tst.new]⟩

theorem remove_r_node {T : Type} (nl : Char) (nv : Option T) (lf md rt : Link T)
    (label : Char) (kt : List Char) :
    remove_r (Link.node nl nv lf md rt) label kt =
      if label < nl then
        (Link.node nl nv
            (if (remove_r lf label kt).2.1 then Link.none else (remove_r lf label kt).1) md rt,
          nv.isNone
            && (if (remove_r lf label kt).2.1 then Link.none
                else (remove_r lf label kt).1).isNone
            && md.isNone && rt.isNone,
          (remove_r lf label kt).2.2)
      else if nl < label then
        (Link.node nl nv lf md
            (if (remove_r rt label kt).2.1 then Link.none else (remove_r rt label kt).1),
          nv.isNone && lf.isNone && md.isNone
            && (if (remove_r rt label kt).2.1 then Link.none
                else (remove_r rt label kt).1).isNone,
          (remove_r rt label kt).2.2)
      else match kt with
        | [] =>
          (Link.node nl Option.none lf md rt,
            nv.isSome && lf.isNone && md.isNone && rt.isNone, nv)
        | l :: tail =>
          (Link.node nl nv lf
            (if (remove_r md l tail).2.1 then Link.none else (remove_r md l tail).1) rt,
            nv.isNone && lf.isNone
              && (if (remove_r md l tail).2.1 then Link.none
                  else (remove_r md l tail).1).isNone
              && rt.isNone,
            (remove_r md l tail).2.2) := by
  cases kt <;> simp [remove_r]

/-- The pruning invariant of §4.1 / §7: no node reachable from a link both
lacks a value and has three empty children. -/
def noDead {T : Type} : Link T → Bool
  | Link.none => true
  | Link.node _ nv lf md rt =>
    (nv.isSome || !(lf.isNone && md.isNone && rt.isNone))
      && (noDead lf && noDead md && noDead rt)

/-- Number of stored values below a link (what `count` tracks). -/
def valueCount {T : Type} : Link T → Nat
  | Link.none => 0
  | Link.node _ nv lf md rt =>
    (if nv.isSome then 1 else 0) + valueCount lf + valueCount md + valueCount rt

/-- A mutation of a `Tst`: an `insert` or a `remove` call. -/
inductive Op (T : Type) where
  | ins (k : List Char) (v : T) : Op T
  | del (k : List Char) : Op T

def applyOp {T : Type} (t : Tst T) : Op T → Tst T
  | Op.ins k v => (t.insert k v).1
  | Op.del k => (t.remove k).1

/-- The tree after an arbitrary sequence of insert/remove calls from `Tst::new()`. -/
def applyOps {T : Type} (ops : List (Op T)) : Tst T :=
  ops.foldl applyOp Tst.new

theorem Link.isNone_none {T : Type} : (Link.none : Link T).isNone = true := rfl

theorem Link.isNone_node {T : Type} (lab : Char) (nv : Option T) (lf md rt : Link T) :
    (Link.node lab nv lf md rt).isNone = false := rfl

theorem noDead_newNode {T : Type} (label : Char) (kt : List Char) (v : T) :
    noDead (newNode label kt v) = true := by
  induction kt generalizing label with
  | nil => simp [newNode, noDead, Link.isNone_none]
  | cons l tail ih => simp [newNode, noDead, Link.isNone_none, newNode_isNone, ih]

theorem valueCount_newNode {T : Type} (label : Char) (kt : List Char) (v : T) :
    valueCount (newNode label kt v) = 1 := by
  induction kt generalizing label with
  | nil => simp [newNode, valueCount]
  | cons l tail ih => simp [newNode, valueCount, ih]

theorem insert_r_fst_isNone {T : Type} (link : Link T) (c : Char) (tail : List Char) (v : T) :
    ((insert_r link c tail v).1).isNone = false := by
  cases link with
  | none => simp [insert_r, newNode_isNone]
  | node nl nv lf md rt =>
    rw [insert_r_node]
    split_ifs <;> cases tail <;> simp [Link.isNone]

theorem noDead_insert_r {T : Type} (link : Link T) (c : Char) (tail : List Char) (v : T)
    (hnd : noDead link = true) : noDead (insert_r link c tail v).1 = true := by
  induction link, c, tail, v using insert_r.induct with
  | case1 label key_tail value => simp [insert_r, noDead_newNode]
  | case2 nl nv lf md rt label key_tail value h ih =>
    simp only [noDead, Bool.and_eq_true] at hnd
    obtain ⟨hhead, ⟨hlf, hmd⟩, hrt⟩ := hnd
    simp [insert_r_node, h, noDead, insert_r_fst_isNone, ih hlf, hmd, hrt]
  | case3 nl nv lf md rt label key_tail value h1 h2 ih =>
    simp only [noDead, Bool.and_eq_true] at hnd
    obtain ⟨hhead, ⟨hlf, hmd⟩, hrt⟩ := hnd
    simp [insert_r_node, h1, h2, noDead, insert_r_fst_isNone, ih hrt, hlf, hmd]
  | case4 nl nv lf md rt label value h1 h2 =>
    simp only [noDead, Bool.and_eq_true] at hnd
    obtain ⟨hhead, ⟨hlf, hmd⟩, hrt⟩ := hnd
    simp [insert_r_node, h1, h2, noDead, hlf, hmd, hrt]
  | case5 nl nv lf md rt label value h1 h2 l tail ih =>
    simp only [noDead, Bool.and_eq_true] at hnd
    obtain ⟨hhead, ⟨hlf, hmd⟩, hrt⟩ := hnd
    simp [insert_r_node, h1, h2, noDead, insert_r_fst_isNone, ih hmd, hlf, hrt]

theorem noDead_head_of_prune_false {T : Type} (nv : Option T) (a b c : Bool)
    (h : (nv.isNone && a && b && c) = false) :
    (nv.isSome || !(a && b && c)) = true := by
  rcases nv with _ | w <;> cases a <;> cases b <;> cases c <;> simp_all

theorem noDead_head_of_remove_here {T : Type} (nv : Option T) (a b c : Bool)
    (hmp : (nv.isSome && a && b && c) = false)
    (hhead : (nv.isSome || !(a && b && c)) = true) :
    (!(a && b && c)) = true := by
  rcases nv with _ | w <;> cases a <;> cases b <;> cases c <;> simp_all

theorem noDead_remove_r {T : Type} (link : Link T) (c : Char) (tail : List Char)
    (hnd : noDead link = true) :
    noDead (if (remove_r link c tail).2.1 then Link.none else (remove_r link c tail).1)
      = true := by
  induction link, c, tail using remove_r.induct with
  | case1 c tail => simp [remove_r, noDead]
  | case2 nl nv lf md rt label key_tail h ih =>
    simp only [noDead, Bool.and_eq_true] at hnd
    obtain ⟨hhead, ⟨hlf, hmd⟩, hrt⟩ := hnd
    have ih2 := ih hlf
    rw [remove_r_node, if_pos h]
    cases hmp : nv.isNone
        && (if (remove_r lf label key_tail).2.1 then Link.none
            else (remove_r lf label key_tail).1).isNone
        && md.isNone && rt.isNone with
    | true => simp [hmp, noDead]
    | false =>
      simp only [hmp, Bool.false_eq_true, if_false]
      simp only [noDead, Bool.and_eq_true]
      exact ⟨noDead_head_of_prune_false nv _ _ _ hmp, ⟨ih2, hmd⟩, hrt⟩
  | case3 nl nv lf md rt label key_tail h1 h2 ih =>
    simp only [noDead, Bool.and_eq_true] at hnd
    obtain ⟨hhead, ⟨hlf, hmd⟩, hrt⟩ := hnd
    have ih2 := ih hrt
    rw [remove_r_node, if_neg h1, if_pos h2]
    cases hmp : nv.isNone && lf.isNone && md.isNone
        && (if (remove_r rt label key_tail).2.1 then Link.none
            else (remove_r rt label key_tail).1).isNone with
    | true => simp [hmp, noDead]
    | false =>
      simp only [hmp, Bool.false_eq_true, if_false]
      simp only [noDead, Bool.and_eq_true]
      exact ⟨noDead_head_of_prune_false nv _ _ _ hmp, ⟨hlf, hmd⟩, ih2⟩
  | case4 nl nv lf md rt label h1 h2 =>
    simp only [noDead, Bool.and_eq_true] at hnd
    obtain ⟨hhead, ⟨hlf, hmd⟩, hrt⟩ := hnd
    rw [remove_r_node, if_neg h1, if_neg h2]
    cases hmp : nv.isSome && lf.isNone && md.isNone && rt.isNone with
    | true => simp [hmp, noDead]
    | false =>
      simp only [hmp, Bool.false_eq_true, if_false]
      simp only [noDead, Bool.and_eq_true]
      refine ⟨?_, ⟨hlf, hmd⟩, hrt⟩
      have hh := noDead_head_of_remove_here nv _ _ _ hmp hhead
      simp [hh]
  | case5 nl nv lf md rt label h1 h2 l tail ih =>
    simp only [noDead, Bool.and_eq_true] at hnd
    obtain ⟨hhead, ⟨hlf, hmd⟩, hrt⟩ := hnd
    have ih2 := ih hmd
    rw [remove_r_node, if_neg h1, if_neg h2]
    cases hmp : nv.isNone && lf.isNone
        && (if (remove_r md l tail).2.1 then Link.none
            else (remove_r md l tail).1).isNone
        && rt.isNone with
    | true => simp [hmp, noDead]
    | false =>
      simp only [hmp, Bool.false_eq_true, if_false]
      simp only [noDead, Bool.and_eq_true]
      exact ⟨noDead_head_of_prune_false nv _ _ _ hmp, ⟨hlf, ih2⟩, hrt⟩

theorem Link.eq_none_of_isNone {T : Type} (l : Link T) (h : l.isNone = true) :
    l = Link.none := by
  cases l with
  | none => rfl
  | node lab nv lf md rt => simp [Link.isNone] at h

theorem prune_false_of_head {T : Type} (nv : Option T) (a b c : Bool)
    (hhead : (nv.isSome || !(a && b && c)) = true) :
    (nv.isNone && a && b && c) = false := by
  rcases nv with _ | w <;> cases a <;> cases b <;> cases c <;> simp_all

theorem remove_r_snd {T : Type} (link : Link T) (c : Char) (tail : List Char) :
    (remove_r link c tail).2.2 = get_r link c tail := by
  induction link, c, tail using remove_r.induct with
  | case1 c tail => simp [remove_r, get_r]
  | case2 nl nv lf md rt label key_tail h ih =>
    rw [remove_r_node, if_pos h, get_r_node, if_pos h]
    simpa using ih
  | case3 nl nv lf md rt label key_tail h1 h2 ih =>
    rw [remove_r_node, if_neg h1, if_pos h2, get_r_node, if_neg h1, if_pos h2]
    simpa using ih
  | case4 nl nv lf md rt label h1 h2 =>
    rw [remove_r_node, if_neg h1, if_neg h2, get_r_node, if_neg h1, if_neg h2]
  | case5 nl nv lf md rt label h1 h2 l tail ih =>
    rw [remove_r_node, if_neg h1, if_neg h2, get_r_node, if_neg h1, if_neg h2]
    simpa using ih

theorem remove_r_notfound {T : Type} (link : Link T) (c : Char) (tail : List Char)
    (hnd : noDead link = true) (hg : get_r link c tail = Option.none) :
    remove_r link c tail = (link, false, Option.none) := by
  induction link, c, tail using remove_r.induct with
  | case1 c tail => simp [remove_r]
  | case2 nl nv lf md rt label key_tail h ih =>
    rw [get_r_node, if_pos h] at hg
    simp only [noDead, Bool.and_eq_true] at hnd
    obtain ⟨hhead, ⟨hlf, hmd⟩, hrt⟩ := hnd
    rw [remove_r_node, if_pos h, ih hlf hg]
    simp [prune_false_of_head nv _ _ _ hhead]
  | case3 nl nv lf md rt label key_tail h1 h2 ih =>
    rw [get_r_node, if_neg h1, if_pos h2] at hg
    simp only [noDead, Bool.and_eq_true] at hnd
    obtain ⟨hhead, ⟨hlf, hmd⟩, hrt⟩ := hnd
    rw [remove_r_node, if_neg h1, if_pos h2, ih hrt hg]
    simp [prune_false_of_head nv _ _ _ hhead]
  | case4 nl nv lf md rt label h1 h2 =>
    rw [get_r_node, if_neg h1, if_neg h2] at hg
    rw [remove_r_node, if_neg h1, if_neg h2]
    subst hg
    simp
  | case5 nl nv lf md rt label h1 h2 l tail ih =>
    rw [get_r_node, if_neg h1, if_neg h2] at hg
    simp only [noDead, Bool.and_eq_true] at hnd
    obtain ⟨hhead, ⟨hlf, hmd⟩, hrt⟩ := hnd
    simp at hg
    rw [remove_r_node, if_neg h1, if_neg h2]
    simp [ih hmd hg, prune_false_of_head nv _ _ _ hhead]

theorem vc_if_prune {T : Type} (b : Bool) (l : Link T) (h : b = true → valueCount l = 0) :
    valueCount (if b then Link.none else l) = valueCount l := by
  cases b with
  | false => rfl
  | true => simp [valueCount, h rfl]

theorem valueCount_insert_r {T : Type} (link : Link T) (c : Char) (tail : List Char) (v : T) :
    valueCount (insert_r link c tail v).1 =
      valueCount link + (if (get_r link c tail).isNone then 1 else 0) := by
  induction link, c, tail, v using insert_r.induct with
  | case1 label key_tail value => simp [insert_r, valueCount_newNode, valueCount, get_r]
  | case2 nl nv lf md rt label key_tail value h ih =>
    rw [insert_r_node, if_pos h, get_r_node, if_pos h]
    simp only [valueCount]
    omega
  | case3 nl nv lf md rt label key_tail value h1 h2 ih =>
    rw [insert_r_node, if_neg h1, if_pos h2, get_r_node, if_neg h1, if_pos h2]
    simp only [valueCount]
    omega
  | case4 nl nv lf md rt label value h1 h2 =>
    rw [insert_r_node, if_neg h1, if_neg h2, get_r_node, if_neg h1, if_neg h2]
    rcases nv with _ | w <;> simp [valueCount] <;> omega
  | case5 nl nv lf md rt label value h1 h2 l tail ih =>
    rw [insert_r_node, if_neg h1, if_neg h2, get_r_node, if_neg h1, if_neg h2]
    simp only [valueCount]
    omega

theorem valueCount_remove_r {T : Type} (link : Link T) (c : Char) (tail : List Char) :
    valueCount link =
      valueCount (if (remove_r link c tail).2.1 then Link.none else (remove_r link c tail).1)
        + (if (get_r link c tail).isSome then 1 else 0) := by
  induction link, c, tail using remove_r.induct with
  | case1 c tail => simp [remove_r, get_r, valueCount]
  | case2 nl nv lf md rt label key_tail h ih =>
    have hz : (nv.isNone
          && (if (remove_r lf label key_tail).2.1 then Link.none
              else (remove_r lf label key_tail).1).isNone
          && md.isNone && rt.isNone) = true →
        valueCount (Link.node nl nv
          (if (remove_r lf label key_tail).2.1 then Link.none
            else (remove_r lf label key_tail).1) md rt) = 0 := by
      intro hmp
      simp only [Bool.and_eq_true] at hmp
      obtain ⟨⟨⟨hnv, hlf2⟩, hmd⟩, hrt⟩ := hmp
      rw [Link.eq_none_of_isNone _ hlf2, Link.eq_none_of_isNone _ hmd,
        Link.eq_none_of_isNone _ hrt]
      simp [valueCount, Option.isNone_iff_eq_none.1 hnv]
    rw [remove_r_node, if_pos h, get_r_node, if_pos h]
    simp only
    rw [vc_if_prune _ _ hz]
    simp only [valueCount]
    omega
  | case3 nl nv lf md rt label key_tail h1 h2 ih =>
    have hz : (nv.isNone && lf.isNone && md.isNone
          && (if (remove_r rt label key_tail).2.1 then Link.none
              else (remove_r rt label key_tail).1).isNone) = true →
        valueCount (Link.node nl nv lf md
          (if (remove_r rt label key_tail).2.1 then Link.none
            else (remove_r rt label key_tail).1)) = 0 := by
      intro hmp
      simp only [Bool.and_eq_true] at hmp
      obtain ⟨⟨⟨hnv, hlf⟩, hmd⟩, hrt2⟩ := hmp
      rw [Link.eq_none_of_isNone _ hlf, Link.eq_none_of_isNone _ hmd,
        Link.eq_none_of_isNone _ hrt2]
      simp [valueCount, Option.isNone_iff_eq_none.1 hnv]
    rw [remove_r_node, if_neg h1, if_pos h2, get_r_node, if_neg h1, if_pos h2]
    simp only
    rw [vc_if_prune _ _ hz]
    simp only [valueCount]
    omega
  | case4 nl nv lf md rt label h1 h2 =>
    have hz : (nv.isSome && lf.isNone && md.isNone && rt.isNone) = true →
        valueCount (Link.node nl Option.none lf md rt) = 0 := by
      intro hmp
      simp only [Bool.and_eq_true] at hmp
      obtain ⟨⟨⟨hnv, hlf⟩, hmd⟩, hrt⟩ := hmp
      rw [Link.eq_none_of_isNone _ hlf, Link.eq_none_of_isNone _ hmd,
        Link.eq_none_of_isNone _ hrt]
      simp [valueCount]
    rw [remove_r_node, if_neg h1, if_neg h2, get_r_node, if_neg h1, if_neg h2]
    simp only
    rw [vc_if_prune _ _ hz]
    rcases nv with _ | w <;> simp [valueCount] <;> omega
  | case5 nl nv lf md rt label h1 h2 l tail ih =>
    have hz : (nv.isNone && lf.isNone
          && (if (remove_r md l tail).2.1 then Link.none
              else (remove_r md l tail).1).isNone
          && rt.isNone) = true →
        valueCount (Link.node nl nv lf
          (if (remove_r md l tail).2.1 then Link.none
            else (remove_r md l tail).1) rt) = 0 := by
      intro hmp
      simp only [Bool.and_eq_true] at hmp
      obtain ⟨⟨⟨hnv, hlf⟩, hmd2⟩, hrt⟩ := hmp
      rw [Link.eq_none_of_isNone _ hlf, Link.eq_none_of_isNone _ hmd2,
        Link.eq_none_of_isNone _ hrt]
      simp [valueCount, Option.isNone_iff_eq_none.1 hnv]
    rw [remove_r_node, if_neg h1, if_neg h2, get_r_node, if_neg h1, if_neg h2]
    simp only
    rw [vc_if_prune _ _ hz]
    simp only [valueCount]
    omega

/-- The global invariant maintained by every `Tst` mutation: the pruning
invariant and the fact that `count` counts stored values. -/
def Tst.inv {T : Type} (t : Tst T) : Prop :=
  noDead t.root = true ∧ t.count = valueCount t.root

theorem inv_applyOp {T : Type} (t : Tst T) (op : Op T) (h : t.inv) : (applyOp t op).inv := by
  obtain ⟨hnd, hc⟩ := h
  cases op with
  | ins k v =>
    cases k with
    | nil => exact ⟨hnd, hc⟩
    | cons c tail =>
      constructor
      · simpa [applyOp, Tst.insert] using noDead_insert_r t.root c tail v hnd
      · simp only [applyOp, Tst.insert, insert_r_snd]
        rw [valueCount_insert_r t.root c tail v, ← hc]
        rcases hg : get_r t.root c tail with _ | w <;> simp [hg]
  | del k =>
    cases k with
    | nil => exact ⟨hnd, hc⟩
    | cons c tail =>
      constructor
      · simpa [applyOp, Tst.remove] using noDead_remove_r t.root c tail hnd
      · simp only [applyOp, Tst.remove, remove_r_snd]
        have hv := valueCount_remove_r t.root c tail
        rcases hg : get_r t.root c tail with _ | w
        · rw [hg] at hv
          simp at hv ⊢
          omega
        · rw [hg] at hv
          simp at hv ⊢
          omega

/-- The head of a stored key, required to be strictly below the node label
(left-subtree side condition of the TST ordering invariant). -/
def headLt (lab : Char) (k : List Char) : Bool :=
  match k with
  | [] => false
  | c :: _ => decide (c < lab)

/-- Right-subtree side condition: key head strictly above the node label. -/
def headGt (lab : Char) (k : List Char) : Bool :=
  match k with
  | [] => false
  | c :: _ => decide (lab < c)

/-- The TST ordering invariant (spec §3): keys reached through `left` start
with a character strictly below the node label, keys through `right` strictly
above; `middle` is unconstrained (it advances the key position). -/
def ordInv {T : Type} : Link T → Bool
  | Link.none => true
  | Link.node lab _ lf md rt =>
    ordInv lf && ordInv md && ordInv rt
      && (keyList lf).all (headLt lab) && (keyList rt).all (headGt lab)

theorem entries_node {T : Type} (lab : Char) (nv : Option T) (lf md rt : Link T) :
    entries (Link.node lab nv lf md rt) =
      entries lf ++ (match nv with | some x => [([lab], x)] | Option.none => [])
        ++ (entries md).map (fun e => (lab :: e.1, e.2)) ++ entries rt := by
  simp [entries]

theorem keyList_node {T : Type} (lab : Char) (nv : Option T) (lf md rt : Link T) :
    keyList (Link.node lab nv lf md rt) =
      keyList lf ++ (match nv with | some _ => [[lab]] | Option.none => [])
        ++ (keyList md).map (fun k => lab :: k) ++ keyList rt := by
  cases nv <;> simp [keyList, entries_node]

theorem keyList_ne_nil {T : Type} (link : Link T) : ∀ k ∈ keyList link, k ≠ [] := by
  induction link with
  | none => intro k hk; simp [keyList, entries] at hk
  | node lab nv lf md rt ihl ihm ihr =>
    intro k hk
    rw [keyList_node] at hk
    simp only [List.mem_append, List.mem_map] at hk
    rcases hk with ((hk | hk) | ⟨k0, hk0, rfl⟩) | hk
    · exact ihl k hk
    · cases nv with
      | none => simp at hk
      | some w =>
        simp at hk
        rw [hk]
        simp
    · simp
    · exact ihr k hk

theorem keyList_newNode {T : Type} (label : Char) (kt : List Char) (v : T) :
    keyList (newNode label kt v) = [label :: kt] := by
  induction kt generalizing label with
  | nil => simp [newNode, keyList, entries]
  | cons l tail ih =>
    simp only [newNode]
    rw [keyList_node, ih]
    simp [keyList, entries]

theorem mem_keyList_insert_r {T : Type} (link : Link T) (c : Char) (tail : List Char)
    (v : T) : ∀ k ∈ keyList (insert_r link c tail v).1, k ∈ keyList link ∨ k = c :: tail := by
  induction link, c, tail, v using insert_r.induct with
  | case1 label key_tail value =>
    intro k hk
    rw [insert_r] at hk
    simp only [keyList_newNode] at hk
    right
    simpa using hk
  | case2 nl nv lf md rt label key_tail value h ih =>
    intro k hk
    rw [insert_r_node, if_pos h] at hk
    rw [keyList_node] at hk
    rw [keyList_node]
    simp only [List.mem_append, List.mem_map] at hk ⊢
    rcases hk with ((hk | hk) | hk) | hk
    · rcases ih k hk with h2 | h2
      · exact Or.inl (Or.inl (Or.inl (Or.inl h2)))
      · exact Or.inr h2
    · exact Or.inl (Or.inl (Or.inl (Or.inr hk)))
    · exact Or.inl (Or.inl (Or.inr hk))
    · exact Or.inl (Or.inr hk)
  | case3 nl nv lf md rt label key_tail value h1 h2 ih =>
    intro k hk
    rw [insert_r_node, if_neg h1, if_pos h2] at hk
    rw [keyList_node] at hk
    rw [keyList_node]
    simp only [List.mem_append, List.mem_map] at hk ⊢
    rcases hk with ((hk | hk) | hk) | hk
    · exact Or.inl (Or.inl (Or.inl (Or.inl hk)))
    · exact Or.inl (Or.inl (Or.inl (Or.inr hk)))
    · exact Or.inl (Or.inl (Or.inr hk))
    · rcases ih k hk with h3 | h3
      · exact Or.inl (Or.inr h3)
      · exact Or.inr h3
  | case4 nl nv lf md rt label value h1 h2 =>
    have heq : label = nl := le_antisymm (not_lt.1 h2) (not_lt.1 h1)
    subst heq
    intro k hk
    rw [insert_r_node, if_neg h1, if_neg h2] at hk
    rw [keyList_node] at hk
    rw [keyList_node]
    simp only [List.mem_append, List.mem_map] at hk ⊢
    rcases hk with ((hk | hk) | hk) | hk
    · exact Or.inl (Or.inl (Or.inl (Or.inl hk)))
    · simp at hk
      exact Or.inr (by rw [hk])
    · exact Or.inl (Or.inl (Or.inr hk))
    · exact Or.inl (Or.inr hk)
  | case5 nl nv lf md rt label value h1 h2 l tail ih =>
    have heq : label = nl := le_antisymm (not_lt.1 h2) (not_lt.1 h1)
    subst heq
    intro k hk
    rw [insert_r_node, if_neg h1, if_neg h2] at hk
    rw [keyList_node] at hk
    rw [keyList_node]
    simp only [List.mem_append, List.mem_map] at hk ⊢
    rcases hk with ((hk | hk) | ⟨k0, hk0, rfl⟩) | hk
    · exact Or.inl (Or.inl (Or.inl (Or.inl hk)))
    · exact Or.inl (Or.inl (Or.inl (Or.inr hk)))
    · rcases ih k0 hk0 with h3 | h3
      · exact Or.inl (Or.inl (Or.inr ⟨k0, h3, rfl⟩))
      · rw [h3]
        exact Or.inr rfl
    · exact Or.inl (Or.inr hk)

theorem mem_keyList_remove_r_fst {T : Type} (link : Link T) (c : Char) (tail : List Char) :
    ∀ k ∈ keyList (remove_r link c tail).1, k ∈ keyList link := by
  induction link, c, tail using remove_r.induct with
  | case1 c tail => intro k hk; simpa [remove_r] using hk
  | case2 nl nv lf md rt label key_tail h ih =>
    intro k hk
    rw [remove_r_node, if_pos h] at hk
    rw [keyList_node] at hk
    rw [keyList_node]
    simp only [List.mem_append, List.mem_map] at hk ⊢
    rcases hk with ((hk | hk) | hk) | hk
    · rcases hb : (remove_r lf label key_tail).2.1 with _ | _
      · rw [hb] at hk
        simp only [if_neg Bool.false_ne_true] at hk
        exact Or.inl (Or.inl (Or.inl (ih k hk)))
      · rw [hb] at hk
        simp [keyList, entries] at hk
    · exact Or.inl (Or.inl (Or.inr hk))
    · exact Or.inl (Or.inr hk)
    · exact Or.inr hk
  | case3 nl nv lf md rt label key_tail h1 h2 ih =>
    intro k hk
    rw [remove_r_node, if_neg h1, if_pos h2] at hk
    rw [keyList_node] at hk
    rw [keyList_node]
    simp only [List.mem_append, List.mem_map] at hk ⊢
    rcases hk with ((hk | hk) | hk) | hk
    · exact Or.inl (Or.inl (Or.inl hk))
    · exact Or.inl (Or.inl (Or.inr hk))
    · exact Or.inl (Or.inr hk)
    · rcases hb : (remove_r rt label key_tail).2.1 with _ | _
      · rw [hb] at hk
        simp only [if_neg Bool.false_ne_true] at hk
        exact Or.inr (ih k hk)
      · rw [hb] at hk
        simp [keyList, entries] at hk
  | case4 nl nv lf md rt label h1 h2 =>
    intro k hk
    rw [remove_r_node, if_neg h1, if_neg h2] at hk
    rw [keyList_node] at hk
    rw [keyList_node]
    simp only [List.mem_append, List.mem_map] at hk ⊢
    rcases hk with ((hk | hk) | hk) | hk
    · exact Or.inl (Or.inl (Or.inl hk))
    · simp at hk
    · exact Or.inl (Or.inr hk)
    · exact Or.inr hk
  | case5 nl nv lf md rt label h1 h2 l tail ih =>
    intro k hk
    rw [remove_r_node, if_neg h1, if_neg h2] at hk
    rw [keyList_node] at hk
    rw [keyList_node]
    simp only [List.mem_append, List.mem_map] at hk ⊢
    rcases hk with ((hk | hk) | ⟨k0, hk0, rfl⟩) | hk
    · exact Or.inl (Or.inl (Or.inl hk))
    · exact Or.inl (Or.inl (Or.inr hk))
    · rcases hb : (remove_r md l tail).2.1 with _ | _
      · rw [hb] at hk0
        simp only [if_neg Bool.false_ne_true] at hk0
        exact Or.inl (Or.inr ⟨k0, ih k0 hk0, rfl⟩)
      · rw [hb] at hk0
        simp [keyList, entries] at hk0
    · exact Or.inr hk

theorem mem_keyList_remove_if {T : Type} (link : Link T) (c : Char) (tail : List Char) :
    ∀ k ∈ keyList
      (if (remove_r link c tail).2.1 then Link.none else (remove_r link c tail).1),
      k ∈ keyList link := by
  intro k hk
  rcases hb : (remove_r link c tail).2.1 with _ | _
  · rw [hb] at hk
    simp only [if_neg Bool.false_ne_true] at hk
    exact mem_keyList_remove_r_fst link c tail k hk
  · rw [hb] at hk
    simp [keyList, entries] at hk

theorem ordInv_node_iff {T : Type} (lab : Char) (nv : Option T) (lf md rt : Link T) :
    ordInv (Link.node lab nv lf md rt) = true ↔
      (ordInv lf = true ∧ ordInv md = true ∧ ordInv rt = true ∧
        (∀ k ∈ keyList lf, headLt lab k = true) ∧
        (∀ k ∈ keyList rt, headGt lab k = true)) := by
  simp [ordInv, Bool.and_eq_true, List.all_eq_true, and_assoc]

theorem ordInv_newNode {T : Type} (label : Char) (kt : List Char) (v : T) :
    ordInv (newNode label kt v) = true := by
  induction kt generalizing label with
  | nil => simp [newNode, ordInv, keyList, entries]
  | cons l tail ih => simp [newNode, ordInv, keyList, entries, ih]

theorem ordInv_insert_r {T : Type} (link : Link T) (c : Char) (tail : List Char) (v : T)
    (h : ordInv link = true) : ordInv (insert_r link c tail v).1 = true := by
  induction link, c, tail, v using insert_r.induct with
  | case1 label key_tail value => simp [insert_r, ordInv_newNode]
  | case2 nl nv lf md rt label key_tail value hlt ih =>
    rw [ordInv_node_iff] at h
    obtain ⟨hlf, hmd, hrt, hhl, hhr⟩ := h
    rw [insert_r_node, if_pos hlt, ordInv_node_iff]
    refine ⟨ih hlf, hmd, hrt, ?_, hhr⟩
    intro k hk
    rcases mem_keyList_insert_r lf label key_tail value k hk with h2 | h2
    · exact hhl k h2
    · rw [h2]
      simp [headLt, hlt]
  | case3 nl nv lf md rt label key_tail value h1 h2 ih =>
    rw [ordInv_node_iff] at h
    obtain ⟨hlf, hmd, hrt, hhl, hhr⟩ := h
    rw [insert_r_node, if_neg h1, if_pos h2, ordInv_node_iff]
    refine ⟨hlf, hmd, ih hrt, hhl, ?_⟩
    intro k hk
    rcases mem_keyList_insert_r rt label key_tail value k hk with h3 | h3
    · exact hhr k h3
    · rw [h3]
      simp [headGt, h2]
  | case4 nl nv lf md rt label value h1 h2 =>
    rw [ordInv_node_iff] at h
    rw [insert_r_node, if_neg h1, if_neg h2, ordInv_node_iff]
    exact h
  | case5 nl nv lf md rt label value h1 h2 l tail ih =>
    rw [ordInv_node_iff] at h
    obtain ⟨hlf, hmd, hrt, hhl, hhr⟩ := h
    rw [insert_r_node, if_neg h1, if_neg h2, ordInv_node_iff]
    exact ⟨hlf, ih hmd, hrt, hhl, hhr⟩

theorem ordInv_remove_r {T : Type} (link : Link T) (c : Char) (tail : List Char)
    (h : ordInv link = true) :
    ordInv (if (remove_r link c tail).2.1 then Link.none else (remove_r link c tail).1)
      = true := by
  induction link, c, tail using remove_r.induct with
  | case1 c tail => simp [remove_r, ordInv]
  | case2 nl nv lf md rt label key_tail hlt ih =>
    rw [ordInv_node_iff] at h
    obtain ⟨hlf, hmd, hrt, hhl, hhr⟩ := h
    rw [remove_r_node, if_pos hlt]
    cases hb : (nv.isNone
        && (if (remove_r lf label key_tail).2.1 then Link.none
            else (remove_r lf label key_tail).1).isNone
        && md.isNone && rt.isNone) with
    | true => simp [hb, ordInv]
    | false =>
      simp only [hb, Bool.false_eq_true, if_false]
      rw [ordInv_node_iff]
      refine ⟨ih hlf, hmd, hrt, ?_, hhr⟩
      intro k hk
      exact hhl k (mem_keyList_remove_if lf label key_tail k hk)
  | case3 nl nv lf md rt label key_tail h1 h2 ih =>
    rw [ordInv_node_iff] at h
    obtain ⟨hlf, hmd, hrt, hhl, hhr⟩ := h
    rw [remove_r_node, if_neg h1, if_pos h2]
    cases hb : (nv.isNone && lf.isNone && md.isNone
        && (if (remove_r rt label key_tail).2.1 then Link.none
            else (remove_r rt label key_tail).1).isNone) with
    | true => simp [hb, ordInv]
    | false =>
      simp only [hb, Bool.false_eq_true, if_false]
      rw [ordInv_node_iff]
      refine ⟨hlf, hmd, ih hrt, hhl, ?_⟩
      intro k hk
      exact hhr k (mem_keyList_remove_if rt label key_tail k hk)
  | case4 nl nv lf md rt label h1 h2 =>
    rw [ordInv_node_iff] at h
    rw [remove_r_node, if_neg h1, if_neg h2]
    cases hb : (nv.isSome && lf.isNone && md.isNone && rt.isNone) with
    | true => simp [hb, ordInv]
    | false =>
      simp only [hb, Bool.false_eq_true, if_false]
      rw [ordInv_node_iff]
      exact h
  | case5 nl nv lf md rt label h1 h2 l tail ih =>
    rw [ordInv_node_iff] at h
    obtain ⟨hlf, hmd, hrt, hhl, hhr⟩ := h
    rw [remove_r_node, if_neg h1, if_neg h2]
    cases hb : (nv.isNone && lf.isNone
        && (if (remove_r md l tail).2.1 then Link.none
            else (remove_r md l tail).1).isNone
        && rt.isNone) with
    | true => simp [hb, ordInv]
    | false =>
      simp only [hb, Bool.false_eq_true, if_false]
      rw [ordInv_node_iff]
      exact ⟨hlf, ih hmd, hrt, hhl, hhr⟩

theorem ordInv_applyOp {T : Type} (t : Tst T) (op : Op T)
    (h : ordInv t.root = true) : ordInv (applyOp t op).root = true := by
  cases op with
  | ins k v =>
    cases k with
    | nil => exact h
    | cons c tail => simpa [applyOp, Tst.insert] using ordInv_insert_r t.root c tail v h
  | del k =>
    cases k with
    | nil => exact h
    | cons c tail => simpa [applyOp, Tst.remove] using ordInv_remove_r t.root c tail h

theorem ordInv_applyOps {T : Type} (ops : List (Op T)) :
    ordInv (applyOps ops).root = true := by
  suffices hgen : ∀ t : Tst T, ordInv t.root = true → ordInv ((ops.foldl applyOp t).root) = true by
    exact hgen Tst.new rfl
  induction ops with
  | nil => intro t h; exact h
  | cons op ops ih => intro t h; exact ih _ (ordInv_applyOp t op h)

theorem headLt_iff (lab : Char) (k : List Char) :
    headLt lab k = true ↔ ∃ c t2, k = c :: t2 ∧ c < lab := by
  cases k <;> simp [headLt]

theorem headGt_iff (lab : Char) (k : List Char) :
    headGt lab k = true ↔ ∃ c t2, k = c :: t2 ∧ lab < c := by
  cases k <;> simp [headGt]

/-- Under the ordering invariant, the in-order key list is strictly increasing
in lexicographic order. -/
theorem keyList_sorted {T : Type} (link : Link T) (h : ordInv link = true) :
    (keyList link).Pairwise (List.Lex (· < ·)) := by
  induction link with
  | none => simp [keyList, entries]
  | node lab nv lf md rt ihl ihm ihr =>
    rw [ordInv_node_iff] at h
    obtain ⟨hlf, hmd, hrt, hhl, hhr⟩ := h
    rw [keyList_node]
    have memTwo : ∀ b ∈ (match nv with | some _ => [[lab]] | (Option.none : Option T) => []),
        b = [lab] := by
      intro b hb
      cases nv <;> simpa using hb
    have memThree : ∀ b ∈ (keyList md).map (fun k => lab :: k),
        ∃ k2, b = lab :: k2 ∧ k2 ≠ [] := by
      intro b hb
      obtain ⟨k2, hk2, rfl⟩ := List.mem_map.1 hb
      exact ⟨k2, rfl, keyList_ne_nil md k2 hk2⟩
    have memFour : ∀ b ∈ keyList rt, ∃ c t2, b = c :: t2 ∧ lab < c := by
      intro b hb
      exact (headGt_iff lab b).1 (hhr b hb)
    have memOne : ∀ a ∈ keyList lf, ∃ c t2, a = c :: t2 ∧ c < lab := by
      intro a ha
      exact (headLt_iff lab a).1 (hhl a ha)
    have lexNe : ∀ k2 : List Char, k2 ≠ [] → List.Lex (· < ·) ([] : List Char) k2 := by
      intro k2 hk2
      cases k2 with
      | nil => exact absurd rfl hk2
      | cons c t2 => exact List.Lex.nil
    refine (List.pairwise_append).2 ⟨(List.pairwise_append).2
      ⟨(List.pairwise_append).2 ⟨ihl hlf, ?_, ?_⟩, ?_, ?_⟩, ihr hrt, ?_⟩
    · cases nv <;> simp
    · intro a ha b hb
      obtain ⟨c, t2, rfl, hc⟩ := memOne a ha
      rw [memTwo b hb]
      exact List.Lex.rel hc
    · rw [List.pairwise_map]
      exact (ihm hmd).imp (fun h2 => List.Lex.cons h2)
    · intro a ha b hb
      obtain ⟨k2, rfl, hk2⟩ := memThree b hb
      rcases List.mem_append.1 ha with ha | ha
      · obtain ⟨c, t2, rfl, hc⟩ := memOne a ha
        exact List.Lex.rel hc
      · rw [memTwo a ha]
        exact List.Lex.cons (lexNe k2 hk2)
    · intro a ha b hb
      obtain ⟨c, t2, rfl, hc⟩ := memFour b hb
      rcases List.mem_append.1 ha with ha | ha
      rotate_left
      · obtain ⟨k2, rfl, hk2⟩ := memThree a ha
        exact List.Lex.rel hc
      rcases List.mem_append.1 ha with ha | ha
      · obtain ⟨c2, t3, rfl, hc2⟩ := memOne a ha
        exact List.Lex.rel (lt_trans hc2 hc)
      · rw [memTwo a ha]
        exact List.Lex.rel hc

/-- `enum TstIteratorAction` (lib.rs:1044-1051). -/
inductive TstIteratorAction where
  | goLeft : TstIteratorAction
  | visit : TstIteratorAction
  | goMiddle : TstIteratorAction
  | goRight : TstIteratorAction
deriving DecidableEq

/-- A step out of a node.  A list of these is a node's position in the tree
and stands in for the node's address: the Rust iterator compares borrowed
nodes with `ptr::eq`, and within a single tree two `&Node` borrows are
pointer-equal exactly when they sit at the same position. -/
inductive Dir where
  | left : Dir
  | middle : Dir
  | right : Dir
deriving DecidableEq

abbrev NodePath := List Dir

/-- One stack entry of `todo_i`/`todo_j`: the `(&'a Node<T>, TstIteratorAction)`
pair of lib.rs:1059, with the borrowed node's position alongside. -/
abbrev Frame (T : Type) := Link T × NodePath × TstIteratorAction

/-- `struct TstIterator` (lib.rs:1056-1064); `last_i`/`last_j` hold the
position (= address) of the node whose value was emitted last on each side. -/
structure TstIterator (T : Type) where
  todo_i : List (Frame T)
  last_i : Option NodePath
  todo_j : List (Frame T)
  last_j : Option NodePath

/-- `if let Some(ref child) = node.x { stack.push((child, action)) }` -/
def pushChild {T : Type} (l : Link T) (p : NodePath) (a : TstIteratorAction) :
    List (Frame T) :=
  match l with
  | Link.none => []
  | Link.node _ _ _ _ _ => [(l, p, a)]

/-- `TstIterator::new_from_root` (lib.rs:1097-1116). -/
def TstIterator.new_from_root {T : Type} (root : Link T) : TstIterator T :=
  { todo_i := pushChild root [] TstIteratorAction.goLeft,
    last_i := Option.none,
    todo_j := pushChild root [] TstIteratorAction.goRight,
    last_j := Option.none }

/-- `TstIterator::new` (lib.rs:1091-1094). -/
def TstIterator.new {T : Type} (tst : Tst T) : TstIterator T :=
  TstIterator.new_from_root tst.root

/-- `Tst::iter` (lib.rs:998-1001). -/
def Tst.iter {T : Type} (t : Tst T) : TstIterator T := TstIterator.new t

/-- Number of nodes below a link (used only to bound the iterator loops). -/
def cnt {T : Type} : Link T → Nat
  | Link.none => 0
  | Link.node _ _ lf md rt => 1 + cnt lf + cnt md + cnt rt

/-- Loop-termination weight of a forward frame: the number of `while` loop
iterations the frame can still cause. -/
def frameMeasure {T : Type} : Frame T → Nat
  | (Link.none, _, _) => 1
  | (Link.node _ _ lf md rt, _, TstIteratorAction.goLeft) =>
    4 * (1 + cnt lf + cnt md + cnt rt)
  | (Link.node _ _ _ md rt, _, TstIteratorAction.visit) => 3 + 4 * (cnt md + cnt rt)
  | (Link.node _ _ _ md rt, _, TstIteratorAction.goMiddle) => 2 + 4 * (cnt md + cnt rt)
  | (Link.node _ _ _ _ rt, _, TstIteratorAction.goRight) => 1 + 4 * cnt rt

def stackMeasure {T : Type} (s : List (Frame T)) : Nat := (s.map frameMeasure).sum

/-- Mirror weight for backward frames. -/
def frameMeasureB {T : Type} : Frame T → Nat
  | (Link.none, _, _) => 1
  | (Link.node _ _ lf md rt, _, TstIteratorAction.goRight) =>
    4 * (1 + cnt lf + cnt md + cnt rt)
  | (Link.node _ _ lf md _, _, TstIteratorAction.goMiddle) => 3 + 4 * (cnt lf + cnt md)
  | (Link.node _ _ lf _ _, _, TstIteratorAction.visit) => 2 + 4 * cnt lf
  | (Link.node _ _ lf _ _, _, TstIteratorAction.goLeft) => 1 + 4 * cnt lf

def stackMeasureB {T : Type} (s : List (Frame T)) : Nat := (s.map frameMeasureB).sum

/-- The body of `TstIterator::next` (lib.rs:1128-1195): pop frames off
`todo_i` until a value is emitted, the convergence check fires (both stacks
cleared), or the stack runs dry.  The fuel argument only bounds the number of
loop iterations; `stackMeasure` supplies enough fuel. -/
def nextLoop {T : Type} : Nat → List (Frame T) → List (Frame T) → Option NodePath →
    Option NodePath → Option (Option T × TstIterator T)
  | 0, _, _, _, _ => Option.none
  | _ + 1, [], tj, li, lj => some (Option.none, ⟨[], li, tj, lj⟩)
  | fuel + 1, (nd, p, a) :: rest, tj, li, lj =>
    match nd with
    | Link.none => nextLoop fuel rest tj li lj
    | Link.node _ v lf md rt =>
      match a with
      | TstIteratorAction.goLeft =>
        nextLoop fuel (pushChild lf (p ++ [Dir.left]) TstIteratorAction.goLeft
          ++ (nd, p, TstIteratorAction.visit) :: rest) tj li lj
      | TstIteratorAction.visit =>
        if v.isSome = true ∧ lj = some p then
          some (Option.none, ⟨[], li, [], lj⟩)
        else
          match v with
          | some x =>
            some (some x, ⟨(nd, p, TstIteratorAction.goMiddle) :: rest, some p, tj, lj⟩)
          | Option.none =>
            nextLoop fuel ((nd, p, TstIteratorAction.goMiddle) :: rest) tj li lj
      | TstIteratorAction.goMiddle =>
        nextLoop fuel (pushChild md (p ++ [Dir.middle]) TstIteratorAction.goLeft
          ++ (nd, p, TstIteratorAction.goRight) :: rest) tj li lj
      | TstIteratorAction.goRight =>
        nextLoop fuel (pushChild rt (p ++ [Dir.right]) TstIteratorAction.goLeft ++ rest) tj li lj

def TstIterator.next {T : Type} (it : TstIterator T) : Option T × TstIterator T :=
  match nextLoop (stackMeasure it.todo_i + 1) it.todo_i it.todo_j it.last_i it.last_j with
  | some r => r
  | Option.none => (Option.none, it)

/-- The body of `TstIterator::next_back` (lib.rs:1213-1280). -/
def nextBackLoop {T : Type} : Nat → List (Frame T) → List (Frame T) → Option NodePath →
    Option NodePath → Option (Option T × TstIterator T)
  | 0, _, _, _, _ => Option.none
  | _ + 1, [], ti, li, lj => some (Option.none, ⟨ti, li, [], lj⟩)
  | fuel + 1, (nd, p, a) :: rest, ti, li, lj =>
    match nd with
    | Link.none => nextBackLoop fuel rest ti li lj
    | Link.node _ v lf md rt =>
      match a with
      | TstIteratorAction.goRight =>
        nextBackLoop fuel (pushChild rt (p ++ [Dir.right]) TstIteratorAction.goRight
          ++ (nd, p, TstIteratorAction.goMiddle) :: rest) ti li lj
      | TstIteratorAction.visit =>
        if v.isSome = true ∧ li = some p then
          some (Option.none, ⟨[], li, [], lj⟩)
        else
          match v with
          | some x =>
            some (some x, ⟨ti, li, (nd, p, TstIteratorAction.goLeft) :: rest, some p⟩)
          | Option.none =>
            nextBackLoop fuel ((nd, p, TstIteratorAction.goLeft) :: rest) ti li lj
      | TstIteratorAction.goMiddle =>
        nextBackLoop fuel (pushChild md (p ++ [Dir.middle]) TstIteratorAction.goRight
          ++ (nd, p, TstIteratorAction.visit) :: rest) ti li lj
      | TstIteratorAction.goLeft =>
        nextBackLoop fuel (pushChild lf (p ++ [Dir.left]) TstIteratorAction.goRight ++ rest) ti li lj

def TstIterator.next_back {T : Type} (it : TstIterator T) : Option T × TstIterator T :=
  match nextBackLoop (stackMeasureB it.todo_j + 1) it.todo_j it.todo_i it.last_i it.last_j with
  | some r => r
  | Option.none => (Option.none, it)

/-- `[(p, x)]` when a value is present: the emission a node's value causes. -/
def optEntry {T : Type} (v : Option T) (p : NodePath) : List (NodePath × T) :=
  match v with
  | some x => [(p, x)]
  | Option.none => []

/-- In-order (position, value) pairs below a link rooted at position `p`. -/
def inorderPV {T : Type} : Link T → NodePath → List (NodePath × T)
  | Link.none, _ => []
  | Link.node _ v lf md rt, p =>
    inorderPV lf (p ++ [Dir.left]) ++ optEntry v p
      ++ inorderPV md (p ++ [Dir.middle]) ++ inorderPV rt (p ++ [Dir.right])

/-- The emissions a forward frame still owes. -/
def frameTodo {T : Type} : Frame T → List (NodePath × T)
  | (Link.none, _, _) => []
  | (Link.node lab v lf md rt, p, a) =>
    match a with
    | TstIteratorAction.goLeft => inorderPV (Link.node lab v lf md rt) p
    | TstIteratorAction.visit =>
      optEntry v p ++ inorderPV md (p ++ [Dir.middle]) ++ inorderPV rt (p ++ [Dir.right])
    | TstIteratorAction.goMiddle =>
      inorderPV md (p ++ [Dir.middle]) ++ inorderPV rt (p ++ [Dir.right])
    | TstIteratorAction.goRight => inorderPV rt (p ++ [Dir.right])

def toEmit {T : Type} (s : List (Frame T)) : List (NodePath × T) :=
  (s.map frameTodo).join

/-- The emissions a backward frame still owes (in backward emission order). -/
def frameTodoB {T : Type} : Frame T → List (NodePath × T)
  | (Link.none, _, _) => []
  | (Link.node lab v lf md rt, p, a) =>
    match a with
    | TstIteratorAction.goRight => (inorderPV (Link.node lab v lf md rt) p).reverse
    | TstIteratorAction.goMiddle =>
      (inorderPV lf (p ++ [Dir.left]) ++ optEntry v p
        ++ inorderPV md (p ++ [Dir.middle])).reverse
    | TstIteratorAction.visit =>
      (inorderPV lf (p ++ [Dir.left]) ++ optEntry v p).reverse
    | TstIteratorAction.goLeft => (inorderPV lf (p ++ [Dir.left])).reverse

def toEmitB {T : Type} (s : List (Frame T)) : List (NodePath × T) :=
  (s.map frameTodoB).join

theorem stackMeasure_cons {T : Type} (f : Frame T) (s : List (Frame T)) :
    stackMeasure (f :: s) = frameMeasure f + stackMeasure s := by
  simp [stackMeasure]

theorem stackMeasure_pushChild_goLeft {T : Type} (l : Link T) (p : NodePath)
    (s : List (Frame T)) :
    stackMeasure (pushChild l p TstIteratorAction.goLeft ++ s)
      = 4 * cnt l + stackMeasure s := by
  cases l <;> simp [pushChild, stackMeasure, frameMeasure, cnt]

theorem toEmit_cons {T : Type} (f : Frame T) (s : List (Frame T)) :
    toEmit (f :: s) = frameTodo f ++ toEmit s := by
  simp [toEmit]

theorem toEmit_pushChild_goLeft {T : Type} (l : Link T) (p : NodePath)
    (s : List (Frame T)) :
    toEmit (pushChild l p TstIteratorAction.goLeft ++ s) = inorderPV l p ++ toEmit s := by
  cases l <;> simp [pushChild, toEmit, frameTodo, inorderPV]

/-- What one forward `next` call does, as a function of the pending emission
list of the forward stack: nothing when the stack owes nothing; the clearing
of both stacks when the next node to be emitted is the one `last_j` remembers
(convergence, lib.rs:1148-1160); otherwise the head emission. -/
def NextSpec {T : Type} (fuel : Nat) (ti tj : List (Frame T))
    (li lj : Option NodePath) : Prop :=
  (toEmit ti = [] →
    nextLoop fuel ti tj li lj = some (Option.none, ⟨[], li, tj, lj⟩)) ∧
  (∀ p x rest, toEmit ti = (p, x) :: rest →
    (lj = some p →
      nextLoop fuel ti tj li lj = some (Option.none, ⟨[], li, [], lj⟩)) ∧
    (lj ≠ some p → ∃ ti',
      nextLoop fuel ti tj li lj = some (some x, ⟨ti', some p, tj, lj⟩) ∧
      toEmit ti' = rest ∧ stackMeasure ti' < stackMeasure ti))

theorem nextSpec_step {T : Type} {fuel : Nat} {ti ti2 tj : List (Frame T)}
    {li lj : Option NodePath}
    (hstep : nextLoop (fuel + 1) ti tj li lj = nextLoop fuel ti2 tj li lj)
    (hE : toEmit ti = toEmit ti2)
    (hm : stackMeasure ti2 < stackMeasure ti)
    (hspec : NextSpec fuel ti2 tj li lj) :
    NextSpec (fuel + 1) ti tj li lj := by
  obtain ⟨h1, h2⟩ := hspec
  constructor
  · intro h0
    rw [hstep]
    exact h1 (by rw [← hE]; exact h0)
  · intro p x rest h0
    obtain ⟨ha, hb⟩ := h2 p x rest (by rw [← hE]; exact h0)
    refine ⟨fun hj => by rw [hstep]; exact ha hj, fun hj => ?_⟩
    obtain ⟨ti', he, hte, hm'⟩ := hb hj
    exact ⟨ti', by rw [hstep]; exact he, hte, lt_trans hm' hm⟩

theorem nextLoop_spec {T : Type} :
    ∀ (fuel : Nat) (ti tj : List (Frame T)) (li lj : Option NodePath),
      stackMeasure ti < fuel → NextSpec fuel ti tj li lj := by
  intro fuel
  induction fuel with
  | zero =>
    intro ti tj li lj hf
    exact absurd hf (Nat.not_lt_zero _)
  | succ fuel ih =>
    intro ti tj li lj hf
    cases ti with
    | nil =>
      constructor
      · intro _
        rfl
      · intro p x rest h0
        simp [toEmit] at h0
    | cons f rest =>
      obtain ⟨nd, p0, a⟩ := f
      rw [stackMeasure_cons] at hf
      cases nd with
      | none =>
        simp only [frameMeasure] at hf
        refine nextSpec_step rfl ?_ ?_ (ih rest tj li lj (by omega))
        · simp [toEmit_cons, frameTodo]
        · rw [stackMeasure_cons]
          simp [frameMeasure]
      | node lab v lf md rt =>
        cases a with
        | goLeft =>
          simp only [frameMeasure] at hf
          refine nextSpec_step rfl ?_ ?_ (ih _ tj li lj ?_)
          · rw [toEmit_cons, toEmit_pushChild_goLeft, toEmit_cons]
            simp [frameTodo, inorderPV]
          · rw [stackMeasure_pushChild_goLeft, stackMeasure_cons, stackMeasure_cons]
            simp only [frameMeasure]
            omega
          · rw [stackMeasure_pushChild_goLeft, stackMeasure_cons]
            simp only [frameMeasure]
            omega
        | goMiddle =>
          simp only [frameMeasure] at hf
          refine nextSpec_step rfl ?_ ?_ (ih _ tj li lj ?_)
          · rw [toEmit_cons, toEmit_pushChild_goLeft, toEmit_cons]
            simp [frameTodo]
          · rw [stackMeasure_pushChild_goLeft, stackMeasure_cons, stackMeasure_cons]
            simp only [frameMeasure]
            omega
          · rw [stackMeasure_pushChild_goLeft, stackMeasure_cons]
            simp only [frameMeasure]
            omega
        | goRight =>
          simp only [frameMeasure] at hf
          refine nextSpec_step rfl ?_ ?_ (ih _ tj li lj ?_)
          · rw [toEmit_pushChild_goLeft, toEmit_cons]
            simp [frameTodo]
          · rw [stackMeasure_pushChild_goLeft, stackMeasure_cons]
            simp only [frameMeasure]
            omega
          · rw [stackMeasure_pushChild_goLeft]
            omega
        | visit =>
          simp only [frameMeasure] at hf
          cases v with
          | none =>
            have hstep : nextLoop (fuel + 1)
                ((Link.node lab Option.none lf md rt, p0, TstIteratorAction.visit) :: rest)
                  tj li lj
                = nextLoop fuel
                  ((Link.node lab Option.none lf md rt, p0, TstIteratorAction.goMiddle) :: rest)
                  tj li lj := by
              simp only [nextLoop]
              rw [if_neg (by simp)]
            refine nextSpec_step hstep ?_ ?_ (ih _ tj li lj ?_)
            · rw [toEmit_cons, toEmit_cons]
              simp [frameTodo, optEntry]
            · rw [stackMeasure_cons, stackMeasure_cons]
              simp [frameMeasure]
            · rw [stackMeasure_cons]
              simp only [frameMeasure]
              omega
          | some x0 =>
            have hE : toEmit
                ((Link.node lab (some x0) lf md rt, p0, TstIteratorAction.visit) :: rest)
                = (p0, x0) :: (inorderPV md (p0 ++ [Dir.middle])
                    ++ inorderPV rt (p0 ++ [Dir.right]) ++ toEmit rest) := by
              rw [toEmit_cons]
              simp [frameTodo, optEntry]
            constructor
            · intro h0
              rw [hE] at h0
              cases h0
            · intro p x rest1 h0
              rw [hE] at h0
              rw [List.cons.injEq, Prod.mk.injEq] at h0
              obtain ⟨⟨hp, hx⟩, hrest⟩ := h0
              subst hp
              subst hx
              constructor
              · intro hj
                simp only [nextLoop]
                rw [if_pos ⟨rfl, hj⟩]
              · intro hj
                refine ⟨(Link.node lab (some x0) lf md rt, p0,
                    TstIteratorAction.goMiddle) :: rest, ?_, ?_, ?_⟩
                · simp only [nextLoop]
                  rw [if_neg (fun hc => hj hc.2)]
                · rw [toEmit_cons, ← hrest]
                  simp [frameTodo]
                · rw [stackMeasure_cons, stackMeasure_cons]
                  simp [frameMeasure]

theorem stackMeasureB_cons {T : Type} (f : Frame T) (s : List (Frame T)) :
    stackMeasureB (f :: s) = frameMeasureB f + stackMeasureB s := by
  simp [stackMeasureB]

theorem stackMeasureB_pushChild_goRight {T : Type} (l : Link T) (p : NodePath)
    (s : List (Frame T)) :
    stackMeasureB (pushChild l p TstIteratorAction.goRight ++ s)
      = 4 * cnt l + stackMeasureB s := by
  cases l <;> simp [pushChild, stackMeasureB, frameMeasureB, cnt]

theorem toEmitB_cons {T : Type} (f : Frame T) (s : List (Frame T)) :
    toEmitB (f :: s) = frameTodoB f ++ toEmitB s := by
  simp [toEmitB]

theorem toEmitB_pushChild_goRight {T : Type} (l : Link T) (p : NodePath)
    (s : List (Frame T)) :
    toEmitB (pushChild l p TstIteratorAction.goRight ++ s)
      = (inorderPV l p).reverse ++ toEmitB s := by
  cases l <;> simp [pushChild, toEmitB, frameTodoB, inorderPV]

/-- Mirror of `NextSpec` for `next_back` acting on `todo_j` and `last_i`. -/
def NextBackSpec {T : Type} (fuel : Nat) (tj ti : List (Frame T))
    (li lj : Option NodePath) : Prop :=
  (toEmitB tj = [] →
    nextBackLoop fuel tj ti li lj = some (Option.none, ⟨ti, li, [], lj⟩)) ∧
  (∀ p x rest, toEmitB tj = (p, x) :: rest →
    (li = some p →
      nextBackLoop fuel tj ti li lj = some (Option.none, ⟨[], li, [], lj⟩)) ∧
    (li ≠ some p → ∃ tj',
      nextBackLoop fuel tj ti li lj = some (some x, ⟨ti, li, tj', some p⟩) ∧
      toEmitB tj' = rest ∧ stackMeasureB tj' < stackMeasureB tj))

theorem nextBackSpec_step {T : Type} {fuel : Nat} {tj tj2 ti : List (Frame T)}
    {li lj : Option NodePath}
    (hstep : nextBackLoop (fuel + 1) tj ti li lj = nextBackLoop fuel tj2 ti li lj)
    (hE : toEmitB tj = toEmitB tj2)
    (hm : stackMeasureB tj2 < stackMeasureB tj)
    (hspec : NextBackSpec fuel tj2 ti li lj) :
    NextBackSpec (fuel + 1) tj ti li lj := by
  obtain ⟨h1, h2⟩ := hspec
  constructor
  · intro h0
    rw [hstep]
    exact h1 (by rw [← hE]; exact h0)
  · intro p x rest h0
    obtain ⟨ha, hb⟩ := h2 p x rest (by rw [← hE]; exact h0)
    refine ⟨fun hj => by rw [hstep]; exact ha hj, fun hj => ?_⟩
    obtain ⟨tj', he, hte, hm'⟩ := hb hj
    exact ⟨tj', by rw [hstep]; exact he, hte, lt_trans hm' hm⟩

theorem nextBackLoop_spec {T : Type} :
    ∀ (fuel : Nat) (tj ti : List (Frame T)) (li lj : Option NodePath),
      stackMeasureB tj < fuel → NextBackSpec fuel tj ti li lj := by
  intro fuel
  induction fuel with
  | zero =>
    intro tj ti li lj hf
    exact absurd hf (Nat.not_lt_zero _)
  | succ fuel ih =>
    intro tj ti li lj hf
    cases tj with
    | nil =>
      constructor
      · intro _
        rfl
      · intro p x rest h0
        simp [toEmitB] at h0
    | cons f rest =>
      obtain ⟨nd, p0, a⟩ := f
      rw [stackMeasureB_cons] at hf
      cases nd with
      | none =>
        simp only [frameMeasureB] at hf
        refine nextBackSpec_step rfl ?_ ?_ (ih rest ti li lj (by omega))
        · simp [toEmitB_cons, frameTodoB]
        · rw [stackMeasureB_cons]
          simp [frameMeasureB]
      | node lab v lf md rt =>
        cases a with
        | goRight =>
          simp only [frameMeasureB] at hf
          refine nextBackSpec_step rfl ?_ ?_ (ih _ ti li lj ?_)
          · rw [toEmitB_cons, toEmitB_pushChild_goRight, toEmitB_cons]
            simp [frameTodoB, inorderPV]
          · rw [stackMeasureB_pushChild_goRight, stackMeasureB_cons, stackMeasureB_cons]
            simp only [frameMeasureB]
            omega
          · rw [stackMeasureB_pushChild_goRight, stackMeasureB_cons]
            simp only [frameMeasureB]
            omega
        | goMiddle =>
          simp only [frameMeasureB] at hf
          refine nextBackSpec_step rfl ?_ ?_ (ih _ ti li lj ?_)
          · rw [toEmitB_cons, toEmitB_pushChild_goRight, toEmitB_cons]
            simp [frameTodoB]
          · rw [stackMeasureB_pushChild_goRight, stackMeasureB_cons, stackMeasureB_cons]
            simp only [frameMeasureB]
            omega
          · rw [stackMeasureB_pushChild_goRight, stackMeasureB_cons]
            simp only [frameMeasureB]
            omega
        | goLeft =>
          simp only [frameMeasureB] at hf
          refine nextBackSpec_step rfl ?_ ?_ (ih _ ti li lj ?_)
          · rw [toEmitB_pushChild_goRight, toEmitB_cons]
            simp [frameTodoB]
          · rw [stackMeasureB_pushChild_goRight, stackMeasureB_cons]
            simp only [frameMeasureB]
            omega
          · rw [stackMeasureB_pushChild_goRight]
            omega
        | visit =>
          simp only [frameMeasureB] at hf
          cases v with
          | none =>
            have hstep : nextBackLoop (fuel + 1)
                ((Link.node lab Option.none lf md rt, p0, TstIteratorAction.visit) :: rest)
                  ti li lj
                = nextBackLoop fuel
                  ((Link.node lab Option.none lf md rt, p0, TstIteratorAction.goLeft) :: rest)
                  ti li lj := by
              simp only [nextBackLoop]
              rw [if_neg (by simp)]
            refine nextBackSpec_step hstep ?_ ?_ (ih _ ti li lj ?_)
            · rw [toEmitB_cons, toEmitB_cons]
              simp [frameTodoB, optEntry]
            · rw [stackMeasureB_cons, stackMeasureB_cons]
              simp [frameMeasureB]
            · rw [stackMeasureB_cons]
              simp only [frameMeasureB]
              omega
          | some x0 =>
            have hE : toEmitB
                ((Link.node lab (some x0) lf md rt, p0, TstIteratorAction.visit) :: rest)
                = (p0, x0) :: ((inorderPV lf (p0 ++ [Dir.left])).reverse ++ toEmitB rest) := by
              rw [toEmitB_cons]
              simp [frameTodoB, optEntry]
            constructor
            · intro h0
              rw [hE] at h0
              cases h0
            · intro p x rest1 h0
              rw [hE] at h0
              rw [List.cons.injEq, Prod.mk.injEq] at h0
              obtain ⟨⟨hp, hx⟩, hrest⟩ := h0
              subst hp
              subst hx
              constructor
              · intro hj
                simp only [nextBackLoop]
                rw [if_pos ⟨rfl, hj⟩]
              · intro hj
                refine ⟨(Link.node lab (some x0) lf md rt, p0,
                    TstIteratorAction.goLeft) :: rest, ?_, ?_, ?_⟩
                · simp only [nextBackLoop]
                  rw [if_neg (fun hc => hj hc.2)]
                · rw [toEmitB_cons, ← hrest]
                  simp [frameTodoB]
                · rw [stackMeasureB_cons, stackMeasureB_cons]
                  simp [frameMeasureB]

theorem next_characterization {T : Type} (it : TstIterator T) :
    (toEmit it.todo_i = [] →
      it.next = (Option.none, ⟨[], it.last_i, it.todo_j, it.last_j⟩)) ∧
    (∀ p x rest, toEmit it.todo_i = (p, x) :: rest →
      (it.last_j = some p →
        it.next = (Option.none, ⟨[], it.last_i, [], it.last_j⟩)) ∧
      (it.last_j ≠ some p → ∃ ti',
        it.next = (some x, ⟨ti', some p, it.todo_j, it.last_j⟩) ∧
        toEmit ti' = rest ∧ stackMeasure ti' < stackMeasure it.todo_i)) := by
  obtain ⟨h1, h2⟩ := nextLoop_spec (stackMeasure it.todo_i + 1) it.todo_i it.todo_j
    it.last_i it.last_j (Nat.lt_succ_self _)
  constructor
  · intro h0
    have he := h1 h0
    simp [TstIterator.next, he]
  · intro p x rest h0
    obtain ⟨ha, hb⟩ := h2 p x rest h0
    constructor
    · intro hj
      have he := ha hj
      simp [TstIterator.next, he]
    · intro hj
      obtain ⟨ti', he, ht, hm⟩ := hb hj
      exact ⟨ti', by simp [TstIterator.next, he], ht, hm⟩

theorem next_back_characterization {T : Type} (it : TstIterator T) :
    (toEmitB it.todo_j = [] →
      it.next_back = (Option.none, ⟨it.todo_i, it.last_i, [], it.last_j⟩)) ∧
    (∀ p x rest, toEmitB it.todo_j = (p, x) :: rest →
      (it.last_i = some p →
        it.next_back = (Option.none, ⟨[], it.last_i, [], it.last_j⟩)) ∧
      (it.last_i ≠ some p → ∃ tj',
        it.next_back = (some x, ⟨it.todo_i, it.last_i, tj', some p⟩) ∧
        toEmitB tj' = rest ∧ stackMeasureB tj' < stackMeasureB it.todo_j)) := by
  obtain ⟨h1, h2⟩ := nextBackLoop_spec (stackMeasureB it.todo_j + 1) it.todo_j it.todo_i
    it.last_i it.last_j (Nat.lt_succ_self _)
  constructor
  · intro h0
    have he := h1 h0
    simp [TstIterator.next_back, he]
  · intro p x rest h0
    obtain ⟨ha, hb⟩ := h2 p x rest h0
    constructor
    · intro hj
      have he := ha hj
      simp [TstIterator.next_back, he]
    · intro hj
      obtain ⟨tj', he, ht, hm⟩ := hb hj
      exact ⟨tj', by simp [TstIterator.next_back, he], ht, hm⟩

/-- Repeatedly call `next` until it returns `None` (bounded by a fuel that the
caller makes large enough), collecting the yielded values in order. -/
def drainNext {T : Type} : Nat → TstIterator T → List T
  | 0, _ => []
  | n + 1, it =>
    match TstIterator.next it with
    | (Option.none, _) => []
    | (some x, it2) => x :: drainNext n it2

theorem drainNext_spec {T : Type} :
    ∀ (n : Nat) (ti tj : List (Frame T)) (li : Option NodePath),
      (toEmit ti).length ≤ n →
      drainNext n ⟨ti, li, tj, Option.none⟩ = (toEmit ti).map Prod.snd := by
  intro n
  induction n with
  | zero =>
    intro ti tj li h
    have h0 : toEmit ti = [] := List.length_eq_zero.1 (Nat.le_zero.1 h)
    simp [drainNext, h0]
  | succ n ih =>
    intro ti tj li h
    rcases hE : toEmit ti with _ | ⟨⟨p, x⟩, rest⟩
    · have hnext := (next_characterization ⟨ti, li, tj, Option.none⟩).1 hE
      simp only [drainNext]
      rw [hnext]
      rfl
    · have hnext := ((next_characterization ⟨ti, li, tj, Option.none⟩).2 p x rest hE).2
        (by simp)
      obtain ⟨ti', he, ht, _⟩ := hnext
      have hlen : (toEmit ti').length ≤ n := by
        rw [ht]
        rw [hE] at h
        simpa using h
      simp only [drainNext]
      rw [he]
      simp [ih ti' tj (some p) hlen, ht]

theorem toEmit_new_from_root {T : Type} (root : Link T) :
    toEmit (TstIterator.new_from_root root).todo_i = inorderPV root [] := by
  cases root <;> simp [TstIterator.new_from_root, pushChild, toEmit, frameTodo, inorderPV]

theorem toEmitB_new_from_root {T : Type} (root : Link T) :
    toEmitB (TstIterator.new_from_root root).todo_j = (inorderPV root []).reverse := by
  cases root <;> simp [TstIterator.new_from_root, pushChild, toEmitB, frameTodoB, inorderPV]

theorem map_snd_optEntry {T : Type} (v : Option T) (p : NodePath) :
    (optEntry v p).map Prod.snd = v.toList := by
  cases v <;> simp [optEntry]

theorem visit_values_r_eq_inorderPV {T : Type} :
    ∀ (link : Link T) (p : NodePath),
      visit_values_r link = (inorderPV link p).map Prod.snd := by
  intro link
  induction link with
  | none => intro p; rfl
  | node lab nv lf md rt ihl ihm ihr =>
    intro p
    simp only [visit_values_r, inorderPV, List.map_append, map_snd_optEntry]
    rw [← ihl, ← ihm, ← ihr]

theorem visit_values_r_eq_entries {T : Type} :
    ∀ link : Link T, visit_values_r link = (entries link).map Prod.snd := by
  intro link
  induction link with
  | none => rfl
  | node lab nv lf md rt ihl ihm ihr =>
    rw [visit_values_r, entries_node]
    cases nv <;> simp [ihl, ihm, ihr]

/-- C2: draining the double-ended iterator forward (calling `next` until it
returns `None`) yields exactly the values that `visit_values` passes to its
callback, in the same order; and (the tree being built by the API) the keys of
those values — the in-order key list — are strictly ascending in
lexicographic order. -/
theorem C2_iterator_matches_visit {T : Type} (ops : List (Op T)) (n : Nat)
    (hn : ((applyOps ops).visit_values).length ≤ n) :
    drainNext n (applyOps ops).iter = (applyOps ops).visit_values ∧
    (applyOps ops).visit_values = (entries (applyOps ops).root).map Prod.snd ∧
    ((entries (applyOps ops).root).map Prod.fst).Pairwise (List.Lex (· < ·)) := by
  have hto : toEmit (applyOps ops).iter.todo_i = inorderPV (applyOps ops).root [] :=
    toEmit_new_from_root (applyOps ops).root
  have hlen : (toEmit (applyOps ops).iter.todo_i).length
      = ((applyOps ops).visit_values).length := by
    rw [hto, Tst.visit_values, visit_values_r_eq_inorderPV (applyOps ops).root []]
    simp
  refine ⟨?_, visit_values_r_eq_entries (applyOps ops).root, ?_⟩
  · have hdr := drainNext_spec n (applyOps ops).iter.todo_i (applyOps ops).iter.todo_j
      Option.none (by rw [hlen]; exact hn)
    have hiter : (applyOps ops).iter
        = ⟨(applyOps ops).iter.todo_i, Option.none, (applyOps ops).iter.todo_j,
            Option.none⟩ := rfl
    rw [hiter, hdr, hto, Tst.visit_values, visit_values_r_eq_inorderPV (applyOps ops).root []]
  · have hs := keyList_sorted (applyOps ops).root (ordInv_applyOps ops)
    simpa [keyList] using hs

theorem C2_iterator_matches_visit_witness :
    drainNext 2 (applyOps [Op.ins ['b'] 1, Op.ins ['a'] 2] : Tst Nat).iter
      = (applyOps [Op.ins ['b'] 1, Op.ins ['a'] 2] : Tst Nat).visit_values :=
  (C2_iterator_matches_visit [Op.ins ['b'] 1, Op.ins ['a'] 2] 2 (by decide)).1

theorem mem_inorderPV_prefix {T : Type} :
    ∀ (link : Link T) (p : NodePath) (e : NodePath × T),
      e ∈ inorderPV link p → ∃ q, e.1 = p ++ q := by
  intro link
  induction link with
  | none => intro p e he; simp [inorderPV] at he
  | node lab v lf md rt ihl ihm ihr =>
    intro p e he
    simp only [inorderPV, List.mem_append] at he
    rcases he with ((he | he) | he) | he
    · obtain ⟨q, hq⟩ := ihl _ e he
      exact ⟨Dir.left :: q, by rw [hq, List.append_assoc]; rfl⟩
    · cases v with
      | none => simp [optEntry] at he
      | some x =>
        simp [optEntry] at he
        subst he
        exact ⟨[], by simp⟩
    · obtain ⟨q, hq⟩ := ihm _ e he
      exact ⟨Dir.middle :: q, by rw [hq, List.append_assoc]; rfl⟩
    · obtain ⟨q, hq⟩ := ihr _ e he
      exact ⟨Dir.right :: q, by rw [hq, List.append_assoc]; rfl⟩

theorem mem_paths_branch {T : Type} (link : Link T) (p : NodePath) (d : Dir) (a : NodePath)
    (ha : a ∈ (inorderPV link (p ++ [d])).map Prod.fst) : ∃ q, a = p ++ (d :: q) := by
  obtain ⟨e, he, rfl⟩ := List.mem_map.1 ha
  obtain ⟨q, hq⟩ := mem_inorderPV_prefix link (p ++ [d]) e he
  exact ⟨q, by rw [hq, List.append_assoc]; rfl⟩

theorem mem_paths_opt {T : Type} (v : Option T) (p : NodePath) (a : NodePath)
    (ha : a ∈ (optEntry v p).map Prod.fst) : a = p := by
  cases v <;> simp [optEntry] at ha
  exact ha

theorem branch_path_ne_self (p : NodePath) (d : Dir) (q : NodePath) :
    p ++ (d :: q) ≠ p := by
  intro h
  have h2 : (p ++ (d :: q)).length = p.length := by rw [h]
  simp at h2

theorem branch_path_ne_branch (p : NodePath) (d1 d2 : Dir) (q1 q2 : NodePath)
    (hd : d1 ≠ d2) : p ++ (d1 :: q1) ≠ p ++ (d2 :: q2) := by
  intro h
  have h2 := List.append_cancel_left h
  injection h2 with h3 _
  exact hd h3

/-- Node positions of stored values are pairwise distinct (node identity is
faithfully modelled by position). -/
theorem inorderPV_paths_nodup {T : Type} :
    ∀ (link : Link T) (p : NodePath), ((inorderPV link p).map Prod.fst).Nodup := by
  intro link
  induction link with
  | none => intro p; simp [inorderPV]
  | node lab v lf md rt ihl ihm ihr =>
    intro p
    rw [inorderPV]
    simp only [List.map_append]
    rw [List.nodup_append, List.nodup_append, List.nodup_append]
    refine ⟨⟨⟨ihl _, ?_, ?_⟩, ihm _, ?_⟩, ihr _, ?_⟩
    · cases v <;> simp [optEntry]
    · intro a ha hb
      obtain ⟨q, rfl⟩ := mem_paths_branch lf p Dir.left a ha
      exact branch_path_ne_self p Dir.left q (mem_paths_opt v p _ hb)
    · intro a ha hb
      obtain ⟨q2, rfl⟩ := mem_paths_branch md p Dir.middle a hb
      rcases List.mem_append.1 ha with ha | ha
      · obtain ⟨q1, h1⟩ := mem_paths_branch lf p Dir.left _ ha
        exact branch_path_ne_branch p Dir.middle Dir.left q2 q1 (by decide) h1
      · exact branch_path_ne_self p Dir.middle q2 (mem_paths_opt v p _ ha)
    · intro a ha hb
      obtain ⟨q2, rfl⟩ := mem_paths_branch rt p Dir.right a hb
      rcases List.mem_append.1 ha with ha | ha
      · rcases List.mem_append.1 ha with ha | ha
        · obtain ⟨q1, h1⟩ := mem_paths_branch lf p Dir.left _ ha
          exact branch_path_ne_branch p Dir.right Dir.left q2 q1 (by decide) h1
        · exact branch_path_ne_self p Dir.right q2 (mem_paths_opt v p _ ha)
      · obtain ⟨q1, h1⟩ := mem_paths_branch md p Dir.middle _ ha
        exact branch_path_ne_branch p Dir.right Dir.middle q2 q1 (by decide) h1

/-- A forward (`next`) or backward (`next_back`) call on the iterator. -/
inductive Call where
  | fwd : Call
  | bwd : Call

/-- Run a sequence of `next`/`next_back` calls, collecting the values each
side yields (in call order). -/
def runCalls {T : Type} : TstIterator T → List Call → TstIterator T × List T × List T
  | it, [] => (it, [], [])
  | it, Call.fwd :: cs =>
    let r := TstIterator.next it
    let rr := runCalls r.2 cs
    (rr.1, r.1.toList ++ rr.2.1, rr.2.2)
  | it, Call.bwd :: cs =>
    let r := TstIterator.next_back it
    let rr := runCalls r.2 cs
    (rr.1, rr.2.1, r.1.toList ++ rr.2.2)

def lastPath {T : Type} (l : List (NodePath × T)) : Option NodePath :=
  l.getLast?.map Prod.fst

/-- The invariant tying an iterator state to the in-order emission list `E`:
either the iterator is live — the forward side has emitted the first `f`
entries and still owes `E.drop f`, the backward side has emitted the last `g`
entries (the first `g` of `E.reverse`) and still owes the rest, and
`last_i`/`last_j` hold the positions of the respectively last-emitted
entries — or both stacks have been cleared/drained with every entry emitted
exactly once (`f + g = E.length`). -/
def StateOK {T : Type} (E : List (NodePath × T)) (f g : Nat) (it : TstIterator T) : Prop :=
  (toEmit it.todo_i = E.drop f ∧ toEmitB it.todo_j = E.reverse.drop g ∧
    it.last_i = lastPath (E.take f) ∧ it.last_j = lastPath (E.reverse.take g))
  ∨ (it.todo_i = [] ∧ it.todo_j = [] ∧ f + g = E.length)

theorem lastPath_take_succ {T : Type} (l : List (NodePath × T)) (i : Nat)
    (h : i < l.length) : lastPath (l.take (i + 1)) = some (l[i].1) := by
  have h4 : (l.take (i + 1)).getLast? = some l[i] := by
    rw [List.take_succ, List.getElem?_eq_getElem h]
    rw [show (some l[i]).toList = [l[i]] from rfl]
    exact List.getLast?_concat _
  simp [lastPath, h4]

theorem paths_inj {T : Type} (E : List (NodePath × T)) (hN : (E.map Prod.fst).Nodup)
    (i j : Nat) (hi : i < E.length) (hj : j < E.length) (h : (E[i]).1 = (E[j]).1) :
    i = j := by
  have hi2 : i < (E.map Prod.fst).length := by simpa using hi
  have hj2 : j < (E.map Prod.fst).length := by simpa using hj
  apply (@List.Nodup.getElem_inj_iff _ _ hN i hi2 j hj2).1
  rw [List.getElem_map, List.getElem_map]
  exact h

theorem lastPath_reverse_take {T : Type} (E : List (NodePath × T)) (g : Nat)
    (hg : g ≠ 0) (hgm : g ≤ E.length) :
    lastPath (E.reverse.take g) = some ((E[E.length - g]).1) := by
  have h1 : g - 1 < E.reverse.length := by simp; omega
  have h5 := lastPath_take_succ E.reverse (g - 1) h1
  rw [Nat.sub_add_cancel (by omega)] at h5
  rw [h5, List.getElem_reverse]
  have h6 : E.length - 1 - (g - 1) = E.length - g := by omega
  simp only [h6]

theorem step_fwd {T : Type} (E : List (NodePath × T))
    (hN : (E.map Prod.fst).Nodup) (f g : Nat) (it : TstIterator T)
    (hfg : f + g ≤ E.length) (hok : StateOK E f g it) :
    ∃ f2, f ≤ f2 ∧ f2 ≤ f + 1 ∧ f2 + g ≤ E.length ∧
      StateOK E f2 g (TstIterator.next it).2 ∧
      ((TstIterator.next it).1).toList = ((E.drop f).take (f2 - f)).map Prod.snd := by
  rcases hok with ⟨hti, htj, hli, hlj⟩ | ⟨hti, htj, hm⟩
  · by_cases hfm : E.length ≤ f
    · have hE0 : toEmit it.todo_i = [] := by rw [hti, List.drop_eq_nil_iff.2 hfm]
      have hnext := (next_characterization it).1 hE0
      refine ⟨f, le_refl f, by omega, hfg, ?_, ?_⟩
      · left
        rw [hnext]
        exact ⟨by simp [toEmit, List.drop_eq_nil_iff.2 hfm], htj, hli, hlj⟩
      · rw [hnext]
        simp
    · push_neg at hfm
      have hdrop : E.drop f = E[f] :: E.drop (f + 1) := List.drop_eq_getElem_cons hfm
      have hE1 : toEmit it.todo_i = (E[f].1, E[f].2) :: E.drop (f + 1) := by
        rw [hti, hdrop]
      by_cases htr : it.last_j = some (E[f].1)
      · have hnext := ((next_characterization it).2 (E[f].1) (E[f].2) _ hE1).1 htr
        have hg0 : g ≠ 0 := by
          intro h0
          rw [h0] at hlj
          simp [lastPath] at hlj
          rw [hlj] at htr
          cases htr
        have hlast := lastPath_reverse_take E g hg0 (by omega)
        rw [hlj, hlast] at htr
        have hidx : E.length - g = f :=
          paths_inj E hN (E.length - g) f (by omega) hfm (by injection htr)
        have hfgm : f + g = E.length := by omega
        refine ⟨f, le_refl f, by omega, hfg, ?_, ?_⟩
        · right
          rw [hnext]
          exact ⟨rfl, rfl, hfgm⟩
        · rw [hnext]
          simp
      · have hnext := ((next_characterization it).2 (E[f].1) (E[f].2) _ hE1).2 htr
        obtain ⟨ti', he, ht, _⟩ := hnext
        have hne : f + 1 + g ≤ E.length := by
          rcases Nat.lt_or_ge (f + g) E.length with h1 | h1
          · omega
          · exfalso
            apply htr
            have hfgm : f + g = E.length := by omega
            have hg0 : g ≠ 0 := by omega
            have hlast := lastPath_reverse_take E g hg0 (by omega)
            rw [hlj, hlast]
            have hidx : E.length - g = f := by omega
            simp only [hidx]
        refine ⟨f + 1, by omega, le_refl _, hne, ?_, ?_⟩
        · left
          rw [he]
          refine ⟨ht, htj, ?_, hlj⟩
          rw [lastPath_take_succ E f hfm]
        · rw [he]
          have h7 : f + 1 - f = 1 := by omega
          rw [h7, hdrop]
          rfl
  · have hE0 : toEmit it.todo_i = [] := by rw [hti]; rfl
    have hnext := (next_characterization it).1 hE0
    refine ⟨f, le_refl f, by omega, hfg, ?_, ?_⟩
    · right
      rw [hnext]
      exact ⟨rfl, htj, hm⟩
    · rw [hnext]
      simp

theorem lastPath_take_pos {T : Type} (E : List (NodePath × T)) (f : Nat)
    (hf : f ≠ 0) (hfm : f ≤ E.length) :
    lastPath (E.take f) = some ((E[f - 1]).1) := by
  have h1 : f - 1 < E.length := by omega
  have h5 := lastPath_take_succ E (f - 1) h1
  rw [Nat.sub_add_cancel (by omega)] at h5
  exact h5

theorem step_bwd {T : Type} (E : List (NodePath × T))
    (hN : (E.map Prod.fst).Nodup) (f g : Nat) (it : TstIterator T)
    (hfg : f + g ≤ E.length) (hok : StateOK E f g it) :
    ∃ g2, g ≤ g2 ∧ g2 ≤ g + 1 ∧ f + g2 ≤ E.length ∧
      StateOK E f g2 (TstIterator.next_back it).2 ∧
      ((TstIterator.next_back it).1).toList
        = ((E.reverse.drop g).take (g2 - g)).map Prod.snd := by
  rcases hok with ⟨hti, htj, hli, hlj⟩ | ⟨hti, htj, hm⟩
  · by_cases hgm : E.length ≤ g
    · have hgm3 : E.reverse.length ≤ g := by
        rw [List.length_reverse]
        exact hgm
      have hE0 : toEmitB it.todo_j = [] := by
        rw [htj, List.drop_eq_nil_iff.2 hgm3]
      have hnext := (next_back_characterization it).1 hE0
      refine ⟨g, le_refl g, by omega, hfg, ?_, ?_⟩
      · left
        rw [hnext]
        exact ⟨hti, by simp [toEmitB, List.drop_eq_nil_iff.2 hgm3], hli, hlj⟩
      · rw [hnext]
        simp
    · push_neg at hgm
      have hgm2 : g < E.reverse.length := by simpa using hgm
      have hdrop : E.reverse.drop g = E.reverse[g] :: E.reverse.drop (g + 1) :=
        List.drop_eq_getElem_cons hgm2
      have hE1 : toEmitB it.todo_j
          = (E.reverse[g].1, E.reverse[g].2) :: E.reverse.drop (g + 1) := by
        rw [htj, hdrop]
      by_cases htr : it.last_i = some (E.reverse[g].1)
      · have hnext := ((next_back_characterization it).2 (E.reverse[g].1)
          (E.reverse[g].2) _ hE1).1 htr
        have hf0 : f ≠ 0 := by
          intro h0
          rw [h0] at hli
          simp [lastPath] at hli
          rw [hli] at htr
          cases htr
        have hlast := lastPath_take_pos E f hf0 (by omega)
        rw [hli, hlast] at htr
        have hrg : E.reverse[g] = E[E.length - 1 - g] :=
          List.getElem_reverse hgm2
        rw [hrg] at htr
        have hidx : f - 1 = E.length - 1 - g :=
          paths_inj E hN (f - 1) (E.length - 1 - g) (by omega) (by omega) (by injection htr)
        have hfgm : f + g = E.length := by omega
        refine ⟨g, le_refl g, by omega, hfg, ?_, ?_⟩
        · right
          rw [hnext]
          exact ⟨rfl, rfl, hfgm⟩
        · rw [hnext]
          simp
      · have hnext := ((next_back_characterization it).2 (E.reverse[g].1)
          (E.reverse[g].2) _ hE1).2 htr
        obtain ⟨tj', he, ht, _⟩ := hnext
        have hne : f + (g + 1) ≤ E.length := by
          rcases Nat.lt_or_ge (f + g) E.length with h1 | h1
          · omega
          · exfalso
            apply htr
            have hfgm : f + g = E.length := by omega
            have hf0 : f ≠ 0 := by omega
            have hlast := lastPath_take_pos E f hf0 (by omega)
            rw [hli, hlast]
            have hrg : E.reverse[g] = E[E.length - 1 - g] :=
              List.getElem_reverse hgm2
            rw [hrg]
            have hidx : f - 1 = E.length - 1 - g := by omega
            simp only [hidx]
        refine ⟨g + 1, by omega, le_refl _, hne, ?_, ?_⟩
        · left
          rw [he]
          refine ⟨hti, ht, hli, ?_⟩
          rw [lastPath_take_succ E.reverse g hgm2]
        · rw [he]
          have h7 : g + 1 - g = 1 := by omega
          rw [h7, hdrop]
          rfl
  · have hE0 : toEmitB it.todo_j = [] := by rw [htj]; rfl
    have hnext := (next_back_characterization it).1 hE0
    refine ⟨g, le_refl g, by omega, hfg, ?_, ?_⟩
    · right
      rw [hnext]
      exact ⟨hti, rfl, hm⟩
    · rw [hnext]
      simp

theorem take_drop_compose {T : Type} (E : List T) (f f1 f2 : Nat)
    (h1 : f ≤ f1) (h2 : f1 ≤ f2) :
    (E.drop f).take (f1 - f) ++ (E.drop f1).take (f2 - f1)
      = (E.drop f).take (f2 - f) := by
  have h3 : f2 - f = (f1 - f) + (f2 - f1) := by omega
  have h4 : (E.drop f).drop (f1 - f) = E.drop f1 := by
    rw [List.drop_drop]
    congr 1
    omega
  rw [h3, List.take_add, h4]

theorem runCalls_spec {T : Type} (E : List (NodePath × T))
    (hN : (E.map Prod.fst).Nodup) :
    ∀ (cs : List Call) (f g : Nat) (it : TstIterator T),
      f + g ≤ E.length → StateOK E f g it →
      ∃ f2 g2, f ≤ f2 ∧ g ≤ g2 ∧ f2 + g2 ≤ E.length ∧
        StateOK E f2 g2 (runCalls it cs).1 ∧
        (runCalls it cs).2.1 = ((E.drop f).take (f2 - f)).map Prod.snd ∧
        (runCalls it cs).2.2 = ((E.reverse.drop g).take (g2 - g)).map Prod.snd := by
  intro cs
  induction cs with
  | nil =>
    intro f g it hfg hok
    exact ⟨f, g, le_refl f, le_refl g, hfg, hok, by simp [runCalls], by simp [runCalls]⟩
  | cons c cs ih =>
    intro f g it hfg hok
    cases c with
    | fwd =>
      obtain ⟨f1, hf1, hf1b, hfg1, hok1, hemit⟩ := step_fwd E hN f g it hfg hok
      obtain ⟨f2, g2, h2a, h2b, h2c, h2ok, h2e1, h2e2⟩ :=
        ih f1 g (TstIterator.next it).2 hfg1 hok1
      refine ⟨f2, g2, by omega, h2b, h2c, ?_, ?_, ?_⟩
      · simp only [runCalls]
        exact h2ok
      · simp only [runCalls]
        rw [hemit, h2e1, ← List.map_append, take_drop_compose E f f1 f2 hf1 h2a]
      · simp only [runCalls]
        exact h2e2
    | bwd =>
      obtain ⟨g1, hg1, hg1b, hfg1, hok1, hemit⟩ := step_bwd E hN f g it hfg hok
      obtain ⟨f2, g2, h2a, h2b, h2c, h2ok, h2e1, h2e2⟩ :=
        ih f g1 (TstIterator.next_back it).2 hfg1 hok1
      refine ⟨f2, g2, h2a, by omega, h2c, ?_, ?_, ?_⟩
      · simp only [runCalls]
        exact h2ok
      · simp only [runCalls]
        exact h2e1
      · simp only [runCalls]
        rw [hemit, h2e2, ← List.map_append,
          take_drop_compose E.reverse g g1 g2 hg1 h2b]

/-- C3: for every tree and every interleaving of `next` and `next_back` calls
on one iterator from `iter()`, once both directions are exhausted — both
internal stacks are empty, which is exactly the state reached once each
direction has returned `None` (a `None`-returning `next` leaves or makes
`todo_i` empty, likewise `next_back` with `todo_j`, and the convergence check
clears both) — the values yielded by the two ends together are a permutation
of `visit_values`: every stored value is produced exactly once, with no
duplication and no omission; moreover in that state both `next` and
`next_back` do return `None`. -/
theorem C3_double_ended_exhaustive {T : Type} (t : Tst T) (cs : List Call)
    (hdone : (runCalls (Tst.iter t) cs).1.todo_i = [] ∧
      (runCalls (Tst.iter t) cs).1.todo_j = []) :
    ((runCalls (Tst.iter t) cs).2.1 ++ (runCalls (Tst.iter t) cs).2.2).Perm
      t.visit_values ∧
    ((runCalls (Tst.iter t) cs).1.next.1 = Option.none ∧
      (runCalls (Tst.iter t) cs).1.next_back.1 = Option.none) := by
  have hN := inorderPV_paths_nodup t.root []
  have hok0 : StateOK (inorderPV t.root []) 0 0 (Tst.iter t) := by
    left
    refine ⟨?_, ?_, rfl, rfl⟩
    · rw [List.drop_zero]
      exact toEmit_new_from_root t.root
    · rw [List.drop_zero]
      exact toEmitB_new_from_root t.root
  obtain ⟨f2, g2, _, _, hle, hok, he1, he2⟩ :=
    runCalls_spec (inorderPV t.root []) hN cs 0 0 (Tst.iter t) (by omega) hok0
  have hsum : f2 + g2 = (inorderPV t.root []).length := by
    rcases hok with ⟨hti, htj, _, _⟩ | ⟨_, _, hm⟩
    · rw [hdone.1] at hti
      rw [hdone.2] at htj
      have h1 : (inorderPV t.root []).length ≤ f2 :=
        List.drop_eq_nil_iff.1 hti.symm
      have h2 : (inorderPV t.root []).reverse.length ≤ g2 :=
        List.drop_eq_nil_iff.1 htj.symm
      rw [List.length_reverse] at h2
      omega
    · exact hm
  refine ⟨?_, ?_, ?_⟩
  · rw [he1, he2, List.drop_zero, List.drop_zero, Nat.sub_zero, Nat.sub_zero]
    have hsplit : (inorderPV t.root []).reverse
        = ((inorderPV t.root []).drop f2).reverse
          ++ ((inorderPV t.root []).take f2).reverse := by
      rw [← List.reverse_append, List.take_append_drop]
    have hlen : (((inorderPV t.root []).drop f2).reverse).length = g2 := by
      rw [List.length_reverse, List.length_drop]
      omega
    have htake : (inorderPV t.root []).reverse.take g2
        = ((inorderPV t.root []).drop f2).reverse := by
      rw [hsplit, List.take_left' hlen]
    rw [htake, ← List.map_append]
    have hperm : ((inorderPV t.root []).take f2
        ++ ((inorderPV t.root []).drop f2).reverse).Perm (inorderPV t.root []) := by
      have hp := List.Perm.append_left ((inorderPV t.root []).take f2)
        (List.reverse_perm ((inorderPV t.root []).drop f2))
      rw [List.take_append_drop] at hp
      exact hp
    rw [Tst.visit_values, visit_values_r_eq_inorderPV t.root []]
    exact hperm.map Prod.snd
  · have h0 : toEmit (runCalls (Tst.iter t) cs).1.todo_i = [] := by
      rw [hdone.1]
      rfl
    rw [(next_characterization _).1 h0]
  · have h0 : toEmitB (runCalls (Tst.iter t) cs).1.todo_j = [] := by
      rw [hdone.2]
      rfl
    rw [(next_back_characterization _).1 h0]

theorem C3_double_ended_exhaustive_witness :
    ((runCalls (Tst.iter (applyOps [Op.ins ['a'] 1, Op.ins ['b'] 2] : Tst Nat))
        [Call.bwd, Call.fwd, Call.fwd]).2.1
      ++ (runCalls (Tst.iter (applyOps [Op.ins ['a'] 1, Op.ins ['b'] 2] : Tst Nat))
        [Call.bwd, Call.fwd, Call.fwd]).2.2).Perm
      (applyOps [Op.ins ['a'] 1, Op.ins ['b'] 2] : Tst Nat).visit_values :=
  (C3_double_ended_exhaustive (applyOps [Op.ins ['a'] 1, Op.ins ['b'] 2] : Tst Nat)
    [Call.bwd, Call.fwd, Call.fwd] ⟨rfl, rfl⟩).1

theorem foldl_applyOp_inv {T : Type} (ops : List (Op T)) :
    ∀ t : Tst T, t.inv → (ops.foldl applyOp t).inv := by
  induction ops with
  | nil => intro t h; exact h
  | cons op ops ih => intro t h; exact ih _ (inv_applyOp t op h)

theorem applyOps_inv {T : Type} (ops : List (Op T)) : (applyOps ops).inv :=
  foldl_applyOp_inv ops Tst.new ⟨rfl, rfl⟩

/-- C6: after any sequence of `insert`/`remove` calls starting from the empty
tree, no node reachable from the root both lacks a value and has three empty
children: `remove` prunes every node that becomes valueless and childless, up
through the root link. -/
theorem C6_pruning_invariant {T : Type} (ops : List (Op T)) :
    noDead (applyOps ops).root = true :=
  (applyOps_inv ops).1

/-- C7: on any tree reachable by a sequence of `insert`/`remove` calls,
`remove(k)` returns the value previously stored at the non-empty key `k`
(absent if none); when nothing is stored at `k` the tree — structure and
count — is left completely unchanged; when a value is present the count
genuinely decreases by one. -/
theorem C7_remove_semantics {T : Type} (ops : List (Op T)) (k : List Char) (hk : k ≠ []) :
    ((applyOps ops).remove k).2 = (applyOps ops).get k ∧
    ((applyOps ops).get k = Option.none → ((applyOps ops).remove k).1 = applyOps ops) ∧
    (∀ v, (applyOps ops).get k = some v →
      ((applyOps ops).remove k).1.count + 1 = (applyOps ops).count) := by
  obtain ⟨hnd, hc⟩ := applyOps_inv ops
  refine ⟨?_, ?_, ?_⟩
  · cases k with
    | nil => exact absurd rfl hk
    | cons c tail => simp [Tst.remove, Tst.get, remove_r_snd]
  · intro hg
    cases k with
    | nil => exact absurd rfl hk
    | cons c tail =>
      rw [Tst.get] at hg
      simp [Tst.remove, remove_r_notfound _ _ _ hnd hg]
  · intro v hg
    cases k with
    | nil => exact absurd rfl hk
    | cons c tail =>
      rw [Tst.get] at hg
      have hv := valueCount_remove_r (applyOps ops).root c tail
      rw [hg] at hv
      simp only [Tst.remove, remove_r_snd, hg]
      simp at hv ⊢
      omega

theorem C7_remove_semantics_witness :
    (((applyOps [Op.ins ['a'] 1, Op.ins ['a', 'b'] 2] : Tst Nat).remove ['a']).1.count + 1 =
      (applyOps [Op.ins ['a'] 1, Op.ins ['a', 'b'] 2] : Tst Nat).count) ∧
    ((applyOps [Op.ins ['a'] 1, Op.ins ['a', 'b'] 2] : Tst Nat).remove ['b']).1 =
      applyOps [Op.ins ['a'] 1, Op.ins ['a', 'b'] 2] :=
  ⟨(C7_remove_semantics [Op.ins ['a'] 1, Op.ins ['a', 'b'] 2] ['a']
      (by decide)).2.2 1 (by decide),
    (C7_remove_semantics [Op.ins ['a'] 1, Op.ins ['a', 'b'] 2] ['b']
      (by decide)).2.1 (by decide)⟩

/-- C8 (amended): inserting with the empty key stores nothing and changes
nothing — the tree and the count are untouched — but the call returns
`Some(value)` (the value handed back), not an absent result; `get` and
`remove` with the empty key report absent and `remove` leaves the tree
unchanged. -/
theorem C8_empty_key_behavior {T : Type} (t : Tst T) (v : T) :
    t.insert [] v = (t, some v) ∧ t.get [] = Option.none ∧
      t.remove [] = (t, Option.none) := by
  refine ⟨rfl, rfl, ?_⟩
  simp [Tst.remove]

/-- `fn find_complete_root_r(link, label, key_tail) -> &Link<T>` (lib.rs:397-421):
descend along the prefix — `left`/`right` on label mismatch (consuming
nothing), `middle` on a match (consuming one prefix character) — and return
the `middle` link of the node matching the last prefix character. -/
def find_complete_root_r {T : Type} : Link T → Char → List Char → Link T
  | Link.none, _, _ => Link.none
  | Link.node nl _ lf md rt, label, key_tail =>
    if label < nl then find_complete_root_r lf label key_tail
    else if nl < label then find_complete_root_r rt label key_tail
    else
      match key_tail with
      | [] => md
      | l :: tail => find_complete_root_r md l tail

theorem find_complete_root_r_node {T : Type} (nl : Char) (nv : Option T)
    (lf md rt : Link T) (label : Char) (key_tail : List Char) :
    find_complete_root_r (Link.node nl nv lf md rt) label key_tail =
      if label < nl then find_complete_root_r lf label key_tail
      else if nl < label then find_complete_root_r rt label key_tail
      else
        match key_tail with
        | [] => md
        | l :: tail => find_complete_root_r md l tail := by
  cases key_tail <;> simp [find_complete_root_r]

/-- `fn visit_complete_values_r(link, callback)` (lib.rs:498-518): visits the
found link's own node (value included) and delegates the children to
`visit_values_r`. -/
def visit_complete_values_r {T : Type} : Link T → List T
  | Link.none => []
  | Link.node _ nv lf md rt =>
    visit_values_r lf ++ nv.toList ++ visit_values_r md ++ visit_values_r rt

theorem visit_complete_values_r_eq {T : Type} (link : Link T) :
    visit_complete_values_r link = visit_values_r link := by
  cases link <;> rfl

/-- `Tst::visit_complete_values` (lib.rs:900-915): empty prefix visits the
whole tree, otherwise the subtree found by `find_complete_root_r`. -/
def Tst.visit_complete_values {T : Type} (t : Tst T) (key : List Char) : List T :=
  match key with
  | [] => visit_values_r t.root
  | label :: key_tail =>
    visit_complete_values_r (find_complete_root_r t.root label key_tail)

/-- `TstCompleteIterator::new` (lib.rs:1293-1314) as the wrapped `TstIterator`
it builds: a full-tree iterator for the empty prefix, otherwise an iterator
rooted at the link `find_complete_root_r` returns.  (The stored prefix string
only feeds `current_key`; `next`/`next_back` delegate to this wrapped
iterator, lib.rs:1329-1346.) -/
def Tst.iter_complete {T : Type} (t : Tst T) (key : List Char) : TstIterator T :=
  match key with
  | [] => TstIterator.new t
  | label :: key_tail =>
    TstIterator.new_from_root (find_complete_root_r t.root label key_tail)

/-- Spec-side (C9's words): `p` is a prefix of `k`. -/
def isPfx : List Char → List Char → Bool
  | [], _ => true
  | _ :: _, [] => false
  | a :: p, b :: k => a == b && isPfx p k

/-- Spec-side (C9's words): `k` strictly extends `p` — shares `p` as a proper
prefix and is longer. -/
def strictExtends (p k : List Char) : Bool :=
  isPfx p k && decide (p.length < k.length)

theorem strictExtends_cons (a : Char) (p k : List Char) :
    strictExtends (a :: p) (a :: k) = strictExtends p k := by
  simp [strictExtends, isPfx, Nat.succ_lt_succ_iff]

theorem strictExtends_head_ne (a : Char) (p : List Char) (b : Char) (k : List Char)
    (h : a ≠ b) : strictExtends (a :: p) (b :: k) = false := by
  simp [strictExtends, isPfx, h]

theorem strictExtends_nil_iff (k : List Char) :
    strictExtends [] k = true ↔ k ≠ [] := by
  cases k <;> simp [strictExtends, isPfx]

/-- The entries below the link found for prefix `label :: tail`, their keys
re-based to full keys, are exactly the stored entries whose keys strictly
extend the prefix, in order. -/
theorem entries_find_complete {T : Type} :
    ∀ (link : Link T) (label : Char) (tail : List Char), ordInv link = true →
      (entries (find_complete_root_r link label tail)).map
          (fun e => (label :: (tail ++ e.1), e.2))
        = (entries link).filter (fun e => strictExtends (label :: tail) e.1) := by
  intro link
  induction link with
  | none => intro label tail _; simp [find_complete_root_r, entries]
  | node nl nv lf md rt ihl ihm ihr =>
    intro label tail h
    rw [ordInv_node_iff] at h
    obtain ⟨hlf, hmd, hrt, hhl, hhr⟩ := h
    rw [entries_node, List.filter_append, List.filter_append, List.filter_append]
    by_cases h1 : label < nl
    · have hB : List.filter (fun e => strictExtends (label :: tail) e.1)
          (match nv with | some x => [([nl], x)] | Option.none => []) = [] := by
        cases nv with
        | none => rfl
        | some x =>
          apply List.filter_eq_nil.2
          intro e he
          simp at he
          rw [he]
          show ¬ strictExtends (label :: tail) [nl] = true
          rw [show ([nl] : List Char) = nl :: [] from rfl,
            strictExtends_head_ne label tail nl [] (ne_of_lt h1)]
          simp
      have hC : List.filter (fun e => strictExtends (label :: tail) e.1)
          ((entries md).map (fun e => (nl :: e.1, e.2))) = [] := by
        apply List.filter_eq_nil.2
        intro e he
        obtain ⟨e0, he0, rfl⟩ := List.mem_map.1 he
        show ¬ strictExtends (label :: tail) (nl :: e0.1) = true
        rw [strictExtends_head_ne label tail nl e0.1 (ne_of_lt h1)]
        simp
      have hD : List.filter (fun e => strictExtends (label :: tail) e.1)
          (entries rt) = [] := by
        apply List.filter_eq_nil.2
        intro e he
        have hk : e.1 ∈ keyList rt := List.mem_map_of_mem Prod.fst he
        obtain ⟨c, t2, hkk, hc⟩ := (headGt_iff nl e.1).1 (hhr e.1 hk)
        rw [hkk, strictExtends_head_ne label tail c t2 (ne_of_lt (lt_trans h1 hc))]
        simp
      have hfind : find_complete_root_r (Link.node nl nv lf md rt) label tail
          = find_complete_root_r lf label tail := by
        rw [find_complete_root_r_node]
        simp [h1]
      rw [hfind, hB, hC, hD, ihl label tail hlf]
      simp
    · by_cases h2 : nl < label
      · have hA : List.filter (fun e => strictExtends (label :: tail) e.1)
            (entries lf) = [] := by
          apply List.filter_eq_nil.2
          intro e he
          have hk : e.1 ∈ keyList lf := List.mem_map_of_mem Prod.fst he
          obtain ⟨c, t2, hkk, hc⟩ := (headLt_iff nl e.1).1 (hhl e.1 hk)
          rw [hkk, strictExtends_head_ne label tail c t2 (ne_of_gt (lt_trans hc h2))]
          simp
        have hB : List.filter (fun e => strictExtends (label :: tail) e.1)
            (match nv with | some x => [([nl], x)] | Option.none => []) = [] := by
          cases nv with
          | none => rfl
          | some x =>
            apply List.filter_eq_nil.2
            intro e he
            simp at he
            rw [he]
            show ¬ strictExtends (label :: tail) [nl] = true
            rw [show ([nl] : List Char) = nl :: [] from rfl,
              strictExtends_head_ne label tail nl [] (ne_of_gt h2)]
            simp
        have hC : List.filter (fun e => strictExtends (label :: tail) e.1)
            ((entries md).map (fun e => (nl :: e.1, e.2))) = [] := by
          apply List.filter_eq_nil.2
          intro e he
          obtain ⟨e0, he0, rfl⟩ := List.mem_map.1 he
          show ¬ strictExtends (label :: tail) (nl :: e0.1) = true
          rw [strictExtends_head_ne label tail nl e0.1 (ne_of_gt h2)]
          simp
        have hfind : find_complete_root_r (Link.node nl nv lf md rt) label tail
            = find_complete_root_r rt label tail := by
          rw [find_complete_root_r_node]
          simp [h1, h2]
        rw [hfind, hA, hB, hC, ihr label tail hrt]
        simp
      · have heq : nl = label := le_antisymm (not_lt.1 h1) (not_lt.1 h2)
        subst heq
        have hA : List.filter (fun e => strictExtends (nl :: tail) e.1)
            (entries lf) = [] := by
          apply List.filter_eq_nil.2
          intro e he
          have hk : e.1 ∈ keyList lf := List.mem_map_of_mem Prod.fst he
          obtain ⟨c, t2, hkk, hc⟩ := (headLt_iff nl e.1).1 (hhl e.1 hk)
          rw [hkk, strictExtends_head_ne nl tail c t2 (ne_of_gt hc)]
          simp
        have hD : List.filter (fun e => strictExtends (nl :: tail) e.1)
            (entries rt) = [] := by
          apply List.filter_eq_nil.2
          intro e he
          have hk : e.1 ∈ keyList rt := List.mem_map_of_mem Prod.fst he
          obtain ⟨c, t2, hkk, hc⟩ := (headGt_iff nl e.1).1 (hhr e.1 hk)
          rw [hkk, strictExtends_head_ne nl tail c t2 (ne_of_lt hc)]
          simp
        cases tail with
        | nil =>
          have hB : List.filter (fun e => strictExtends [nl] e.1)
              (match nv with | some x => [([nl], x)] | Option.none => []) = [] := by
            cases nv with
            | none => rfl
            | some x =>
              apply List.filter_eq_nil.2
              intro e he
              simp at he
              rw [he]
              show ¬ strictExtends [nl] [nl] = true
              simp [strictExtends]
          have hC : List.filter (fun e => strictExtends [nl] e.1)
              ((entries md).map (fun e => (nl :: e.1, e.2)))
              = (entries md).map (fun e => (nl :: e.1, e.2)) := by
            apply List.filter_eq_self.2
            intro e he
            obtain ⟨e0, he0, rfl⟩ := List.mem_map.1 he
            have hne := keyList_ne_nil md e0.1 (List.mem_map_of_mem Prod.fst he0)
            show strictExtends [nl] (nl :: e0.1) = true
            rw [strictExtends_cons]
            exact (strictExtends_nil_iff e0.1).2 hne
          have hfind : find_complete_root_r (Link.node nl nv lf md rt) nl [] = md := by
            rw [find_complete_root_r_node]
            simp [h1]
          rw [hfind, hA, hB, hC, hD]
          simp
        | cons l2 t2 =>
          have hB : List.filter (fun e => strictExtends (nl :: l2 :: t2) e.1)
              (match nv with | some x => [([nl], x)] | Option.none => []) = [] := by
            cases nv with
            | none => rfl
            | some x =>
              apply List.filter_eq_nil.2
              intro e he
              simp at he
              rw [he]
              show ¬ strictExtends (nl :: l2 :: t2) [nl] = true
              simp [strictExtends, isPfx]
          have hC : List.filter (fun e => strictExtends (nl :: l2 :: t2) e.1)
              ((entries md).map (fun e => (nl :: e.1, e.2)))
              = ((entries md).filter
                  (fun e => strictExtends (l2 :: t2) e.1)).map
                    (fun e => (nl :: e.1, e.2)) := by
            rw [List.filter_map]
            congr 1
            apply List.filter_congr
            intro e he
            simp only [Function.comp]
            exact strictExtends_cons nl (l2 :: t2) e.1
          have hfind : find_complete_root_r (Link.node nl nv lf md rt) nl (l2 :: t2)
              = find_complete_root_r md l2 t2 := by
            rw [find_complete_root_r_node]
            simp [h1]
          rw [hfind, hA, hB, hC, hD, ← ihm l2 t2 hmd, List.map_map]
          simp
/-- `visit_complete_values` realises C9's filter description: it passes to the
callback exactly the values whose stored keys strictly extend the prefix
(every stored value when the prefix is empty), in in-order. -/
theorem visit_complete_values_spec {T : Type} (t : Tst T) (h : ordInv t.root = true)
    (key : List Char) :
    t.visit_complete_values key
      = ((entries t.root).filter (fun e => strictExtends key e.1)).map Prod.snd := by
  cases key with
  | nil =>
    have hall : (entries t.root).filter (fun e => strictExtends [] e.1)
        = entries t.root := by
      apply List.filter_eq_self.2
      intro e he
      exact (strictExtends_nil_iff e.1).2
        (keyList_ne_nil t.root e.1 (List.mem_map_of_mem Prod.fst he))
    show visit_values_r t.root = _
    rw [hall, visit_values_r_eq_entries]
  | cons label key_tail =>
    show visit_complete_values_r (find_complete_root_r t.root label key_tail) = _
    rw [visit_complete_values_r_eq, visit_values_r_eq_entries,
      ← entries_find_complete t.root label key_tail h, List.map_map]
    rfl

theorem drainNext_new_from_root {T : Type} (root : Link T) (n : Nat)
    (hn : (visit_values_r root).length ≤ n) :
    drainNext n (TstIterator.new_from_root root) = visit_values_r root := by
  have hto : toEmit (TstIterator.new_from_root root).todo_i = inorderPV root [] :=
    toEmit_new_from_root root
  have hlen : (toEmit (TstIterator.new_from_root root).todo_i).length
      = (visit_values_r root).length := by
    rw [hto, visit_values_r_eq_inorderPV root []]
    simp
  have hiter : TstIterator.new_from_root root
      = ⟨(TstIterator.new_from_root root).todo_i, Option.none,
          (TstIterator.new_from_root root).todo_j, Option.none⟩ := rfl
  rw [hiter, drainNext_spec n _ _ Option.none (by rw [hlen]; exact hn), hto,
    visit_values_r_eq_inorderPV root []]

/-- C9: on any API-reachable tree, `visit_complete_values(p)` passes to its
callback exactly the values of the stored keys that strictly extend `p` (the
value of a key exactly equal to `p` is excluded, the subtree traversed being
the `middle` link found at the end of the prefix path); draining
`iter_complete(p)` forward yields the same list; and with the empty prefix
every value in the tree is yielded. -/
theorem C9_complete_iteration {T : Type} (ops : List (Op T)) (key : List Char)
    (n : Nat) (hn : (((applyOps ops).visit_complete_values key)).length ≤ n) :
    (applyOps ops).visit_complete_values key
        = ((entries (applyOps ops).root).filter
            (fun e => strictExtends key e.1)).map Prod.snd
      ∧ drainNext n ((applyOps ops).iter_complete key)
          = (applyOps ops).visit_complete_values key
      ∧ (applyOps ops).visit_complete_values [] = (applyOps ops).visit_values := by
  have hord := ordInv_applyOps ops
  refine ⟨visit_complete_values_spec _ hord key, ?_, rfl⟩
  cases key with
  | nil => exact drainNext_new_from_root (applyOps ops).root n hn
  | cons label key_tail =>
    have hn2 : (visit_values_r
        (find_complete_root_r (applyOps ops).root label key_tail)).length ≤ n := by
      rw [← visit_complete_values_r_eq]
      exact hn
    show drainNext n (TstIterator.new_from_root
        (find_complete_root_r (applyOps ops).root label key_tail))
      = visit_complete_values_r
          (find_complete_root_r (applyOps ops).root label key_tail)
    rw [visit_complete_values_r_eq]
    exact drainNext_new_from_root _ n hn2

theorem C9_complete_iteration_witness :
    ((applyOps [Op.ins ['a'] 0, Op.ins ['a', 'b'] 1] : Tst Nat).visit_complete_values
          ['a']
        = ((entries (applyOps [Op.ins ['a'] 0, Op.ins ['a', 'b'] 1]
              : Tst Nat).root).filter
            (fun e => strictExtends ['a'] e.1)).map Prod.snd
      ∧ drainNext 2 ((applyOps [Op.ins ['a'] 0, Op.ins ['a', 'b'] 1]
            : Tst Nat).iter_complete ['a'])
          = (applyOps [Op.ins ['a'] 0, Op.ins ['a', 'b'] 1]
              : Tst Nat).visit_complete_values ['a']
      ∧ (applyOps [Op.ins ['a'] 0, Op.ins ['a', 'b'] 1]
            : Tst Nat).visit_complete_values []
          = (applyOps [Op.ins ['a'] 0, Op.ins ['a', 'b'] 1] : Tst Nat).visit_values) :=
  C9_complete_iteration [Op.ins ['a'] 0, Op.ins ['a', 'b'] 1] ['a'] 2 (by decide)

/-- The 16-key documentation example (lib.rs:39-51), each key mapped to
itself as value. -/
def exampleKeys : List (List Char) :=
  [['a', 'b', 'a'], ['a', 'b'], ['b', 'c'], ['a', 'c'], ['a', 'b', 'c'], ['a'],
   ['b'], ['a', 'c', 'a'], ['c', 'a', 'a'], ['c', 'b', 'c'], ['b', 'a', 'c'],
   ['c'], ['c', 'c', 'a'], ['a', 'a', 'b'], ['a', 'b', 'b'], ['a', 'a']]

def tst16 : Tst (List Char) := applyInserts (exampleKeys.map (fun k => (k, k)))

/-- C10 counterexample: on the 16-key example tree, `"a"` is a stored key but
`visit_complete_values("a")` and a drained `iter_complete("a")` yield only the
eight keys strictly extending `"a"` — the value for `"a"` itself is NOT
yielded, contrary to the claimed nine-key set. -/
theorem C10_counterexample :
    tst16.get ['a'] = some ['a']
      ∧ tst16.visit_complete_values ['a']
        = [['a', 'a'], ['a', 'a', 'b'], ['a', 'b'], ['a', 'b', 'a'],
           ['a', 'b', 'b'], ['a', 'b', 'c'], ['a', 'c'], ['a', 'c', 'a']]
      ∧ drainNext 16 (tst16.iter_complete ['a'])
        = tst16.visit_complete_values ['a']
      ∧ ¬ (['a'] ∈ tst16.visit_complete_values ['a']) := by
  refine ⟨rfl, rfl, rfl, by decide⟩

/-- C10 (amended): on the 16-key example tree, `iter_complete("a")` (drained
forward) and `visit_complete_values("a")` yield the values for exactly the
keys `{"aa","aab","ab","aba","abb","abc","ac","aca"}` — the strict extensions
of `"a"`, in in-order; the key `"a"` itself, although stored, is not among
them. -/
theorem C10_complete_a_example :
    tst16.visit_complete_values ['a']
        = [['a', 'a'], ['a', 'a', 'b'], ['a', 'b'], ['a', 'b', 'a'],
           ['a', 'b', 'b'], ['a', 'b', 'c'], ['a', 'c'], ['a', 'c', 'a']]
      ∧ drainNext 16 (tst16.iter_complete ['a'])
        = tst16.visit_complete_values ['a'] := ⟨rfl, rfl⟩

/-- Spec-side (C4's words): Hamming-style distance between two keys — the
number of positions where the characters differ, every position by which the
lengths differ counting as one mismatch. -/
def hammingDist : List Char → List Char → Nat
  | [], k => k.length
  | c :: t, [] => (c :: t).length
  | a :: p, b :: k => (if a = b then 0 else 1) + hammingDist p k

theorem hammingDist_nil_left (k : List Char) : hammingDist [] k = k.length := by
  cases k <;> rfl

theorem hammingDist_nil_right (p : List Char) : hammingDist p [] = p.length := by
  cases p <;> rfl

theorem hammingDist_eq_zero : ∀ p k : List Char, hammingDist p k = 0 ↔ p = k := by
  intro p
  induction p with
  | nil =>
    intro k
    rw [hammingDist_nil_left]
    simp [eq_comm, List.length_eq_zero]
  | cons a p ih =>
    intro k
    cases k with
    | nil => simp [hammingDist_nil_right]
    | cons b k2 =>
      by_cases hab : a = b
      · subst hab
        simp [hammingDist, ih k2]
      · simp [hammingDist, hab]

/-- Under the ordering invariant `get_r` finds exactly the entry whose key is
`l :: kt` (there is at most one). -/
theorem get_r_entries {T : Type} :
    ∀ (link : Link T) (l : Char) (kt : List Char), ordInv link = true →
      ((entries link).filter (fun e => decide (e.1 = l :: kt))).map Prod.snd
        = (get_r link l kt).toList := by
  intro link
  induction link with
  | none => intro l kt _; simp [entries, get_r]
  | node nl nv lf md rt ihl ihm ihr =>
    intro l kt h
    obtain ⟨hlf, hmd, hrt, hhl, hhr⟩ := (ordInv_node_iff nl nv lf md rt).1 h
    clear h
    rw [entries_node, List.filter_append, List.filter_append, List.filter_append,
      get_r_node]
    by_cases h1 : l < nl
    · rw [if_pos h1]
      have hB : List.filter (fun e => decide (e.1 = l :: kt))
          (match nv with | some x => [([nl], x)] | Option.none => []) = [] := by
        cases nv with
        | none => rfl
        | some x =>
          apply List.filter_eq_nil.2
          intro e he
          simp at he
          rw [he]
          simp [ne_of_gt h1]
      have hC : List.filter (fun e => decide (e.1 = l :: kt))
          ((entries md).map (fun e => (nl :: e.1, e.2))) = [] := by
        apply List.filter_eq_nil.2
        intro e he
        obtain ⟨e0, he0, rfl⟩ := List.mem_map.1 he
        simp [ne_of_gt h1]
      have hD : List.filter (fun e => decide (e.1 = l :: kt)) (entries rt) = [] := by
        apply List.filter_eq_nil.2
        intro e he
        obtain ⟨c, t2, hkk, hc⟩ :=
          (headGt_iff nl e.1).1 (hhr e.1 (List.mem_map_of_mem Prod.fst he))
        rw [hkk]
        simp [ne_of_gt (lt_trans h1 hc)]
      rw [hB, hC, hD, ← ihl l kt hlf]
      simp
    · by_cases h2 : nl < l
      · rw [if_neg h1, if_pos h2]
        have hA : List.filter (fun e => decide (e.1 = l :: kt)) (entries lf) = [] := by
          apply List.filter_eq_nil.2
          intro e he
          obtain ⟨c, t2, hkk, hc⟩ :=
            (headLt_iff nl e.1).1 (hhl e.1 (List.mem_map_of_mem Prod.fst he))
          rw [hkk]
          simp [ne_of_lt (lt_trans hc h2)]
        have hB : List.filter (fun e => decide (e.1 = l :: kt))
            (match nv with | some x => [([nl], x)] | Option.none => []) = [] := by
          cases nv with
          | none => rfl
          | some x =>
            apply List.filter_eq_nil.2
            intro e he
            simp at he
            rw [he]
            simp [ne_of_lt h2]
        have hC : List.filter (fun e => decide (e.1 = l :: kt))
            ((entries md).map (fun e => (nl :: e.1, e.2))) = [] := by
          apply List.filter_eq_nil.2
          intro e he
          obtain ⟨e0, he0, rfl⟩ := List.mem_map.1 he
          simp [ne_of_lt h2]
        rw [hA, hB, hC, ← ihr l kt hrt]
        simp
      · have heq : nl = l := le_antisymm (not_lt.1 h1) (not_lt.1 h2)
        subst heq
        rw [if_neg h1, if_neg h2]
        have hA : List.filter (fun e => decide (e.1 = nl :: kt)) (entries lf) = [] := by
          apply List.filter_eq_nil.2
          intro e he
          obtain ⟨c, t2, hkk, hc⟩ :=
            (headLt_iff nl e.1).1 (hhl e.1 (List.mem_map_of_mem Prod.fst he))
          rw [hkk]
          simp [ne_of_lt hc]
        have hD : List.filter (fun e => decide (e.1 = nl :: kt)) (entries rt) = [] := by
          apply List.filter_eq_nil.2
          intro e he
          obtain ⟨c, t2, hkk, hc⟩ :=
            (headGt_iff nl e.1).1 (hhr e.1 (List.mem_map_of_mem Prod.fst he))
          rw [hkk]
          simp [ne_of_gt hc]
        cases kt with
        | nil =>
          have hB : List.filter (fun e => decide (e.1 = nl :: ([] : List Char)))
              (match nv with | some x => [([nl], x)] | Option.none => [])
              = (match nv with | some x => [([nl], x)] | Option.none => []) := by
            cases nv with
            | none => rfl
            | some x => simp
          have hC : List.filter (fun e => decide (e.1 = nl :: ([] : List Char)))
              ((entries md).map (fun e => (nl :: e.1, e.2))) = [] := by
            apply List.filter_eq_nil.2
            intro e he
            obtain ⟨e0, he0, rfl⟩ := List.mem_map.1 he
            have hne := keyList_ne_nil md e0.1 (List.mem_map_of_mem Prod.fst he0)
            simp [hne]
          rw [hA, hB, hC, hD]
          cases nv <;> simp
        | cons l2 t2 =>
          have hB : List.filter (fun e => decide (e.1 = nl :: l2 :: t2))
              (match nv with | some x => [([nl], x)] | Option.none => []) = [] := by
            cases nv with
            | none => rfl
            | some x =>
              apply List.filter_eq_nil.2
              intro e he
              simp at he
              rw [he]
              simp
          have hC : List.filter (fun e => decide (e.1 = nl :: l2 :: t2))
              ((entries md).map (fun e => (nl :: e.1, e.2)))
              = ((entries md).filter (fun e => decide (e.1 = l2 :: t2))).map
                  (fun e => (nl :: e.1, e.2)) := by
            rw [List.filter_map]
            congr 1
            apply List.filter_congr
            intro e he
            simp [Function.comp]
          have hsnd : (Prod.snd ∘ fun e : List Char × T => (nl :: e.1, e.2))
              = Prod.snd := rfl
          rw [hA, hB, hC, hD]
          simp only [List.nil_append, List.append_nil, List.map_map]
          rw [hsnd, ihm l2 t2 hmd]

/-- The mismatch cost of the current position: `0` when the searched label
matches the node label, `1` otherwise (also when the reference key is already
exhausted).  This is the `new_range = range - …` / `delta` computation of
lib.rs:566-571/588-585 and lib.rs:1443-1449. -/
def nDelta (label : Option Char) (nl : Char) : Nat :=
  match label with
  | Option.none => 1
  | some l => if l = nl then 0 else 1

/-- `let new_len = if tail_len > 0 { tail_len-1 } else { tail_len }`
(lib.rs:592). -/
def newLen (n : Nat) : Nat := if n > 0 then n - 1 else n

/-- `fn visit_neighbor_values_r(link, label, key_tail, tail_len, range,
callback)` (lib.rs:545-600).  With no budget left the code falls back to the
exact search `get_r`; otherwise the whole node is explored, the node's value
is emitted when the remaining reference length fits in the remaining budget,
and the middle child is searched with the position consumed and the budget
reduced by the mismatch cost.  (The shared `&mut Chars` is consumed only
inside `get_r` calls, which receive it behind a clone made when descending
`middle` — the only place characters are taken — so immutable lists model the
threading exactly.) -/
def visit_neighbor_values_r {T : Type} :
    Link T → Option Char → List Char → Nat → Nat → List T
  | Link.none, label, key_tail, _, range =>
    if range = 0 then
      match label with
      | some l => (get_r Link.none l key_tail).toList
      | Option.none => []
    else []
  | Link.node nl nv lf md rt, label, key_tail, tail_len, range =>
    if range = 0 then
      match label with
      | some l => (get_r (Link.node nl nv lf md rt) l key_tail).toList
      | Option.none => []
    else
      visit_neighbor_values_r lf label key_tail tail_len range
        ++ (match nv with
            | some value =>
              if tail_len ≤ range - nDelta label nl then [value] else []
            | Option.none => [])
        ++ visit_neighbor_values_r md key_tail.head? key_tail.tail (newLen tail_len)
            (range - nDelta label nl)
        ++ visit_neighbor_values_r rt label key_tail tail_len range

theorem visit_neighbor_values_r_none {T : Type} (label : Option Char)
    (kt : List Char) (tl range : Nat) :
    visit_neighbor_values_r (Link.none : Link T) label kt tl range = [] := by
  cases label <;> by_cases hr : range = 0 <;> simp [visit_neighbor_values_r, hr, get_r]

theorem visit_neighbor_values_r_zero {T : Type} (link : Link T) (l : Char)
    (kt : List Char) (tl : Nat) :
    visit_neighbor_values_r link (some l) kt tl 0 = (get_r link l kt).toList := by
  cases link <;> simp [visit_neighbor_values_r]

theorem visit_neighbor_values_r_zero_none {T : Type} (link : Link T)
    (kt : List Char) (tl : Nat) :
    visit_neighbor_values_r link Option.none kt tl 0 = [] := by
  cases link <;> simp [visit_neighbor_values_r]

theorem visit_neighbor_values_r_node {T : Type} (nl : Char) (nv : Option T)
    (lf md rt : Link T) (label : Option Char) (kt : List Char) (tl range : Nat)
    (hr : range ≠ 0) :
    visit_neighbor_values_r (Link.node nl nv lf md rt) label kt tl range
      = visit_neighbor_values_r lf label kt tl range
        ++ (match nv with
            | some value => if tl ≤ range - nDelta label nl then [value] else []
            | Option.none => [])
        ++ visit_neighbor_values_r md kt.head? kt.tail (newLen tl)
            (range - nDelta label nl)
        ++ visit_neighbor_values_r rt label kt tl range := by
  simp [visit_neighbor_values_r, hr]

theorem headD_toList_append (kt : List Char) :
    kt.head?.toList ++ kt.tail = kt := by
  cases kt <;> rfl

theorem newLen_length (kt : List Char) : newLen kt.length = kt.tail.length := by
  cases kt <;> simp [newLen]

/-- `visit_neighbor_values_r` realises C4's distance filter: started on a link
with the remaining reference `label.toList ++ kt` (whose length is passed as
`tail_len = kt.length`) and budget `range`, it emits exactly the values of
the stored keys within distance `range` of the remaining reference, in
in-order. -/
theorem visit_neighbor_values_r_spec {T : Type} :
    ∀ (link : Link T) (label : Option Char) (kt : List Char) (range : Nat),
      ordInv link = true → (label = Option.none → kt = []) →
      visit_neighbor_values_r link label kt kt.length range
        = ((entries link).filter
            (fun e =>
              decide (hammingDist (label.toList ++ kt) e.1 ≤ range))).map
              Prod.snd := by
  intro link
  induction link with
  | none => intro label kt range _ _; rw [visit_neighbor_values_r_none]; rfl
  | node nl nv lf md rt ihl ihm ihr =>
    intro label kt range h hl
    obtain ⟨hlf, hmd, hrt, hhl, hhr⟩ := (ordInv_node_iff nl nv lf md rt).1 h
    by_cases hr : range = 0
    · subst hr
      cases label with
      | none =>
        have hkt : kt = [] := hl rfl
        subst hkt
        rw [visit_neighbor_values_r_zero_none]
        have hfil : (entries (Link.node nl nv lf md rt)).filter
            (fun e =>
              decide (hammingDist ((Option.none : Option Char).toList ++ ([] : List Char))
                e.1 ≤ 0)) = [] := by
          apply List.filter_eq_nil.2
          intro e he
          have hne := keyList_ne_nil _ e.1 (List.mem_map_of_mem Prod.fst he)
          simp [hammingDist_nil_left, List.length_eq_zero]
          exact hne
        rw [hfil]
        rfl
      | some l =>
        rw [visit_neighbor_values_r_zero]
        have hcong : (entries (Link.node nl nv lf md rt)).filter
            (fun e => decide (hammingDist ((some l).toList ++ kt) e.1 ≤ 0))
            = (entries (Link.node nl nv lf md rt)).filter
                (fun e => decide (e.1 = l :: kt)) := by
          apply List.filter_congr
          intro e he
          have h9 : ((some l : Option Char).toList ++ kt) = l :: kt := rfl
          rw [h9]
          simp only [Nat.le_zero, decide_eq_decide]
          rw [hammingDist_eq_zero]
          exact eq_comm
        rw [hcong, get_r_entries _ l kt h]
    · rw [visit_neighbor_values_r_node nl nv lf md rt label kt kt.length range hr,
        entries_node, List.filter_append, List.filter_append, List.filter_append]
      clear h
      have hvalcond : (hammingDist (label.toList ++ kt) [nl] ≤ range)
          ↔ (kt.length ≤ range - nDelta label nl) := by
        cases label with
        | none =>
          have hkt : kt = [] := hl rfl
          subst hkt
          simp [hammingDist, nDelta]
          omega
        | some l =>
          by_cases hln : l = nl
          · subst hln
            simp [hammingDist, nDelta, hammingDist_nil_right]
          · simp [hammingDist, nDelta, hln, hammingDist_nil_right]
            omega
      have hmidcond : ∀ k : List Char,
          (hammingDist (label.toList ++ kt) (nl :: k) ≤ range)
          ↔ (hammingDist (kt.head?.toList ++ kt.tail) k ≤ range - nDelta label nl) := by
        intro k
        rw [headD_toList_append]
        cases label with
        | none =>
          have hkt : kt = [] := hl rfl
          subst hkt
          simp [hammingDist, nDelta, hammingDist_nil_left]
          omega
        | some l =>
          by_cases hln : l = nl
          · subst hln
            simp [hammingDist, nDelta]
          · simp [hammingDist, nDelta, hln]
            omega
      have hB : List.filter
          (fun e => decide (hammingDist (label.toList ++ kt) e.1 ≤ range))
          (match nv with | some x => [([nl], x)] | Option.none => [])
          = (match nv with
             | some value =>
               if kt.length ≤ range - nDelta label nl
               then [(([nl] : List Char), value)] else []
             | Option.none => []) := by
        cases nv with
        | none => rfl
        | some x =>
          show List.filter
              (fun e => decide (hammingDist (label.toList ++ kt) e.1 ≤ range))
              [(([nl] : List Char), x)]
            = if kt.length ≤ range - nDelta label nl
              then [(([nl] : List Char), x)] else []
          by_cases hc : kt.length ≤ range - nDelta label nl
          · rw [if_pos hc]
            have hd : decide (hammingDist (label.toList ++ kt) ([nl] : List Char)
                ≤ range) = true := by
              simp [hvalcond.2 hc]
            simp [List.filter, hd]
          · rw [if_neg hc]
            have hd : decide (hammingDist (label.toList ++ kt) ([nl] : List Char)
                ≤ range) = false := by
              simp only [decide_eq_false_iff_not]
              intro h2
              exact absurd (hvalcond.1 h2) hc
            simp [List.filter, hd]
      have hC : List.filter
          (fun e => decide (hammingDist (label.toList ++ kt) e.1 ≤ range))
          ((entries md).map (fun e => (nl :: e.1, e.2)))
          = ((entries md).filter
              (fun e =>
                decide (hammingDist (kt.head?.toList ++ kt.tail) e.1
                  ≤ range - nDelta label nl))).map
              (fun e => (nl :: e.1, e.2)) := by
        rw [List.filter_map]
        congr 1
        apply List.filter_congr
        intro e he
        simp [Function.comp, hmidcond e.1]
      have hmid : visit_neighbor_values_r md kt.head? kt.tail (newLen kt.length)
          (range - nDelta label nl)
          = ((entries md).filter
              (fun e =>
                decide (hammingDist (kt.head?.toList ++ kt.tail) e.1
                  ≤ range - nDelta label nl))).map Prod.snd := by
        rw [newLen_length]
        exact ihm kt.head? kt.tail (range - nDelta label nl) hmd
          (by cases kt <;> simp)
      rw [hB, hC, ihl label kt range hlf hl, ihr label kt range hrt hl, hmid]
      cases nv with
      | none => simp
      | some x =>
        by_cases hc : kt.length ≤ range - nDelta label nl <;> simp [hc]

/-- The number of bytes of a character's UTF-8 encoding
(`char::len_utf8` in Rust). -/
def charBytes (c : Char) : Nat :=
  if c.toNat ≤ 0x7F then 1
  else if c.toNat ≤ 0x7FF then 2
  else if c.toNat ≤ 0xFFFF then 3
  else 4

/-- `str::len` in Rust: the UTF-8 byte length of the key, NOT its character
count (they agree exactly when every character is ASCII). -/
def utf8Len (s : List Char) : Nat := (s.map charBytes).sum

theorem charBytes_pos (c : Char) : 0 < charBytes c := by
  simp only [charBytes]
  split
  · omega
  · split
    · omega
    · split <;> omega

/-- `Tst::visit_neighbor_values` (lib.rs:936-944): split the reference key
into its first character and tail; the `tail_len` handed along is
`key.len()-1`, the key's UTF-8 BYTE length minus one (lib.rs:941), not a
character count. -/
def Tst.visit_neighbor_values {T : Type} (t : Tst T) (key : List Char) (dist : Nat) :
    List T :=
  visit_neighbor_values_r t.root key.head? key.tail
    (if utf8Len key = 0 then 0 else utf8Len key - 1) dist

theorem tail_len_eq_tail_length (key : List Char) :
    (if key.length = 0 then 0 else key.length - 1) = key.tail.length := by
  cases key <;> simp

theorem byte_tail_len (key : List Char) (hascii : utf8Len key = key.length) :
    (if utf8Len key = 0 then 0 else utf8Len key - 1) = key.tail.length := by
  rw [hascii]
  exact tail_len_eq_tail_length key

/-- For reference keys of single-byte characters (byte length = character
count) the visitor realises the distance filter. -/
theorem visit_neighbor_values_spec {T : Type} (t : Tst T)
    (h : ordInv t.root = true) (key : List Char) (dist : Nat)
    (hascii : utf8Len key = key.length) :
    t.visit_neighbor_values key dist
      = ((entries t.root).filter
          (fun e => decide (hammingDist key e.1 ≤ dist))).map Prod.snd := by
  show visit_neighbor_values_r t.root key.head? key.tail
      (if utf8Len key = 0 then 0 else utf8Len key - 1) dist = _
  rw [byte_tail_len key hascii]
  cases key with
  | nil => exact visit_neighbor_values_r_spec t.root Option.none [] dist h (fun _ => rfl)
  | cons c kt =>
    exact visit_neighbor_values_r_spec t.root (some c) kt dist h (by simp)

/-- `range == 0 && label >= node.label`: the left-pruning test of
lib.rs:1404-1410 (`continue` without exploring the left child). -/
def pruneLeftB (lb : Option Char) (r : Nat) (nl : Char) : Bool :=
  match lb with
  | some l => r == 0 && decide (nl ≤ l)
  | Option.none => false

/-- `range == 0 && label <= node.label`: the right-pruning test of
lib.rs:1489-1497. -/
def pruneRightB (lb : Option Char) (r : Nat) (nl : Char) : Bool :=
  match lb with
  | some l => r == 0 && decide (l ≤ nl)
  | Option.none => false

/-- The values the neighbor stack machine still emits from a fresh (`GoLeft`)
frame on this link: the left child unless pruned, the node's value when the
remaining length fits the remaining budget, the middle child with the budget
reduced by the mismatch cost, the right child unless pruned. -/
def nEmit {T : Type} : Link T → Option Char → List Char → Nat → Nat → List T
  | Link.none, _, _, _, _ => []
  | Link.node nl nv lf md rt, lb, kt, tl, r =>
    (if pruneLeftB lb r nl = true then [] else nEmit lf lb kt tl r)
      ++ (match nv with
          | some x => if nDelta lb nl ≤ r ∧ tl ≤ r - nDelta lb nl then [x] else []
          | Option.none => [])
      ++ (if nDelta lb nl ≤ r then
            nEmit md kt.head? kt.tail (newLen tl) (r - nDelta lb nl)
          else [])
      ++ (if pruneRightB lb r nl = true then [] else nEmit rt lb kt tl r)

/-- One stack entry of the neighbor iterator
(`(&'a Node<T>, TstIteratorAction, Option<char>, Chars<'b>, usize, usize)`,
lib.rs:1353), the borrowed node's position alongside. -/
structure NFrame (T : Type) where
  node : Link T
  path : NodePath
  action : TstIteratorAction
  label : Option Char
  key_tail : List Char
  tail_len : Nat
  range : Nat

/-- `struct TstNeighborIterator` (lib.rs:1350-1358). -/
structure TstNeighborIterator (T : Type) where
  todo_i : List (NFrame T)
  last_i : Option NodePath
  todo_j : List (NFrame T)
  last_j : Option NodePath

/-- `if let Some(ref child) = … { todo.push((child, action, …)) }` -/
def pushNFrame {T : Type} (l : Link T) (p : NodePath) (a : TstIteratorAction)
    (lb : Option Char) (kt : List Char) (tl r : Nat) : List (NFrame T) :=
  match l with
  | Link.none => []
  | Link.node _ _ _ _ _ => [⟨l, p, a, lb, kt, tl, r⟩]

/-- `TstNeighborIterator::new` (lib.rs:1363-1381): the seeded `tail_len` is
`key.len()-1` with `key.len()` the UTF-8 BYTE length (lib.rs:1375). -/
def TstNeighborIterator.new {T : Type} (tst : Tst T) (key : List Char)
    (range : Nat) : TstNeighborIterator T :=
  { todo_i := pushNFrame tst.root [] TstIteratorAction.goLeft key.head? key.tail
      (if utf8Len key = 0 then 0 else utf8Len key - 1) range,
    last_i := Option.none,
    todo_j := pushNFrame tst.root [] TstIteratorAction.goRight key.head? key.tail
      (if utf8Len key = 0 then 0 else utf8Len key - 1) range,
    last_j := Option.none }

/-- `Tst::iter_neighbor` (lib.rs:1010-1013). -/
def Tst.iter_neighbor {T : Type} (t : Tst T) (key : List Char) (range : Nat) :
    TstNeighborIterator T :=
  TstNeighborIterator.new t key range

/-- The body of `TstNeighborIterator::next` (lib.rs:1394-1507). -/
def nextNLoop {T : Type} : Nat → List (NFrame T) → List (NFrame T) →
    Option NodePath → Option NodePath → Option (Option T × TstNeighborIterator T)
  | 0, _, _, _, _ => Option.none
  | _ + 1, [], tj, li, lj => some (Option.none, ⟨[], li, tj, lj⟩)
  | fuel + 1, ⟨nd, p0, a, lb, kt, tl, r⟩ :: rest, tj, li, lj =>
    match nd with
    | Link.none => nextNLoop fuel rest tj li lj
    | Link.node nl nv lf md rt =>
      match a with
      | TstIteratorAction.goLeft =>
        nextNLoop fuel
          ((if pruneLeftB lb r nl = true then [] else
              pushNFrame lf (p0 ++ [Dir.left]) TstIteratorAction.goLeft lb kt tl r)
            ++ ⟨nd, p0, TstIteratorAction.visit, lb, kt, tl, r⟩ :: rest) tj li lj
      | TstIteratorAction.visit =>
        if nv.isSome = true ∧ lj = some p0 then
          some (Option.none, ⟨[], li, [], lj⟩)
        else
          match nv with
          | some x =>
            if nDelta lb nl ≤ r ∧ tl ≤ r - nDelta lb nl then
              some (some x,
                ⟨⟨nd, p0, TstIteratorAction.goMiddle, lb, kt, tl, r⟩ :: rest,
                  some p0, tj, lj⟩)
            else
              nextNLoop fuel
                (⟨nd, p0, TstIteratorAction.goMiddle, lb, kt, tl, r⟩ :: rest) tj li lj
          | Option.none =>
            nextNLoop fuel
              (⟨nd, p0, TstIteratorAction.goMiddle, lb, kt, tl, r⟩ :: rest) tj li lj
      | TstIteratorAction.goMiddle =>
        nextNLoop fuel
          ((if nDelta lb nl ≤ r then
              pushNFrame md (p0 ++ [Dir.middle]) TstIteratorAction.goLeft
                kt.head? kt.tail (newLen tl) (r - nDelta lb nl)
            else [])
            ++ ⟨nd, p0, TstIteratorAction.goRight, lb, kt, tl, r⟩ :: rest) tj li lj
      | TstIteratorAction.goRight =>
        nextNLoop fuel
          ((if pruneRightB lb r nl = true then [] else
              pushNFrame rt (p0 ++ [Dir.right]) TstIteratorAction.goLeft lb kt tl r)
            ++ rest) tj li lj

/-- Loop-termination weight of a neighbor frame. -/
def frameMeasureN {T : Type} : NFrame T → Nat
  | ⟨Link.none, _, _, _, _, _, _⟩ => 1
  | ⟨Link.node _ _ lf md rt, _, TstIteratorAction.goLeft, _, _, _, _⟩ =>
    4 * (1 + cnt lf + cnt md + cnt rt)
  | ⟨Link.node _ _ _ md rt, _, TstIteratorAction.visit, _, _, _, _⟩ =>
    3 + 4 * (cnt md + cnt rt)
  | ⟨Link.node _ _ _ md rt, _, TstIteratorAction.goMiddle, _, _, _, _⟩ =>
    2 + 4 * (cnt md + cnt rt)
  | ⟨Link.node _ _ _ _ rt, _, TstIteratorAction.goRight, _, _, _, _⟩ => 1 + 4 * cnt rt

def stackMeasureN {T : Type} (s : List (NFrame T)) : Nat := (s.map frameMeasureN).sum

def TstNeighborIterator.next {T : Type} (it : TstNeighborIterator T) :
    Option T × TstNeighborIterator T :=
  match nextNLoop (stackMeasureN it.todo_i + 1) it.todo_i it.todo_j it.last_i it.last_j with
  | some r => r
  | Option.none => (Option.none, it)

/-- The values a forward neighbor frame still owes. -/
def nfTodo {T : Type} : NFrame T → List T
  | ⟨Link.none, _, _, _, _, _, _⟩ => []
  | ⟨Link.node nl nv lf md rt, _, TstIteratorAction.goLeft, lb, kt, tl, r⟩ =>
    nEmit (Link.node nl nv lf md rt) lb kt tl r
  | ⟨Link.node nl nv _ md rt, _, TstIteratorAction.visit, lb, kt, tl, r⟩ =>
    (match nv with
     | some x => if nDelta lb nl ≤ r ∧ tl ≤ r - nDelta lb nl then [x] else []
     | Option.none => [])
      ++ (if nDelta lb nl ≤ r then
            nEmit md kt.head? kt.tail (newLen tl) (r - nDelta lb nl)
          else [])
      ++ (if pruneRightB lb r nl = true then [] else nEmit rt lb kt tl r)
  | ⟨Link.node nl _ _ md rt, _, TstIteratorAction.goMiddle, lb, kt, tl, r⟩ =>
    (if nDelta lb nl ≤ r then
       nEmit md kt.head? kt.tail (newLen tl) (r - nDelta lb nl)
     else [])
      ++ (if pruneRightB lb r nl = true then [] else nEmit rt lb kt tl r)
  | ⟨Link.node nl _ _ _ rt, _, TstIteratorAction.goRight, lb, kt, tl, r⟩ =>
    if pruneRightB lb r nl = true then [] else nEmit rt lb kt tl r

def toEmitN {T : Type} (s : List (NFrame T)) : List T := (s.map nfTodo).join

theorem stackMeasureN_cons {T : Type} (f : NFrame T) (s : List (NFrame T)) :
    stackMeasureN (f :: s) = frameMeasureN f + stackMeasureN s := by
  simp [stackMeasureN]

theorem stackMeasureN_pushNFrame_goLeft {T : Type} (l : Link T) (p : NodePath)
    (lb : Option Char) (kt : List Char) (tl r : Nat) (s : List (NFrame T)) :
    stackMeasureN (pushNFrame l p TstIteratorAction.goLeft lb kt tl r ++ s)
      = 4 * cnt l + stackMeasureN s := by
  cases l <;> simp [pushNFrame, stackMeasureN, frameMeasureN, cnt]

theorem toEmitN_cons {T : Type} (f : NFrame T) (s : List (NFrame T)) :
    toEmitN (f :: s) = nfTodo f ++ toEmitN s := by
  simp [toEmitN]

theorem toEmitN_pushNFrame_goLeft {T : Type} (l : Link T) (p : NodePath)
    (lb : Option Char) (kt : List Char) (tl r : Nat) (s : List (NFrame T)) :
    toEmitN (pushNFrame l p TstIteratorAction.goLeft lb kt tl r ++ s)
      = nEmit l lb kt tl r ++ toEmitN s := by
  cases l <;> simp [pushNFrame, toEmitN, nfTodo, nEmit]

/-- What one forward neighbor `next` call does (backward side untouched,
`last_j` assumed unset — no `next_back` has been interleaved). -/
def NextNSpec {T : Type} (fuel : Nat) (ti tj : List (NFrame T))
    (li : Option NodePath) : Prop :=
  (toEmitN ti = [] →
    nextNLoop fuel ti tj li Option.none
      = some (Option.none, ⟨[], li, tj, Option.none⟩)) ∧
  (∀ x rest, toEmitN ti = x :: rest →
    ∃ ti' p, nextNLoop fuel ti tj li Option.none
        = some (some x, ⟨ti', some p, tj, Option.none⟩)
      ∧ toEmitN ti' = rest ∧ stackMeasureN ti' < stackMeasureN ti)

theorem nextNSpec_step {T : Type} {fuel : Nat} {ti ti2 tj : List (NFrame T)}
    {li : Option NodePath}
    (hstep : nextNLoop (fuel + 1) ti tj li Option.none
      = nextNLoop fuel ti2 tj li Option.none)
    (hE : toEmitN ti = toEmitN ti2)
    (hm : stackMeasureN ti2 < stackMeasureN ti)
    (hspec : NextNSpec fuel ti2 tj li) :
    NextNSpec (fuel + 1) ti tj li := by
  obtain ⟨h1, h2⟩ := hspec
  constructor
  · intro h0
    rw [hstep]
    exact h1 (by rw [← hE]; exact h0)
  · intro x rest h0
    obtain ⟨ti', p, he, hte, hm'⟩ := h2 x rest (by rw [← hE]; exact h0)
    exact ⟨ti', p, by rw [hstep]; exact he, hte, lt_trans hm' hm⟩

theorem nextNLoop_spec {T : Type} :
    ∀ (fuel : Nat) (ti tj : List (NFrame T)) (li : Option NodePath),
      stackMeasureN ti < fuel → NextNSpec fuel ti tj li := by
  intro fuel
  induction fuel with
  | zero =>
    intro ti tj li hf
    exact absurd hf (Nat.not_lt_zero _)
  | succ fuel ih =>
    intro ti tj li hf
    cases ti with
    | nil =>
      constructor
      · intro _
        rfl
      · intro x rest h0
        simp [toEmitN] at h0
    | cons f rest =>
      obtain ⟨nd, p0, a, lb, kt, tl, r⟩ := f
      rw [stackMeasureN_cons] at hf
      cases nd with
      | none =>
        simp only [frameMeasureN] at hf
        refine nextNSpec_step rfl ?_ ?_ (ih rest tj li (by omega))
        · simp [toEmitN_cons, nfTodo]
        · rw [stackMeasureN_cons]
          simp [frameMeasureN]
      | node nl nv lf md rt =>
        cases a with
        | goLeft =>
          simp only [frameMeasureN] at hf
          by_cases hpr : pruneLeftB lb r nl = true
          · have hstep : nextNLoop (fuel + 1)
                (⟨Link.node nl nv lf md rt, p0, TstIteratorAction.goLeft, lb, kt, tl, r⟩
                  :: rest) tj li Option.none
                = nextNLoop fuel
                  (⟨Link.node nl nv lf md rt, p0, TstIteratorAction.visit, lb, kt, tl, r⟩
                    :: rest) tj li Option.none := by
              simp only [nextNLoop]
              rw [if_pos hpr]
              rfl
            refine nextNSpec_step hstep ?_ ?_ (ih _ tj li ?_)
            · rw [toEmitN_cons, toEmitN_cons]
              simp only [nfTodo, nEmit]
              rw [if_pos hpr]
              simp
            · rw [stackMeasureN_cons, stackMeasureN_cons]
              simp only [frameMeasureN]
              omega
            · rw [stackMeasureN_cons]
              simp only [frameMeasureN]
              omega
          · have hstep : nextNLoop (fuel + 1)
                (⟨Link.node nl nv lf md rt, p0, TstIteratorAction.goLeft, lb, kt, tl, r⟩
                  :: rest) tj li Option.none
                = nextNLoop fuel
                  (pushNFrame lf (p0 ++ [Dir.left]) TstIteratorAction.goLeft lb kt tl r
                    ++ ⟨Link.node nl nv lf md rt, p0, TstIteratorAction.visit, lb, kt,
                        tl, r⟩ :: rest) tj li Option.none := by
              simp only [nextNLoop]
              rw [if_neg hpr]
            refine nextNSpec_step hstep ?_ ?_ (ih _ tj li ?_)
            · rw [toEmitN_cons, toEmitN_pushNFrame_goLeft, toEmitN_cons]
              simp only [nfTodo, nEmit]
              rw [if_neg hpr]
              simp
            · rw [stackMeasureN_pushNFrame_goLeft, stackMeasureN_cons,
                stackMeasureN_cons]
              simp only [frameMeasureN]
              omega
            · rw [stackMeasureN_pushNFrame_goLeft, stackMeasureN_cons]
              simp only [frameMeasureN]
              omega
        | goMiddle =>
          simp only [frameMeasureN] at hf
          by_cases hdm : nDelta lb nl ≤ r
          · have hstep : nextNLoop (fuel + 1)
                (⟨Link.node nl nv lf md rt, p0, TstIteratorAction.goMiddle, lb, kt, tl, r⟩
                  :: rest) tj li Option.none
                = nextNLoop fuel
                  (pushNFrame md (p0 ++ [Dir.middle]) TstIteratorAction.goLeft
                      kt.head? kt.tail (newLen tl) (r - nDelta lb nl)
                    ++ ⟨Link.node nl nv lf md rt, p0, TstIteratorAction.goRight, lb, kt,
                        tl, r⟩ :: rest) tj li Option.none := by
              simp only [nextNLoop]
              rw [if_pos hdm]
            refine nextNSpec_step hstep ?_ ?_ (ih _ tj li ?_)
            · rw [toEmitN_cons, toEmitN_pushNFrame_goLeft, toEmitN_cons]
              simp only [nfTodo]
              rw [if_pos hdm]
              simp
            · rw [stackMeasureN_pushNFrame_goLeft, stackMeasureN_cons,
                stackMeasureN_cons]
              simp only [frameMeasureN]
              omega
            · rw [stackMeasureN_pushNFrame_goLeft, stackMeasureN_cons]
              simp only [frameMeasureN]
              omega
          · have hstep : nextNLoop (fuel + 1)
                (⟨Link.node nl nv lf md rt, p0, TstIteratorAction.goMiddle, lb, kt, tl, r⟩
                  :: rest) tj li Option.none
                = nextNLoop fuel
                  (⟨Link.node nl nv lf md rt, p0, TstIteratorAction.goRight, lb, kt,
                      tl, r⟩ :: rest) tj li Option.none := by
              simp only [nextNLoop]
              rw [if_neg hdm]
              rfl
            refine nextNSpec_step hstep ?_ ?_ (ih _ tj li ?_)
            · rw [toEmitN_cons, toEmitN_cons]
              simp only [nfTodo]
              rw [if_neg hdm]
              simp
            · rw [stackMeasureN_cons, stackMeasureN_cons]
              simp only [frameMeasureN]
              omega
            · rw [stackMeasureN_cons]
              simp only [frameMeasureN]
              omega
        | goRight =>
          simp only [frameMeasureN] at hf
          by_cases hpr : pruneRightB lb r nl = true
          · have hstep : nextNLoop (fuel + 1)
                (⟨Link.node nl nv lf md rt, p0, TstIteratorAction.goRight, lb, kt, tl, r⟩
                  :: rest) tj li Option.none
                = nextNLoop fuel rest tj li Option.none := by
              simp only [nextNLoop]
              rw [if_pos hpr]
              rfl
            refine nextNSpec_step hstep ?_ ?_ (ih _ tj li ?_)
            · rw [toEmitN_cons]
              simp only [nfTodo]
              rw [if_pos hpr]
              simp
            · rw [stackMeasureN_cons]
              simp only [frameMeasureN]
              omega
            · omega
          · have hstep : nextNLoop (fuel + 1)
                (⟨Link.node nl nv lf md rt, p0, TstIteratorAction.goRight, lb, kt, tl, r⟩
                  :: rest) tj li Option.none
                = nextNLoop fuel
                  (pushNFrame rt (p0 ++ [Dir.right]) TstIteratorAction.goLeft lb kt tl r
                    ++ rest) tj li Option.none := by
              simp only [nextNLoop]
              rw [if_neg hpr]
            refine nextNSpec_step hstep ?_ ?_ (ih _ tj li ?_)
            · rw [toEmitN_cons, toEmitN_pushNFrame_goLeft]
              simp only [nfTodo]
              rw [if_neg hpr]
            · rw [stackMeasureN_pushNFrame_goLeft, stackMeasureN_cons]
              simp only [frameMeasureN]
              omega
            · rw [stackMeasureN_pushNFrame_goLeft]
              omega
        | visit =>
          simp only [frameMeasureN] at hf
          by_cases hem : (match nv with
              | some x => if nDelta lb nl ≤ r ∧ tl ≤ r - nDelta lb nl
                  then [x] else []
              | Option.none => ([] : List T)) = []
          · have hstep : nextNLoop (fuel + 1)
                (⟨Link.node nl nv lf md rt, p0, TstIteratorAction.visit, lb, kt, tl, r⟩
                  :: rest) tj li Option.none
                = nextNLoop fuel
                  (⟨Link.node nl nv lf md rt, p0, TstIteratorAction.goMiddle, lb, kt,
                      tl, r⟩ :: rest) tj li Option.none := by
              simp only [nextNLoop]
              rw [if_neg (by simp)]
              cases nv with
              | none => rfl
              | some x =>
                have hc : ¬ (nDelta lb nl ≤ r ∧ tl ≤ r - nDelta lb nl) := by
                  intro hc2
                  simp [hc2] at hem
                simp only [if_neg hc]
            refine nextNSpec_step hstep ?_ ?_ (ih _ tj li ?_)
            · rw [toEmitN_cons, toEmitN_cons]
              simp only [nfTodo]
              rw [hem]
              simp
            · rw [stackMeasureN_cons, stackMeasureN_cons]
              simp only [frameMeasureN]
              omega
            · rw [stackMeasureN_cons]
              simp only [frameMeasureN]
              omega
          · obtain ⟨x, hnv, hcond⟩ : ∃ x, nv = some x
                ∧ (nDelta lb nl ≤ r ∧ tl ≤ r - nDelta lb nl) := by
              cases nv with
              | none => exact absurd rfl hem
              | some x =>
                by_cases hc : nDelta lb nl ≤ r ∧ tl ≤ r - nDelta lb nl
                · exact ⟨x, rfl, hc⟩
                · simp [hc] at hem
            subst hnv
            have hE : toEmitN
                (⟨Link.node nl (some x) lf md rt, p0, TstIteratorAction.visit, lb, kt,
                    tl, r⟩ :: rest)
                = x :: toEmitN
                    (⟨Link.node nl (some x) lf md rt, p0, TstIteratorAction.goMiddle,
                        lb, kt, tl, r⟩ :: rest) := by
              rw [toEmitN_cons, toEmitN_cons]
              simp only [nfTodo]
              rw [if_pos hcond]
              simp
            constructor
            · intro h0
              rw [hE] at h0
              cases h0
            · intro y rest1 h0
              rw [hE] at h0
              rw [List.cons.injEq] at h0
              obtain ⟨hy, hrest⟩ := h0
              subst hy
              refine ⟨⟨Link.node nl (some x) lf md rt, p0, TstIteratorAction.goMiddle,
                  lb, kt, tl, r⟩ :: rest, p0, ?_, hrest, ?_⟩
              · simp only [nextNLoop]
                rw [if_neg (by simp)]
                simp only [if_pos hcond]
              · rw [stackMeasureN_cons, stackMeasureN_cons]
                simp [frameMeasureN]

theorem pruneLeftB_true_iff (lb : Option Char) (r : Nat) (nl : Char) :
    pruneLeftB lb r nl = true ↔ ∃ l, lb = some l ∧ r = 0 ∧ nl ≤ l := by
  cases lb <;> simp [pruneLeftB]

theorem pruneRightB_true_iff (lb : Option Char) (r : Nat) (nl : Char) :
    pruneRightB lb r nl = true ↔ ∃ l, lb = some l ∧ r = 0 ∧ l ≤ nl := by
  cases lb <;> simp [pruneRightB]

theorem nEmit_node {T : Type} (nl : Char) (nv : Option T) (lf md rt : Link T)
    (lb : Option Char) (kt : List Char) (tl r : Nat) :
    nEmit (Link.node nl nv lf md rt) lb kt tl r
      = (if pruneLeftB lb r nl = true then [] else nEmit lf lb kt tl r)
        ++ (match nv with
            | some x => if nDelta lb nl ≤ r ∧ tl ≤ r - nDelta lb nl then [x] else []
            | Option.none => [])
        ++ (if nDelta lb nl ≤ r then
              nEmit md kt.head? kt.tail (newLen tl) (r - nDelta lb nl)
            else [])
        ++ (if pruneRightB lb r nl = true then [] else nEmit rt lb kt tl r) := rfl

/-- The neighbor stack machine's pending emissions on a link realise the same
distance filter as `visit_neighbor_values_r`: the pruning tests
(`range == 0 && label >= node.label` and its mirror) drop exactly subtrees
containing no key within distance `0` of the remaining reference. -/
theorem nEmit_spec {T : Type} :
    ∀ (link : Link T) (lb : Option Char) (kt : List Char) (r : Nat),
      ordInv link = true → (lb = Option.none → kt = []) →
      nEmit link lb kt kt.length r
        = ((entries link).filter
            (fun e => decide (hammingDist (lb.toList ++ kt) e.1 ≤ r))).map
              Prod.snd := by
  intro link
  induction link with
  | none => intro lb kt r _ _; rfl
  | node nl nv lf md rt ihl ihm ihr =>
    intro lb kt r h hl
    obtain ⟨hlf, hmd, hrt, hhl, hhr⟩ := (ordInv_node_iff nl nv lf md rt).1 h
    clear h
    rw [nEmit_node, entries_node, List.filter_append, List.filter_append,
      List.filter_append]
    have hvalcond : (hammingDist (lb.toList ++ kt) [nl] ≤ r)
        ↔ (nDelta lb nl ≤ r ∧ kt.length ≤ r - nDelta lb nl) := by
      cases lb with
      | none =>
        have hkt : kt = [] := hl rfl
        subst hkt
        simp [hammingDist, nDelta]
      | some l =>
        by_cases hln : l = nl
        · subst hln
          simp [hammingDist, nDelta, hammingDist_nil_right]
        · simp [hammingDist, nDelta, hln, hammingDist_nil_right]
          omega
    have hA : (if pruneLeftB lb r nl = true then [] else nEmit lf lb kt kt.length r)
        = (List.filter
            (fun e => decide (hammingDist (lb.toList ++ kt) e.1 ≤ r))
            (entries lf)).map Prod.snd := by
      by_cases hpr : pruneLeftB lb r nl = true
      · obtain ⟨l, hlb, hr0, hle⟩ := (pruneLeftB_true_iff lb r nl).1 hpr
        subst hlb
        subst hr0
        rw [if_pos hpr]
        have hfil : List.filter
            (fun e => decide (hammingDist ((some l).toList ++ kt) e.1 ≤ 0))
            (entries lf) = [] := by
          apply List.filter_eq_nil.2
          intro e he
          obtain ⟨c, t2, hkk, hc⟩ :=
            (headLt_iff nl e.1).1 (hhl e.1 (List.mem_map_of_mem Prod.fst he))
          rw [hkk]
          have h9 : ((some l : Option Char).toList ++ kt) = l :: kt := rfl
          rw [h9]
          simp only [Nat.le_zero, decide_eq_true_eq]
          rw [hammingDist_eq_zero]
          intro h2
          have hcl : l = c := (List.cons.inj h2).1
          subst hcl
          exact absurd hle (not_le.2 hc)
        rw [hfil]
        rfl
      · rw [if_neg hpr]
        exact ihl lb kt r hlf hl
    have hD : (if pruneRightB lb r nl = true then [] else nEmit rt lb kt kt.length r)
        = (List.filter
            (fun e => decide (hammingDist (lb.toList ++ kt) e.1 ≤ r))
            (entries rt)).map Prod.snd := by
      by_cases hpr : pruneRightB lb r nl = true
      · obtain ⟨l, hlb, hr0, hle⟩ := (pruneRightB_true_iff lb r nl).1 hpr
        subst hlb
        subst hr0
        rw [if_pos hpr]
        have hfil : List.filter
            (fun e => decide (hammingDist ((some l).toList ++ kt) e.1 ≤ 0))
            (entries rt) = [] := by
          apply List.filter_eq_nil.2
          intro e he
          obtain ⟨c, t2, hkk, hc⟩ :=
            (headGt_iff nl e.1).1 (hhr e.1 (List.mem_map_of_mem Prod.fst he))
          rw [hkk]
          have h9 : ((some l : Option Char).toList ++ kt) = l :: kt := rfl
          rw [h9]
          simp only [Nat.le_zero, decide_eq_true_eq]
          rw [hammingDist_eq_zero]
          intro h2
          have hcl : l = c := (List.cons.inj h2).1
          subst hcl
          exact absurd hc (not_lt.2 hle)
        rw [hfil]
        rfl
      · rw [if_neg hpr]
        exact ihr lb kt r hrt hl
    have hB : (match nv with
          | some x => if nDelta lb nl ≤ r ∧ kt.length ≤ r - nDelta lb nl
              then [x] else []
          | Option.none => ([] : List T))
        = (List.filter
            (fun e => decide (hammingDist (lb.toList ++ kt) e.1 ≤ r))
            (match nv with
             | some x => [(([nl] : List Char), x)]
             | Option.none => [])).map Prod.snd := by
      cases nv with
      | none => rfl
      | some x =>
        show (if nDelta lb nl ≤ r ∧ kt.length ≤ r - nDelta lb nl then [x] else [])
          = (List.filter
              (fun e => decide (hammingDist (lb.toList ++ kt) e.1 ≤ r))
              [(([nl] : List Char), x)]).map Prod.snd
        by_cases hc : nDelta lb nl ≤ r ∧ kt.length ≤ r - nDelta lb nl
        · rw [if_pos hc]
          have hd : decide (hammingDist (lb.toList ++ kt) ([nl] : List Char)
              ≤ r) = true := by
            simp [hvalcond.2 hc]
          simp [List.filter, hd]
        · rw [if_neg hc]
          have hd : decide (hammingDist (lb.toList ++ kt) ([nl] : List Char)
              ≤ r) = false := by
            simp only [decide_eq_false_iff_not]
            intro h2
            exact absurd (hvalcond.1 h2) hc
          simp [List.filter, hd]
    have hC : (if nDelta lb nl ≤ r then
          nEmit md kt.head? kt.tail (newLen kt.length) (r - nDelta lb nl)
        else [])
        = (List.filter
            (fun e => decide (hammingDist (lb.toList ++ kt) e.1 ≤ r))
            ((entries md).map (fun e => (nl :: e.1, e.2)))).map Prod.snd := by
      by_cases hdm : nDelta lb nl ≤ r
      · rw [if_pos hdm]
        have hmidcond : ∀ k : List Char,
            (hammingDist (lb.toList ++ kt) (nl :: k) ≤ r)
            ↔ (hammingDist (kt.head?.toList ++ kt.tail) k ≤ r - nDelta lb nl) := by
          intro k
          rw [headD_toList_append]
          cases lb with
          | none =>
            have hkt : kt = [] := hl rfl
            subst hkt
            simp only [nDelta] at hdm ⊢
            simp [hammingDist, nDelta, hammingDist_nil_left]
            omega
          | some l =>
            by_cases hln : l = nl
            · subst hln
              simp [hammingDist, nDelta]
            · simp only [nDelta, if_neg hln] at hdm ⊢
              simp [hammingDist, hln]
              omega
        have hfil : List.filter
            (fun e => decide (hammingDist (lb.toList ++ kt) e.1 ≤ r))
            ((entries md).map (fun e => (nl :: e.1, e.2)))
            = ((entries md).filter
                (fun e =>
                  decide (hammingDist (kt.head?.toList ++ kt.tail) e.1
                    ≤ r - nDelta lb nl))).map (fun e => (nl :: e.1, e.2)) := by
          rw [List.filter_map]
          congr 1
          apply List.filter_congr
          intro e he
          simp [Function.comp, hmidcond e.1]
        rw [hfil, List.map_map]
        have hsnd : (Prod.snd ∘ fun e : List Char × T => (nl :: e.1, e.2))
            = Prod.snd := rfl
        rw [hsnd, newLen_length]
        exact ihm kt.head? kt.tail (r - nDelta lb nl) hmd (by cases kt <;> simp)
      · rw [if_neg hdm]
        have hd1 : nDelta lb nl = 1 ∧ r = 0 := by
          have := nDelta lb nl
          cases lb with
          | none => simp [nDelta] at hdm ⊢; omega
          | some l =>
            by_cases hln : l = nl
            · subst hln; simp [nDelta] at hdm
            · simp [nDelta, hln] at hdm ⊢; omega
        have hfil : List.filter
            (fun e => decide (hammingDist (lb.toList ++ kt) e.1 ≤ r))
            ((entries md).map (fun e => (nl :: e.1, e.2))) = [] := by
          apply List.filter_eq_nil.2
          intro e he
          obtain ⟨e0, he0, rfl⟩ := List.mem_map.1 he
          simp only [decide_eq_true_eq]
          intro h2
          cases lb with
          | none =>
            have hkt : kt = [] := hl rfl
            subst hkt
            rw [show ((Option.none : Option Char).toList ++ ([] : List Char)) = []
              from rfl, hammingDist_nil_left] at h2
            simp at h2
            omega
          | some l =>
            have hln : l ≠ nl := by
              intro hq
              subst hq
              simp [nDelta] at hd1
            rw [show ((some l : Option Char).toList ++ kt) = l :: kt from rfl] at h2
            rw [show (hammingDist (l :: kt) (nl :: e0.1))
                = (if l = nl then 0 else 1) + hammingDist kt e0.1 from rfl,
              if_neg hln] at h2
            omega
        rw [hfil]
        rfl
    rw [hA, hB, hC, hD]
    simp

theorem nextN_characterization {T : Type} (it : TstNeighborIterator T)
    (hlj : it.last_j = Option.none) :
    (toEmitN it.todo_i = [] →
      it.next = (Option.none, ⟨[], it.last_i, it.todo_j, Option.none⟩)) ∧
    (∀ x rest, toEmitN it.todo_i = x :: rest →
      ∃ ti' p, it.next = (some x, ⟨ti', some p, it.todo_j, Option.none⟩)
        ∧ toEmitN ti' = rest) := by
  obtain ⟨h1, h2⟩ := nextNLoop_spec (stackMeasureN it.todo_i + 1) it.todo_i it.todo_j
    it.last_i (Nat.lt_succ_self _)
  constructor
  · intro h0
    have he := h1 h0
    simp [TstNeighborIterator.next, hlj, he]
  · intro x rest h0
    obtain ⟨ti', p, he, ht, _⟩ := h2 x rest h0
    exact ⟨ti', p, by simp [TstNeighborIterator.next, hlj, he], ht⟩

/-- Repeatedly call `next` on the neighbor iterator until it returns `None`,
collecting the yielded values. -/
def drainNextN {T : Type} : Nat → TstNeighborIterator T → List T
  | 0, _ => []
  | n + 1, it =>
    match TstNeighborIterator.next it with
    | (Option.none, _) => []
    | (some x, it2) => x :: drainNextN n it2

theorem drainNextN_spec {T : Type} :
    ∀ (n : Nat) (ti tj : List (NFrame T)) (li : Option NodePath),
      (toEmitN ti).length ≤ n →
      drainNextN n ⟨ti, li, tj, Option.none⟩ = toEmitN ti := by
  intro n
  induction n with
  | zero =>
    intro ti tj li h
    have h0 : toEmitN ti = [] := List.length_eq_zero.1 (Nat.le_zero.1 h)
    simp [drainNextN, h0]
  | succ n ih =>
    intro ti tj li h
    rcases hE : toEmitN ti with _ | ⟨x, rest⟩
    · have hnext := (nextN_characterization ⟨ti, li, tj, Option.none⟩ rfl).1 hE
      simp only [drainNextN]
      rw [hnext]
    · have hnext := (nextN_characterization ⟨ti, li, tj, Option.none⟩ rfl).2 x rest hE
      obtain ⟨ti', p, he, ht⟩ := hnext
      have hlen : (toEmitN ti').length ≤ n := by
        rw [ht]
        rw [hE] at h
        simpa using h
      simp only [drainNextN]
      rw [he]
      simp [ih ti' tj (some p) hlen, ht]

theorem toEmitN_new {T : Type} (t : Tst T) (key : List Char) (range : Nat) :
    toEmitN (TstNeighborIterator.new t key range).todo_i
      = nEmit t.root key.head? key.tail
          (if utf8Len key = 0 then 0 else utf8Len key - 1) range := by
  cases hroot : t.root <;>
    simp [TstNeighborIterator.new, hroot, pushNFrame, toEmitN, nfTodo, nEmit]

theorem drainNextN_new {T : Type} (t : Tst T) (key : List Char) (range : Nat)
    (n : Nat)
    (hn : (toEmitN (TstNeighborIterator.new t key range).todo_i).length ≤ n) :
    drainNextN n (t.iter_neighbor key range)
      = nEmit t.root key.head? key.tail
          (if utf8Len key = 0 then 0 else utf8Len key - 1) range := by
  have hiter : t.iter_neighbor key range
      = ⟨(TstNeighborIterator.new t key range).todo_i, Option.none,
          (TstNeighborIterator.new t key range).todo_j, Option.none⟩ := rfl
  rw [hiter, drainNextN_spec n _ _ Option.none hn, toEmitN_new]

theorem nEmit_root_eq_filter {T : Type} (t : Tst T) (h : ordInv t.root = true)
    (key : List Char) (dist : Nat) (hascii : utf8Len key = key.length) :
    nEmit t.root key.head? key.tail
        (if utf8Len key = 0 then 0 else utf8Len key - 1) dist
      = ((entries t.root).filter
          (fun e => decide (hammingDist key e.1 ≤ dist))).map Prod.snd := by
  rw [byte_tail_len key hascii]
  cases key with
  | nil => exact nEmit_spec t.root Option.none [] dist h (fun _ => rfl)
  | cons c kt => exact nEmit_spec t.root (some c) kt dist h (by simp)

/-- C4 counterexample: the reference key `"éx"` uses a two-byte character, so
the `tail_len` seed `key.len()-1` (UTF-8 bytes, lib.rs:941/1375) is `2`
although only one reference character remains.  The key `"a"` is stored and
lies within Hamming-style distance `2` of `"éx"` (one mismatch plus one
length position), yet both `visit_neighbor_values` and a drained
`iter_neighbor` yield nothing: the budget test `tail_len <= new_range`
compares `2 ≤ 1`.  This falsifies the claimed iff for non-ASCII references. -/
theorem C4_counterexample :
    hammingDist ['é', 'x'] ['a'] ≤ 2
      ∧ (applyOps [Op.ins ['a'] 0] : Tst Nat).get ['a'] = some 0
      ∧ (applyOps [Op.ins ['a'] 0] : Tst Nat).visit_neighbor_values ['é', 'x'] 2
          = []
      ∧ drainNextN 8
          ((applyOps [Op.ins ['a'] 0] : Tst Nat).iter_neighbor ['é', 'x'] 2)
          = [] := by
  refine ⟨by decide, rfl, rfl, rfl⟩

/-- C4 (amended): on any API-reachable tree, for a reference key of
single-byte (ASCII) characters — so that the byte count `key.len()` seeding
`tail_len` equals the character count — `visit_neighbor_values(k, d)` passes
to its callback a stored value iff the Hamming-style distance between its key
and `k` (character mismatches, each position of length difference counting
one) is at most `d`, the yielded list being exactly the in-order
distance-filtered entry list, and draining `iter_neighbor(k, d)` forward
yields the same list; in particular on the 16-key example tree with reference
`"abc"` and budget `1` exactly the values for keys
`{"ab","aba","abb","abc","cbc"}` come out, in order.  (For references with
multibyte characters the byte-based budget test can withhold values within
distance `d`.) -/
theorem C4_neighbor_search {T : Type} (ops : List (Op T)) (key : List Char)
    (dist : Nat) (n : Nat)
    (hascii : utf8Len key = key.length)
    (hn : (toEmitN ((applyOps ops).iter_neighbor key dist).todo_i).length ≤ n) :
    (applyOps ops).visit_neighbor_values key dist
        = ((entries (applyOps ops).root).filter
            (fun e => decide (hammingDist key e.1 ≤ dist))).map Prod.snd
      ∧ drainNextN n ((applyOps ops).iter_neighbor key dist)
          = (applyOps ops).visit_neighbor_values key dist
      ∧ tst16.visit_neighbor_values ['a', 'b', 'c'] 1
          = [['a', 'b'], ['a', 'b', 'a'], ['a', 'b', 'b'], ['a', 'b', 'c'],
             ['c', 'b', 'c']]
      ∧ drainNextN 64 (tst16.iter_neighbor ['a', 'b', 'c'] 1)
          = tst16.visit_neighbor_values ['a', 'b', 'c'] 1 := by
  have hord := ordInv_applyOps ops
  have h1 := visit_neighbor_values_spec (applyOps ops) hord key dist hascii
  refine ⟨h1, ?_, by decide, by decide⟩
  rw [drainNextN_new (applyOps ops) key dist n hn,
    nEmit_root_eq_filter (applyOps ops) hord key dist hascii, h1]

theorem C4_neighbor_search_witness :
    ((applyOps [Op.ins ['a'] 5] : Tst Nat).visit_neighbor_values ['b'] 1
        = ((entries (applyOps [Op.ins ['a'] 5] : Tst Nat).root).filter
            (fun e => decide (hammingDist ['b'] e.1 ≤ 1))).map Prod.snd
      ∧ drainNextN 8 ((applyOps [Op.ins ['a'] 5] : Tst Nat).iter_neighbor ['b'] 1)
          = (applyOps [Op.ins ['a'] 5] : Tst Nat).visit_neighbor_values ['b'] 1
      ∧ tst16.visit_neighbor_values ['a', 'b', 'c'] 1
          = [['a', 'b'], ['a', 'b', 'a'], ['a', 'b', 'b'], ['a', 'b', 'c'],
             ['c', 'b', 'c']]
      ∧ drainNextN 64 (tst16.iter_neighbor ['a', 'b', 'c'] 1)
          = tst16.visit_neighbor_values ['a', 'b', 'c'] 1) :=
  C4_neighbor_search [Op.ins ['a'] 5] ['b'] 1 8 (by decide) (by decide)

/-- `fn visit_crossword_values_r(link, label, key_tail, joker, callback)`
(lib.rs:665-701): explore left when the pattern character is the joker or
below the node label, right when joker or above; when joker or equal, either
emit the node's value (pattern exhausted) or descend `middle` on the next
pattern character.  (The `&mut Chars` is only advanced through the clone made
in the middle block, so immutable lists model it exactly.) -/
def visit_crossword_values_r {T : Type} : Link T → Char → List Char → Char → List T
  | Link.none, _, _, _ => []
  | Link.node nl nv lf md rt, label, kt, joker =>
    (if label = joker ∨ label < nl then visit_crossword_values_r lf label kt joker
     else [])
      ++ (if label = joker ∨ label = nl then
            match kt with
            | [] => nv.toList
            | l2 :: t2 => visit_crossword_values_r md l2 t2 joker
          else [])
      ++ (if label = joker ∨ nl < label then visit_crossword_values_r rt label kt joker
          else [])

/-- `Tst::visit_crossword_values` (lib.rs:958-969): empty pattern visits
nothing. -/
def Tst.visit_crossword_values {T : Type} (t : Tst T) (key : List Char)
    (joker : Char) : List T :=
  match key with
  | [] => []
  | label :: kt => visit_crossword_values_r t.root label kt joker

/-- Spec-side (C5's words): the key has exactly the pattern's length and at
every position the pattern character equals the key's or is the joker. -/
def cwMatch (joker : Char) : List Char → List Char → Bool
  | [], [] => true
  | [], _ :: _ => false
  | _ :: _, [] => false
  | p :: ps, k :: ks => (p == joker || p == k) && cwMatch joker ps ks

theorem cwMatch_nil_right (joker : Char) (p : List Char) (h : p ≠ []) :
    cwMatch joker p [] = false := by
  cases p with
  | nil => exact absurd rfl h
  | cons a ps => rfl

theorem cwMatch_nil_left (joker : Char) (k : List Char) (h : k ≠ []) :
    cwMatch joker [] k = false := by
  cases k with
  | nil => exact absurd rfl h
  | cons a ks => rfl

theorem cwMatch_cons (joker a : Char) (ps : List Char) (b : Char) (ks : List Char) :
    cwMatch joker (a :: ps) (b :: ks)
      = ((a == joker || a == b) && cwMatch joker ps ks) := rfl

theorem visit_crossword_values_r_node {T : Type} (nl : Char) (nv : Option T)
    (lf md rt : Link T) (label : Char) (kt : List Char) (joker : Char) :
    visit_crossword_values_r (Link.node nl nv lf md rt) label kt joker
      = (if label = joker ∨ label < nl
         then visit_crossword_values_r lf label kt joker else [])
        ++ (if label = joker ∨ label = nl then
              match kt with
              | [] => nv.toList
              | l2 :: t2 => visit_crossword_values_r md l2 t2 joker
            else [])
        ++ (if label = joker ∨ nl < label
            then visit_crossword_values_r rt label kt joker else []) := by
  cases kt <;> simp [visit_crossword_values_r]

/-- `visit_crossword_values_r` realises C5's filter: it emits exactly the
values of stored keys matching the remaining pattern `label :: kt`
position-by-position (joker wildcards), in in-order. -/
theorem visit_crossword_values_r_spec {T : Type} :
    ∀ (link : Link T) (label : Char) (kt : List Char) (joker : Char),
      ordInv link = true →
      visit_crossword_values_r link label kt joker
        = ((entries link).filter
            (fun e => cwMatch joker (label :: kt) e.1)).map Prod.snd := by
  intro link
  induction link with
  | none => intro label kt joker _; rfl
  | node nl nv lf md rt ihl ihm ihr =>
    intro label kt joker h
    obtain ⟨hlf, hmd, hrt, hhl, hhr⟩ := (ordInv_node_iff nl nv lf md rt).1 h
    clear h
    rw [visit_crossword_values_r_node, entries_node, List.filter_append,
      List.filter_append, List.filter_append]
    have hA : (if label = joker ∨ label < nl
          then visit_crossword_values_r lf label kt joker else [])
        = (List.filter (fun e => cwMatch joker (label :: kt) e.1)
            (entries lf)).map Prod.snd := by
      by_cases hg : label = joker ∨ label < nl
      · rw [if_pos hg]
        exact ihl label kt joker hlf
      · rw [if_neg hg]
        push_neg at hg
        obtain ⟨hj, hge⟩ := hg
        have hfil : List.filter (fun e => cwMatch joker (label :: kt) e.1)
            (entries lf) = [] := by
          apply List.filter_eq_nil.2
          intro e he
          obtain ⟨c, t2, hkk, hc⟩ :=
            (headLt_iff nl e.1).1 (hhl e.1 (List.mem_map_of_mem Prod.fst he))
          rw [hkk, cwMatch_cons]
          have h1 : (label == joker) = false := by
            simp [hj]
          have h2 : (label == c) = false := by
            simp
            intro hq
            rw [hq] at hge
            exact absurd hc (not_lt.2 hge)
          simp [h1, h2]
        rw [hfil]
        rfl
    have hD : (if label = joker ∨ nl < label
          then visit_crossword_values_r rt label kt joker else [])
        = (List.filter (fun e => cwMatch joker (label :: kt) e.1)
            (entries rt)).map Prod.snd := by
      by_cases hg : label = joker ∨ nl < label
      · rw [if_pos hg]
        exact ihr label kt joker hrt
      · rw [if_neg hg]
        push_neg at hg
        obtain ⟨hj, hge⟩ := hg
        have hfil : List.filter (fun e => cwMatch joker (label :: kt) e.1)
            (entries rt) = [] := by
          apply List.filter_eq_nil.2
          intro e he
          obtain ⟨c, t2, hkk, hc⟩ :=
            (headGt_iff nl e.1).1 (hhr e.1 (List.mem_map_of_mem Prod.fst he))
          rw [hkk, cwMatch_cons]
          have h1 : (label == joker) = false := by
            simp [hj]
          have h2 : (label == c) = false := by
            simp
            intro hq
            rw [hq] at hge
            exact absurd hc (not_lt.2 hge)
          simp [h1, h2]
        rw [hfil]
        rfl
    by_cases hg : label = joker ∨ label = nl
    · rw [if_pos hg]
      have hok : (label == joker || label == nl) = true := by
        rcases hg with hg | hg <;> simp [hg]
      cases kt with
      | nil =>
        have hB : List.filter (fun e => cwMatch joker [label] e.1)
            (match nv with | some x => [([nl], x)] | Option.none => [])
            = (match nv with | some x => [([nl], x)] | Option.none => []) := by
          cases nv with
          | none => rfl
          | some x =>
            have hm : cwMatch joker [label] [nl] = true := by
              rw [cwMatch_cons, hok]
              rfl
            simp [List.filter, hm]
        have hC : List.filter (fun e => cwMatch joker [label] e.1)
            ((entries md).map (fun e => (nl :: e.1, e.2))) = [] := by
          apply List.filter_eq_nil.2
          intro e he
          obtain ⟨e0, he0, rfl⟩ := List.mem_map.1 he
          have hne := keyList_ne_nil md e0.1 (List.mem_map_of_mem Prod.fst he0)
          show ¬ cwMatch joker [label] (nl :: e0.1) = true
          rw [cwMatch_cons, cwMatch_nil_left joker e0.1 hne]
          simp
        rw [hA, hB, hC, hD]
        cases nv <;> simp
      | cons l2 t2 =>
        have hB : List.filter (fun e => cwMatch joker (label :: l2 :: t2) e.1)
            (match nv with | some x => [([nl], x)] | Option.none => []) = [] := by
          cases nv with
          | none => rfl
          | some x =>
            have hm : cwMatch joker (label :: l2 :: t2) [nl] = false := by
              rw [cwMatch_cons, cwMatch_nil_right joker (l2 :: t2) (by simp)]
              simp
            simp [List.filter, hm]
        have hC : List.filter (fun e => cwMatch joker (label :: l2 :: t2) e.1)
            ((entries md).map (fun e => (nl :: e.1, e.2)))
            = ((entries md).filter
                (fun e => cwMatch joker (l2 :: t2) e.1)).map
                  (fun e => (nl :: e.1, e.2)) := by
          rw [List.filter_map]
          congr 1
          apply List.filter_congr
          intro e he
          simp only [Function.comp]
          rw [cwMatch_cons]
          simp [hok]
        have hmid : (match l2 :: t2 with
              | [] => nv.toList
              | l3 :: t3 => visit_crossword_values_r md l3 t3 joker)
            = ((entries md).filter
                (fun e => cwMatch joker (l2 :: t2) e.1)).map Prod.snd :=
          ihm l2 t2 joker hmd
        have hsnd : (Prod.snd ∘ fun e : List Char × T => (nl :: e.1, e.2))
            = Prod.snd := rfl
        rw [hA, hB, hC, hD, hmid]
        simp only [List.map_append, List.nil_append, List.append_nil, List.map_map,
          hsnd]
    · rw [if_neg hg]
      push_neg at hg
      obtain ⟨hj, hne⟩ := hg
      have hbad : (label == joker || label == nl) = false := by
        simp [hj, hne]
      have hB : List.filter (fun e => cwMatch joker (label :: kt) e.1)
          (match nv with | some x => [([nl], x)] | Option.none => []) = [] := by
        cases nv with
        | none => rfl
        | some x =>
          have hm : cwMatch joker (label :: kt) [nl] = false := by
            rw [cwMatch_cons]
            simp [hbad]
          simp [List.filter, hm]
      have hC : List.filter (fun e => cwMatch joker (label :: kt) e.1)
          ((entries md).map (fun e => (nl :: e.1, e.2))) = [] := by
        apply List.filter_eq_nil.2
        intro e he
        obtain ⟨e0, he0, rfl⟩ := List.mem_map.1 he
        show ¬ cwMatch joker (label :: kt) (nl :: e0.1) = true
        rw [cwMatch_cons]
        simp [hbad]
      rw [hA, hB, hC, hD]
      simp

/-- The values the crossword stack machine still emits from a fresh (`GoLeft`)
frame on this link: children behind the joker/comparison guards, the node's
value when the pattern is exhausted (`tail_len == 0`) and the position
matches. -/
def cEmit {T : Type} : Link T → Char → List Char → Nat → Char → List T
  | Link.none, _, _, _, _ => []
  | Link.node nl nv lf md rt, lb, kt, tl, joker =>
    (if lb = joker ∨ lb < nl then cEmit lf lb kt tl joker else [])
      ++ (match nv with
          | some x => if tl = 0 ∧ (lb = joker ∨ lb = nl) then [x] else []
          | Option.none => [])
      ++ (if lb = joker ∨ lb = nl then
            match kt with
            | [] => []
            | l2 :: t2 => cEmit md l2 t2 (tl - 1) joker
          else [])
      ++ (if lb = joker ∨ nl < lb then cEmit rt lb kt tl joker else [])

theorem cEmit_node {T : Type} (nl : Char) (nv : Option T) (lf md rt : Link T)
    (lb : Char) (kt : List Char) (tl : Nat) (joker : Char) :
    cEmit (Link.node nl nv lf md rt) lb kt tl joker
      = (if lb = joker ∨ lb < nl then cEmit lf lb kt tl joker else [])
        ++ (match nv with
            | some x => if tl = 0 ∧ (lb = joker ∨ lb = nl) then [x] else []
            | Option.none => [])
        ++ (if lb = joker ∨ lb = nl then
              match kt with
              | [] => []
              | l2 :: t2 => cEmit md l2 t2 (tl - 1) joker
            else [])
        ++ (if lb = joker ∨ nl < lb then cEmit rt lb kt tl joker else []) := by
  cases kt <;> rfl

/-- Run with `tail_len = kt.length` (the invariant the iterator maintains),
the crossword machine owes exactly what `visit_crossword_values_r` emits. -/
theorem cEmit_eq_visit {T : Type} :
    ∀ (link : Link T) (lb : Char) (kt : List Char) (joker : Char),
      cEmit link lb kt kt.length joker = visit_crossword_values_r link lb kt joker := by
  intro link
  induction link with
  | none => intro lb kt joker; rfl
  | node nl nv lf md rt ihl ihm ihr =>
    intro lb kt joker
    rw [cEmit_node, visit_crossword_values_r_node]
    have hA : (if lb = joker ∨ lb < nl then cEmit lf lb kt kt.length joker else [])
        = (if lb = joker ∨ lb < nl
           then visit_crossword_values_r lf lb kt joker else []) := by
      by_cases hg : lb = joker ∨ lb < nl
      · rw [if_pos hg, if_pos hg, ihl lb kt joker]
      · rw [if_neg hg, if_neg hg]
    have hD : (if lb = joker ∨ nl < lb then cEmit rt lb kt kt.length joker else [])
        = (if lb = joker ∨ nl < lb
           then visit_crossword_values_r rt lb kt joker else []) := by
      by_cases hg : lb = joker ∨ nl < lb
      · rw [if_pos hg, if_pos hg, ihr lb kt joker]
      · rw [if_neg hg, if_neg hg]
    rw [hA, hD]
    have hBC : (match nv with
          | some x => if kt.length = 0 ∧ (lb = joker ∨ lb = nl) then [x] else []
          | Option.none => ([] : List T))
        ++ (if lb = joker ∨ lb = nl then
              match kt with
              | [] => []
              | l2 :: t2 => cEmit md l2 t2 (kt.length - 1) joker
            else [])
        = (if lb = joker ∨ lb = nl then
            match kt with
            | [] => nv.toList
            | l2 :: t2 => visit_crossword_values_r md l2 t2 joker
          else []) := by
      by_cases hg : lb = joker ∨ lb = nl
      · rw [if_pos hg, if_pos hg]
        cases kt with
        | nil =>
          cases nv with
          | none => rfl
          | some x =>
            show (if (0 : Nat) = 0 ∧ (lb = joker ∨ lb = nl) then [x] else []) ++ []
              = [x]
            rw [if_pos ⟨rfl, hg⟩]
            rfl
        | cons l2 t2 =>
          have hvp : (match nv with
              | some x => if (l2 :: t2).length = 0 ∧ (lb = joker ∨ lb = nl)
                  then [x] else []
              | Option.none => ([] : List T)) = [] := by
            cases nv with
            | none => rfl
            | some x =>
              show (if (l2 :: t2).length = 0 ∧ (lb = joker ∨ lb = nl)
                then [x] else []) = ([] : List T)
              have hc : ¬ ((l2 :: t2).length = 0 ∧ (lb = joker ∨ lb = nl)) := by
                intro hc2
                simp at hc2
              rw [if_neg hc]
          rw [hvp]
          show ([] : List T) ++ cEmit md l2 t2 ((l2 :: t2).length - 1) joker
            = visit_crossword_values_r md l2 t2 joker
          rw [List.nil_append]
          have hlen : (l2 :: t2).length - 1 = t2.length := by simp
          rw [hlen]
          exact ihm l2 t2 joker
      · rw [if_neg hg, if_neg hg]
        have hvp : (match nv with
            | some x => if kt.length = 0 ∧ (lb = joker ∨ lb = nl) then [x] else []
            | Option.none => ([] : List T)) = [] := by
          cases nv with
          | none => rfl
          | some x =>
            show (if kt.length = 0 ∧ (lb = joker ∨ lb = nl) then [x] else [])
              = ([] : List T)
            rw [if_neg (fun hc => hg hc.2)]
        rw [hvp]
        rfl
    rw [← hBC]
    simp

/-- One stack entry of the crossword iterator
(`(&'a Node<T>, TstIteratorAction, char, Chars<'b>, usize)`, lib.rs:1636),
the borrowed node's position alongside. -/
structure CFrame (T : Type) where
  node : Link T
  path : NodePath
  action : TstIteratorAction
  label : Char
  key_tail : List Char
  tail_len : Nat

/-- `struct TstCrosswordIterator` (lib.rs:1633-1643). -/
structure TstCrosswordIterator (T : Type) where
  todo_i : List (CFrame T)
  last_i : Option NodePath
  todo_j : List (CFrame T)
  last_j : Option NodePath
  joker : Char

def pushCFrame {T : Type} (l : Link T) (p : NodePath) (a : TstIteratorAction)
    (lb : Char) (kt : List Char) (tl : Nat) : List (CFrame T) :=
  match l with
  | Link.none => []
  | Link.node _ _ _ _ _ => [⟨l, p, a, lb, kt, tl⟩]

/-- `TstCrosswordIterator::new` (lib.rs:1648-1672): nothing is pushed for an
empty pattern or an empty tree; `tail_len` starts at `key.len()-1`, where
`key.len()` is the pattern's UTF-8 BYTE length (lib.rs:1664), not its
character count. -/
def TstCrosswordIterator.new {T : Type} (tst : Tst T) (key : List Char)
    (joker : Char) : TstCrosswordIterator T :=
  match key with
  | [] => ⟨[], Option.none, [], Option.none, joker⟩
  | label :: kt =>
    ⟨pushCFrame tst.root [] TstIteratorAction.goLeft label kt
        (utf8Len (label :: kt) - 1),
      Option.none,
      pushCFrame tst.root [] TstIteratorAction.goRight label kt
        (utf8Len (label :: kt) - 1),
      Option.none, joker⟩

/-- `Tst::iter_crossword` (lib.rs:1016-1019). -/
def Tst.iter_crossword {T : Type} (t : Tst T) (key : List Char) (joker : Char) :
    TstCrosswordIterator T :=
  TstCrosswordIterator.new t key joker

/-- The body of `TstCrosswordIterator::next` (lib.rs:1680-1762). -/
def nextCLoop {T : Type} : Nat → List (CFrame T) → List (CFrame T) →
    Option NodePath → Option NodePath → Char →
    Option (Option T × TstCrosswordIterator T)
  | 0, _, _, _, _, _ => Option.none
  | _ + 1, [], tj, li, lj, joker => some (Option.none, ⟨[], li, tj, lj, joker⟩)
  | fuel + 1, ⟨nd, p0, a, lb, kt, tl⟩ :: rest, tj, li, lj, joker =>
    match nd with
    | Link.none => nextCLoop fuel rest tj li lj joker
    | Link.node nl nv lf md rt =>
      match a with
      | TstIteratorAction.goLeft =>
        nextCLoop fuel
          ((if lb = joker ∨ lb < nl then
              pushCFrame lf (p0 ++ [Dir.left]) TstIteratorAction.goLeft lb kt tl
            else [])
            ++ ⟨nd, p0, TstIteratorAction.visit, lb, kt, tl⟩ :: rest) tj li lj joker
      | TstIteratorAction.visit =>
        if nv.isSome = true ∧ lj = some p0 then
          some (Option.none, ⟨[], li, [], lj, joker⟩)
        else
          match nv with
          | some x =>
            if tl = 0 ∧ (lb = joker ∨ lb = nl) then
              some (some x,
                ⟨⟨nd, p0, TstIteratorAction.goMiddle, lb, kt, tl⟩ :: rest,
                  some p0, tj, lj, joker⟩)
            else
              nextCLoop fuel
                (⟨nd, p0, TstIteratorAction.goMiddle, lb, kt, tl⟩ :: rest) tj li lj joker
          | Option.none =>
            nextCLoop fuel
              (⟨nd, p0, TstIteratorAction.goMiddle, lb, kt, tl⟩ :: rest) tj li lj joker
      | TstIteratorAction.goMiddle =>
        nextCLoop fuel
          ((if lb = joker ∨ lb = nl then
              match kt with
              | [] => []
              | l2 :: t2 =>
                pushCFrame md (p0 ++ [Dir.middle]) TstIteratorAction.goLeft l2 t2
                  (tl - 1)
            else [])
            ++ ⟨nd, p0, TstIteratorAction.goRight, lb, kt, tl⟩ :: rest) tj li lj joker
      | TstIteratorAction.goRight =>
        nextCLoop fuel
          ((if lb = joker ∨ nl < lb then
              pushCFrame rt (p0 ++ [Dir.right]) TstIteratorAction.goLeft lb kt tl
            else [])
            ++ rest) tj li lj joker

/-- Loop-termination weight of a crossword frame. -/
def frameMeasureC {T : Type} : CFrame T → Nat
  | ⟨Link.none, _, _, _, _, _⟩ => 1
  | ⟨Link.node _ _ lf md rt, _, TstIteratorAction.goLeft, _, _, _⟩ =>
    4 * (1 + cnt lf + cnt md + cnt rt)
  | ⟨Link.node _ _ _ md rt, _, TstIteratorAction.visit, _, _, _⟩ =>
    3 + 4 * (cnt md + cnt rt)
  | ⟨Link.node _ _ _ md rt, _, TstIteratorAction.goMiddle, _, _, _⟩ =>
    2 + 4 * (cnt md + cnt rt)
  | ⟨Link.node _ _ _ _ rt, _, TstIteratorAction.goRight, _, _, _⟩ => 1 + 4 * cnt rt

def stackMeasureC {T : Type} (s : List (CFrame T)) : Nat := (s.map frameMeasureC).sum

def TstCrosswordIterator.next {T : Type} (it : TstCrosswordIterator T) :
    Option T × TstCrosswordIterator T :=
  match nextCLoop (stackMeasureC it.todo_i + 1) it.todo_i it.todo_j it.last_i
      it.last_j it.joker with
  | some r => r
  | Option.none => (Option.none, it)

/-- The values a forward crossword frame still owes. -/
def cfTodo {T : Type} (joker : Char) : CFrame T → List T
  | ⟨Link.none, _, _, _, _, _⟩ => []
  | ⟨Link.node nl nv lf md rt, _, TstIteratorAction.goLeft, lb, kt, tl⟩ =>
    cEmit (Link.node nl nv lf md rt) lb kt tl joker
  | ⟨Link.node nl nv _ md rt, _, TstIteratorAction.visit, lb, kt, tl⟩ =>
    (match nv with
     | some x => if tl = 0 ∧ (lb = joker ∨ lb = nl) then [x] else []
     | Option.none => [])
      ++ (if lb = joker ∨ lb = nl then
            match kt with
            | [] => []
            | l2 :: t2 => cEmit md l2 t2 (tl - 1) joker
          else [])
      ++ (if lb = joker ∨ nl < lb then cEmit rt lb kt tl joker else [])
  | ⟨Link.node nl _ _ md rt, _, TstIteratorAction.goMiddle, lb, kt, tl⟩ =>
    (if lb = joker ∨ lb = nl then
       match kt with
       | [] => []
       | l2 :: t2 => cEmit md l2 t2 (tl - 1) joker
     else [])
      ++ (if lb = joker ∨ nl < lb then cEmit rt lb kt tl joker else [])
  | ⟨Link.node nl _ _ _ rt, _, TstIteratorAction.goRight, lb, kt, tl⟩ =>
    if lb = joker ∨ nl < lb then cEmit rt lb kt tl joker else []

def toEmitC {T : Type} (joker : Char) (s : List (CFrame T)) : List T :=
  (s.map (cfTodo joker)).join

theorem stackMeasureC_cons {T : Type} (f : CFrame T) (s : List (CFrame T)) :
    stackMeasureC (f :: s) = frameMeasureC f + stackMeasureC s := by
  simp [stackMeasureC]

theorem stackMeasureC_pushCFrame_goLeft {T : Type} (l : Link T) (p : NodePath)
    (lb : Char) (kt : List Char) (tl : Nat) (s : List (CFrame T)) :
    stackMeasureC (pushCFrame l p TstIteratorAction.goLeft lb kt tl ++ s)
      = 4 * cnt l + stackMeasureC s := by
  cases l <;> simp [pushCFrame, stackMeasureC, frameMeasureC, cnt]

theorem toEmitC_cons {T : Type} (joker : Char) (f : CFrame T) (s : List (CFrame T)) :
    toEmitC joker (f :: s) = cfTodo joker f ++ toEmitC joker s := by
  simp [toEmitC]

theorem toEmitC_pushCFrame_goLeft {T : Type} (joker : Char) (l : Link T)
    (p : NodePath) (lb : Char) (kt : List Char) (tl : Nat) (s : List (CFrame T)) :
    toEmitC joker (pushCFrame l p TstIteratorAction.goLeft lb kt tl ++ s)
      = cEmit l lb kt tl joker ++ toEmitC joker s := by
  cases l <;> simp [pushCFrame, toEmitC, cfTodo, cEmit]

/-- What one forward crossword `next` call does (`last_j` unset — forward
drain). -/
def NextCSpec {T : Type} (fuel : Nat) (ti tj : List (CFrame T))
    (li : Option NodePath) (joker : Char) : Prop :=
  (toEmitC joker ti = [] →
    nextCLoop fuel ti tj li Option.none joker
      = some (Option.none, ⟨[], li, tj, Option.none, joker⟩)) ∧
  (∀ x rest, toEmitC joker ti = x :: rest →
    ∃ ti' p, nextCLoop fuel ti tj li Option.none joker
        = some (some x, ⟨ti', some p, tj, Option.none, joker⟩)
      ∧ toEmitC joker ti' = rest ∧ stackMeasureC ti' < stackMeasureC ti)

theorem nextCSpec_step {T : Type} {fuel : Nat} {ti ti2 tj : List (CFrame T)}
    {li : Option NodePath} {joker : Char}
    (hstep : nextCLoop (fuel + 1) ti tj li Option.none joker
      = nextCLoop fuel ti2 tj li Option.none joker)
    (hE : toEmitC joker ti = toEmitC joker ti2)
    (hm : stackMeasureC ti2 < stackMeasureC ti)
    (hspec : NextCSpec fuel ti2 tj li joker) :
    NextCSpec (fuel + 1) ti tj li joker := by
  obtain ⟨h1, h2⟩ := hspec
  constructor
  · intro h0
    rw [hstep]
    exact h1 (by rw [← hE]; exact h0)
  · intro x rest h0
    obtain ⟨ti', p, he, hte, hm'⟩ := h2 x rest (by rw [← hE]; exact h0)
    exact ⟨ti', p, by rw [hstep]; exact he, hte, lt_trans hm' hm⟩

theorem nextCLoop_spec {T : Type} :
    ∀ (fuel : Nat) (ti tj : List (CFrame T)) (li : Option NodePath) (joker : Char),
      stackMeasureC ti < fuel → NextCSpec fuel ti tj li joker := by
  intro fuel
  induction fuel with
  | zero =>
    intro ti tj li joker hf
    exact absurd hf (Nat.not_lt_zero _)
  | succ fuel ih =>
    intro ti tj li joker hf
    cases ti with
    | nil =>
      constructor
      · intro _
        rfl
      · intro x rest h0
        simp [toEmitC] at h0
    | cons f rest =>
      obtain ⟨nd, p0, a, lb, kt, tl⟩ := f
      rw [stackMeasureC_cons] at hf
      cases nd with
      | none =>
        simp only [frameMeasureC] at hf
        refine nextCSpec_step rfl ?_ ?_ (ih rest tj li joker (by omega))
        · simp [toEmitC_cons, cfTodo]
        · rw [stackMeasureC_cons]
          simp [frameMeasureC]
      | node nl nv lf md rt =>
        cases a with
        | goLeft =>
          simp only [frameMeasureC] at hf
          by_cases hpr : lb = joker ∨ lb < nl
          · have hstep : nextCLoop (fuel + 1)
                (⟨Link.node nl nv lf md rt, p0, TstIteratorAction.goLeft, lb, kt, tl⟩
                  :: rest) tj li Option.none joker
                = nextCLoop fuel
                  (pushCFrame lf (p0 ++ [Dir.left]) TstIteratorAction.goLeft lb kt tl
                    ++ ⟨Link.node nl nv lf md rt, p0, TstIteratorAction.visit, lb, kt,
                        tl⟩ :: rest) tj li Option.none joker := by
              simp only [nextCLoop]
              rw [if_pos hpr]
            refine nextCSpec_step hstep ?_ ?_ (ih _ tj li joker ?_)
            · rw [toEmitC_cons, toEmitC_pushCFrame_goLeft, toEmitC_cons]
              simp only [cfTodo, cEmit_node]
              rw [if_pos hpr]
              simp
            · rw [stackMeasureC_pushCFrame_goLeft, stackMeasureC_cons,
                stackMeasureC_cons]
              simp only [frameMeasureC]
              omega
            · rw [stackMeasureC_pushCFrame_goLeft, stackMeasureC_cons]
              simp only [frameMeasureC]
              omega
          · have hstep : nextCLoop (fuel + 1)
                (⟨Link.node nl nv lf md rt, p0, TstIteratorAction.goLeft, lb, kt, tl⟩
                  :: rest) tj li Option.none joker
                = nextCLoop fuel
                  (⟨Link.node nl nv lf md rt, p0, TstIteratorAction.visit, lb, kt, tl⟩
                    :: rest) tj li Option.none joker := by
              simp only [nextCLoop]
              rw [if_neg hpr]
              rfl
            refine nextCSpec_step hstep ?_ ?_ (ih _ tj li joker ?_)
            · rw [toEmitC_cons, toEmitC_cons]
              simp only [cfTodo, cEmit_node]
              rw [if_neg hpr]
              simp
            · rw [stackMeasureC_cons, stackMeasureC_cons]
              simp only [frameMeasureC]
              omega
            · rw [stackMeasureC_cons]
              simp only [frameMeasureC]
              omega
        | goMiddle =>
          simp only [frameMeasureC] at hf
          by_cases hdm : lb = joker ∨ lb = nl
          · cases kt with
            | nil =>
              have hstep : nextCLoop (fuel + 1)
                  (⟨Link.node nl nv lf md rt, p0, TstIteratorAction.goMiddle, lb, [],
                      tl⟩ :: rest) tj li Option.none joker
                  = nextCLoop fuel
                    (⟨Link.node nl nv lf md rt, p0, TstIteratorAction.goRight, lb, [],
                        tl⟩ :: rest) tj li Option.none joker := by
                simp only [nextCLoop]
                rw [if_pos hdm]
                rfl
              refine nextCSpec_step hstep ?_ ?_ (ih _ tj li joker ?_)
              · rw [toEmitC_cons, toEmitC_cons]
                simp only [cfTodo]
                rw [if_pos hdm]
                simp
              · rw [stackMeasureC_cons, stackMeasureC_cons]
                simp only [frameMeasureC]
                omega
              · rw [stackMeasureC_cons]
                simp only [frameMeasureC]
                omega
            | cons l2 t2 =>
              have hstep : nextCLoop (fuel + 1)
                  (⟨Link.node nl nv lf md rt, p0, TstIteratorAction.goMiddle, lb,
                      l2 :: t2, tl⟩ :: rest) tj li Option.none joker
                  = nextCLoop fuel
                    (pushCFrame md (p0 ++ [Dir.middle]) TstIteratorAction.goLeft l2 t2
                        (tl - 1)
                      ++ ⟨Link.node nl nv lf md rt, p0, TstIteratorAction.goRight, lb,
                          l2 :: t2, tl⟩ :: rest) tj li Option.none joker := by
                simp only [nextCLoop]
                rw [if_pos hdm]
              refine nextCSpec_step hstep ?_ ?_ (ih _ tj li joker ?_)
              · rw [toEmitC_cons, toEmitC_pushCFrame_goLeft, toEmitC_cons]
                simp only [cfTodo]
                rw [if_pos hdm]
                simp
              · rw [stackMeasureC_pushCFrame_goLeft, stackMeasureC_cons,
                  stackMeasureC_cons]
                simp only [frameMeasureC]
                omega
              · rw [stackMeasureC_pushCFrame_goLeft, stackMeasureC_cons]
                simp only [frameMeasureC]
                omega
          · have hstep : nextCLoop (fuel + 1)
                (⟨Link.node nl nv lf md rt, p0, TstIteratorAction.goMiddle, lb, kt, tl⟩
                  :: rest) tj li Option.none joker
                = nextCLoop fuel
                  (⟨Link.node nl nv lf md rt, p0, TstIteratorAction.goRight, lb, kt,
                      tl⟩ :: rest) tj li Option.none joker := by
              simp only [nextCLoop]
              rw [if_neg hdm]
              rfl
            refine nextCSpec_step hstep ?_ ?_ (ih _ tj li joker ?_)
            · rw [toEmitC_cons, toEmitC_cons]
              simp only [cfTodo]
              rw [if_neg hdm]
              simp
            · rw [stackMeasureC_cons, stackMeasureC_cons]
              simp only [frameMeasureC]
              omega
            · rw [stackMeasureC_cons]
              simp only [frameMeasureC]
              omega
        | goRight =>
          simp only [frameMeasureC] at hf
          by_cases hpr : lb = joker ∨ nl < lb
          · have hstep : nextCLoop (fuel + 1)
                (⟨Link.node nl nv lf md rt, p0, TstIteratorAction.goRight, lb, kt, tl⟩
                  :: rest) tj li Option.none joker
                = nextCLoop fuel
                  (pushCFrame rt (p0 ++ [Dir.right]) TstIteratorAction.goLeft lb kt tl
                    ++ rest) tj li Option.none joker := by
              simp only [nextCLoop]
              rw [if_pos hpr]
            refine nextCSpec_step hstep ?_ ?_ (ih _ tj li joker ?_)
            · rw [toEmitC_cons, toEmitC_pushCFrame_goLeft]
              simp only [cfTodo]
              rw [if_pos hpr]
            · rw [stackMeasureC_pushCFrame_goLeft, stackMeasureC_cons]
              simp only [frameMeasureC]
              omega
            · rw [stackMeasureC_pushCFrame_goLeft]
              omega
          · have hstep : nextCLoop (fuel + 1)
                (⟨Link.node nl nv lf md rt, p0, TstIteratorAction.goRight, lb, kt, tl⟩
                  :: rest) tj li Option.none joker
                = nextCLoop fuel rest tj li Option.none joker := by
              simp only [nextCLoop]
              rw [if_neg hpr]
              rfl
            refine nextCSpec_step hstep ?_ ?_ (ih _ tj li joker ?_)
            · rw [toEmitC_cons]
              simp only [cfTodo]
              rw [if_neg hpr]
              simp
            · rw [stackMeasureC_cons]
              simp only [frameMeasureC]
              omega
            · omega
        | visit =>
          simp only [frameMeasureC] at hf
          by_cases hem : (match nv with
              | some x => if tl = 0 ∧ (lb = joker ∨ lb = nl) then [x] else []
              | Option.none => ([] : List T)) = []
          · have hstep : nextCLoop (fuel + 1)
                (⟨Link.node nl nv lf md rt, p0, TstIteratorAction.visit, lb, kt, tl⟩
                  :: rest) tj li Option.none joker
                = nextCLoop fuel
                  (⟨Link.node nl nv lf md rt, p0, TstIteratorAction.goMiddle, lb, kt,
                      tl⟩ :: rest) tj li Option.none joker := by
              simp only [nextCLoop]
              rw [if_neg (by simp)]
              cases nv with
              | none => rfl
              | some x =>
                have hc : ¬ (tl = 0 ∧ (lb = joker ∨ lb = nl)) := by
                  intro hc2
                  simp [hc2] at hem
                simp only [if_neg hc]
            refine nextCSpec_step hstep ?_ ?_ (ih _ tj li joker ?_)
            · rw [toEmitC_cons, toEmitC_cons]
              simp only [cfTodo]
              rw [hem]
              simp
            · rw [stackMeasureC_cons, stackMeasureC_cons]
              simp only [frameMeasureC]
              omega
            · rw [stackMeasureC_cons]
              simp only [frameMeasureC]
              omega
          · obtain ⟨x, hnv, hcond⟩ : ∃ x, nv = some x
                ∧ (tl = 0 ∧ (lb = joker ∨ lb = nl)) := by
              cases nv with
              | none => exact absurd rfl hem
              | some x =>
                by_cases hc : tl = 0 ∧ (lb = joker ∨ lb = nl)
                · exact ⟨x, rfl, hc⟩
                · simp [hc] at hem
            subst hnv
            have hE : toEmitC joker
                (⟨Link.node nl (some x) lf md rt, p0, TstIteratorAction.visit, lb, kt,
                    tl⟩ :: rest)
                = x :: toEmitC joker
                    (⟨Link.node nl (some x) lf md rt, p0, TstIteratorAction.goMiddle,
                        lb, kt, tl⟩ :: rest) := by
              rw [toEmitC_cons, toEmitC_cons]
              simp only [cfTodo]
              rw [if_pos hcond]
              simp
            constructor
            · intro h0
              rw [hE] at h0
              cases h0
            · intro y rest1 h0
              rw [hE] at h0
              rw [List.cons.injEq] at h0
              obtain ⟨hy, hrest⟩ := h0
              subst hy
              refine ⟨⟨Link.node nl (some x) lf md rt, p0, TstIteratorAction.goMiddle,
                  lb, kt, tl⟩ :: rest, p0, ?_, hrest, ?_⟩
              · simp only [nextCLoop]
                rw [if_neg (by simp)]
                simp only [if_pos hcond]
              · rw [stackMeasureC_cons, stackMeasureC_cons]
                simp [frameMeasureC]

theorem nextC_characterization {T : Type} (it : TstCrosswordIterator T)
    (hlj : it.last_j = Option.none) :
    (toEmitC it.joker it.todo_i = [] →
      it.next = (Option.none, ⟨[], it.last_i, it.todo_j, Option.none, it.joker⟩)) ∧
    (∀ x rest, toEmitC it.joker it.todo_i = x :: rest →
      ∃ ti' p, it.next = (some x, ⟨ti', some p, it.todo_j, Option.none, it.joker⟩)
        ∧ toEmitC it.joker ti' = rest) := by
  obtain ⟨h1, h2⟩ := nextCLoop_spec (stackMeasureC it.todo_i + 1) it.todo_i it.todo_j
    it.last_i it.joker (Nat.lt_succ_self _)
  constructor
  · intro h0
    have he := h1 h0
    simp [TstCrosswordIterator.next, hlj, he]
  · intro x rest h0
    obtain ⟨ti', p, he, ht, _⟩ := h2 x rest h0
    exact ⟨ti', p, by simp [TstCrosswordIterator.next, hlj, he], ht⟩

/-- Repeatedly call `next` on the crossword iterator until it returns `None`,
collecting the yielded values. -/
def drainNextC {T : Type} : Nat → TstCrosswordIterator T → List T
  | 0, _ => []
  | n + 1, it =>
    match TstCrosswordIterator.next it with
    | (Option.none, _) => []
    | (some x, it2) => x :: drainNextC n it2

theorem drainNextC_spec {T : Type} :
    ∀ (n : Nat) (ti tj : List (CFrame T)) (li : Option NodePath) (joker : Char),
      (toEmitC joker ti).length ≤ n →
      drainNextC n ⟨ti, li, tj, Option.none, joker⟩ = toEmitC joker ti := by
  intro n
  induction n with
  | zero =>
    intro ti tj li joker h
    have h0 : toEmitC joker ti = [] := List.length_eq_zero.1 (Nat.le_zero.1 h)
    simp [drainNextC, h0]
  | succ n ih =>
    intro ti tj li joker h
    rcases hE : toEmitC joker ti with _ | ⟨x, rest⟩
    · have hnext := (nextC_characterization ⟨ti, li, tj, Option.none, joker⟩ rfl).1 hE
      simp only [drainNextC]
      rw [hnext]
    · have hnext :=
        (nextC_characterization ⟨ti, li, tj, Option.none, joker⟩ rfl).2 x rest hE
      obtain ⟨ti', p, he, ht⟩ := hnext
      have hlen : (toEmitC joker ti').length ≤ n := by
        rw [ht]
        rw [hE] at h
        simpa using h
      simp only [drainNextC]
      rw [he]
      simp [ih ti' tj (some p) joker hlen, ht]

theorem toEmitC_new {T : Type} (t : Tst T) (label : Char) (kt : List Char)
    (joker : Char) :
    toEmitC joker (TstCrosswordIterator.new t (label :: kt) joker).todo_i
      = cEmit t.root label kt (utf8Len (label :: kt) - 1) joker := by
  cases hroot : t.root <;>
    simp [TstCrosswordIterator.new, hroot, pushCFrame, toEmitC, cfTodo, cEmit]

theorem drainNextC_new {T : Type} (t : Tst T) (label : Char) (kt : List Char)
    (joker : Char) (n : Nat)
    (hn : (toEmitC joker
      (TstCrosswordIterator.new t (label :: kt) joker).todo_i).length ≤ n) :
    drainNextC n (t.iter_crossword (label :: kt) joker)
      = cEmit t.root label kt (utf8Len (label :: kt) - 1) joker := by
  have hiter : t.iter_crossword (label :: kt) joker
      = ⟨(TstCrosswordIterator.new t (label :: kt) joker).todo_i, Option.none,
          (TstCrosswordIterator.new t (label :: kt) joker).todo_j, Option.none,
          joker⟩ := rfl
  rw [hiter, drainNextC_spec n _ _ Option.none joker hn, toEmitC_new]

/-- `visit_crossword_values` as the spec's filter, for every pattern (the
empty pattern yields nothing, and no stored key is empty). -/
theorem visit_crossword_values_spec {T : Type} (t : Tst T)
    (h : ordInv t.root = true) (key : List Char) (joker : Char) :
    t.visit_crossword_values key joker
      = ((entries t.root).filter
          (fun e => cwMatch joker key e.1)).map Prod.snd := by
  cases key with
  | nil =>
    have hfil : (entries t.root).filter (fun e => cwMatch joker [] e.1) = [] := by
      apply List.filter_eq_nil.2
      intro e he
      rw [cwMatch_nil_left joker e.1
        (keyList_ne_nil t.root e.1 (List.mem_map_of_mem Prod.fst he))]
      simp
    rw [hfil]
    rfl
  | cons label kt =>
    show visit_crossword_values_r t.root label kt joker = _
    exact visit_crossword_values_r_spec t.root label kt joker h

/-- C5 counterexample: with the single stored key `"é"` (a two-byte
character) and pattern `"é"`, `visit_crossword_values` emits the value (the
pattern is walked by characters), but the iterator's `tail_len` seed is
`key.len()-1 = 1` (UTF-8 bytes, lib.rs:1664), so its `tail_len == 0`
acceptance test (lib.rs:1726) never fires and a drained `iter_crossword`
yields nothing — the program itself violates the claimed visitor/iterator
agreement for multibyte patterns. -/
theorem C5_counterexample :
    cwMatch '?' ['é'] ['é'] = true
      ∧ (applyOps [Op.ins ['é'] 0] : Tst Nat).visit_crossword_values ['é'] '?'
          = [0]
      ∧ drainNextC 8
          ((applyOps [Op.ins ['é'] 0] : Tst Nat).iter_crossword ['é'] '?')
          = [] := by
  refine ⟨by decide, rfl, rfl⟩

/-- C5 (amended): on any API-reachable tree, `visit_crossword_values(p, j)`
passes to its callback a stored value iff its key has exactly the pattern's
length and matches it position-by-position with `j` as wildcard (the yielded
list is the in-order filtered entry list) — this holds for every pattern —
and, for a pattern of single-byte (ASCII) characters so that the byte count
`key.len()` seeding `tail_len` equals the character count, draining
`iter_crossword(p, j)` forward yields the same list; in particular pattern
`"a?a"` with joker `'?'` on the 16-key example tree yields exactly the values
for keys `{"aba","aca"}`, in order.  (For a multibyte pattern the iterator's
byte-based `tail_len` never reaches `0` at pattern exhaustion and it can
yield nothing although the visitor yields.) -/
theorem C5_crossword_search {T : Type} (ops : List (Op T)) (key : List Char)
    (joker : Char) (n : Nat)
    (hn : (toEmitC joker ((applyOps ops).iter_crossword key joker).todo_i).length
      ≤ n) :
    (applyOps ops).visit_crossword_values key joker
        = ((entries (applyOps ops).root).filter
            (fun e => cwMatch joker key e.1)).map Prod.snd
      ∧ (utf8Len key = key.length →
          drainNextC n ((applyOps ops).iter_crossword key joker)
            = (applyOps ops).visit_crossword_values key joker)
      ∧ tst16.visit_crossword_values ['a', '?', 'a'] '?'
          = [['a', 'b', 'a'], ['a', 'c', 'a']]
      ∧ drainNextC 64 (tst16.iter_crossword ['a', '?', 'a'] '?')
          = tst16.visit_crossword_values ['a', '?', 'a'] '?' := by
  have hord := ordInv_applyOps ops
  have h1 := visit_crossword_values_spec (applyOps ops) hord key joker
  refine ⟨h1, ?_, by decide, by decide⟩
  intro hascii
  cases key with
  | nil =>
    have hit : (applyOps ops).iter_crossword [] joker
        = ⟨[], Option.none, [], Option.none, joker⟩ := rfl
    cases n with
    | zero => rfl
    | succ n =>
      show drainNextC (n + 1) ⟨[], Option.none, [], Option.none, joker⟩ = _
      rw [drainNextC_spec (n + 1) [] [] Option.none joker (by simp [toEmitC])]
      rfl
  | cons label kt =>
    rw [drainNextC_new (applyOps ops) label kt joker n hn]
    have htl : utf8Len (label :: kt) - 1 = kt.length := by
      rw [hascii]
      simp
    rw [htl, cEmit_eq_visit (applyOps ops).root label kt joker]
    rfl

theorem C5_crossword_search_witness :
    ((applyOps [Op.ins ['a'] 5] : Tst Nat).visit_crossword_values ['?'] '?'
        = ((entries (applyOps [Op.ins ['a'] 5] : Tst Nat).root).filter
            (fun e => cwMatch '?' ['?'] e.1)).map Prod.snd
      ∧ (utf8Len ['?'] = (['?'] : List Char).length →
          drainNextC 8
              ((applyOps [Op.ins ['a'] 5] : Tst Nat).iter_crossword ['?'] '?')
            = (applyOps [Op.ins ['a'] 5] : Tst Nat).visit_crossword_values ['?'] '?')
      ∧ tst16.visit_crossword_values ['a', '?', 'a'] '?'
          = [['a', 'b', 'a'], ['a', 'c', 'a']]
      ∧ drainNextC 64 (tst16.iter_crossword ['a', '?', 'a'] '?')
          = tst16.visit_crossword_values ['a', '?', 'a'] '?') :=
  C5_crossword_search [Op.ins ['a'] 5] ['?'] '?' 8 (by decide)

end TernaryTree
